import Mathlib

/-!
Verification development for the shp.js Shapefile parser and compression
codec (src/BitView.ts, src/SHPCompress.ts, src/SHPParser.ts).  The
TypeScript source is shallowly embedded: JS `number` values carrying
coordinates are modelled as exact rationals, byte buffers as `List Nat`
with bytes `< 256`, bitwise operators as the corresponding `Nat`
operations, and fallible operations (`DataView` accesses that can throw,
explicit `throw` statements, typed-array constructors on negative sizes)
with `Except`.  Definitions come first, then the theorems.
-/

set_option maxRecDepth 100000

namespace Shp

/-!
Verification development for the shp.js Shapefile parser and compression
codec.  The TypeScript source is shallowly embedded: JS `number` values
carrying coordinates are modelled as exact rationals (ℚ), byte buffers
(`ArrayBuffer`/`Uint8Array`) as `List Nat` with bytes `< 256`, and the JS
bitwise operators on 32-bit integers as the corresponding `Nat` operations
(all quantities involved fit well below 2^31, so no wrap-around of the JS
`ToInt32` conversions can occur; the one place a conversion is observable,
`new Int16Array(...)`, is modelled explicitly by `toInt16`).  Fallible
operations (`DataView` accesses that can throw `RangeError`, explicit
`throw` statements) are modelled with `Except`.
-/



/-! ## Byte buffers

A `Uint8Array` is a `List Nat` whose entries are `< 256`.  JS semantics:
reading out of bounds yields `undefined`, which the arithmetic in the
source coerces to `0`; writing out of bounds is silently dropped.  `lget`
and `List.set` model exactly this. -/

/-- Read a byte; out-of-bounds reads give 0 (JS `undefined` coerced by the
bit-arithmetic in the source). -/
def lget (l : List Nat) (i : Nat) : Nat := l.getD i 0

/-- All entries of a byte buffer are genuine bytes. -/
def bytesOK (l : List Nat) : Prop := ∀ b ∈ l, b < 256

/-! ## BitView

Translation of `BitView` (src/BitView.ts).  Bit `idx` lives in byte
`idx >> 3` at position `7 - (idx & 7)` from the least-significant end
(big-endian bit order inside each byte).  `~m` applied to a byte in JS
equals `255 - (m &&& 255)` on the low 8 bits, which is how the complement
masks are written below.  In `setInt12`/`setInt6` the source shifts the
biased value `val + 2048` (resp. `val + 32`) without a range check; we
take it modulo 2^12 (resp. 2^6), which coincides with the JS bit
arithmetic for every in-range value (the only values the codec ever
writes). -/

/-- Biased 12-bit wire value of an integer. -/
def n12 (val : Int) : Nat := ((val + 2048) % 4096).toNat

/-- Biased 6-bit wire value of an integer. -/
def n6 (val : Int) : Nat := ((val + 32) % 64).toNat

/-- BitView.getBit: `(u8[idx>>3] & (0x80 >> (idx&7))) >> (7-(idx&7))`. -/
def getBit (l : List Nat) (idx : Nat) : Nat :=
  (lget l (idx / 8) &&& (128 >>> (idx % 8))) >>> (7 - idx % 8)

/-- BitView.getInt12. -/
def getInt12 (l : List Nat) (idx : Nat) : Int :=
  let bidx := idx / 8
  let a := lget l bidx
  let b := lget l (bidx + 1)
  let c := lget l (bidx + 2)
  let off := idx % 8
  let abits := 8 - off
  let bbits := min (12 - abits) 8
  let cbits := 12 - abits - bbits
  let am := 255 - ((255 <<< abits) &&& 255)
  let bm := (255 <<< (8 - bbits)) &&& 255
  let cm := (255 <<< (8 - cbits)) &&& 255
  (((((a &&& am) <<< 16) + ((b &&& bm) <<< 8) + (c &&& cm)) >>> (12 - off) : Nat) : Int) - 2048

/-- BitView.setInt12. -/
def setInt12 (l : List Nat) (idx : Nat) (val : Int) : List Nat :=
  let n := n12 val
  let bidx := idx / 8
  let off := idx % 8
  let v := n <<< (12 - off)
  let a := (v &&& 0xff0000) >>> 16
  let b := (v &&& 0xff00) >>> 8
  let c := v &&& 0xff
  let abits := 8 - off
  let bbits := min (12 - abits) 8
  let cbits := 12 - abits - bbits
  let am := (255 <<< abits) &&& 255
  let bm := 255 - ((255 <<< (8 - bbits)) &&& 255)
  let cm := 255 - ((255 <<< (8 - cbits)) &&& 255)
  let l1 := l.set bidx ((lget l bidx &&& am) + a)
  let l2 := l1.set (bidx + 1) ((lget l1 (bidx + 1) &&& bm) + b)
  l2.set (bidx + 2) ((lget l2 (bidx + 2) &&& cm) + c)

/-- BitView.getInt6.  For `off ≥ 2` the JS shift `0xff >> (8 - (2 - off))`
evaluates to 0 (shift count ≥ 8); with `Nat` truncated subtraction
`2 - off = 0` the same expression also evaluates to 0, so the translation
agrees with the source at every offset. -/
def getInt6 (l : List Nat) (idx : Nat) : Int :=
  let bidx := idx / 8
  let a := lget l bidx
  let b := lget l (bidx + 1)
  let off := idx % 8
  let abits := 8 - off
  let bbits := 6 - abits
  let am := 255 - (((255 <<< abits) + (255 >>> (8 - (2 - off)))) &&& 255)
  let bm := (255 <<< (8 - bbits)) &&& 255
  ((((a &&& am) <<< 8) + (b &&& bm)) >>> (10 - off) : Nat) - 32

/-- BitView.setInt6. -/
def setInt6 (l : List Nat) (idx : Nat) (val : Int) : List Nat :=
  let n := n6 val
  let bidx := idx / 8
  let off := idx % 8
  let v := n <<< (10 - off)
  let a := (v &&& 0xff00) >>> 8
  let b := v &&& 0xff
  let abits := 8 - off
  let bbits := 6 - abits
  let am := ((255 <<< abits) + (255 >>> (8 - (2 - off)))) &&& 255
  let bm := 255 - ((255 <<< (8 - bbits)) &&& 255)
  let l1 := l.set bidx ((lget l bidx &&& am) + a)
  l1.set (bidx + 1) ((lget l1 (bidx + 1) &&& bm) + b)

/-! ## Delta codec (src/SHPCompress.ts)

`deltaEncode6` walks the 16-bit quantized stream, second-stage-quantizes
every sample by `(v / 16) | 0` (truncating division, `Int.tdiv`), and
groups the data into `polys` (one group per `-2048` part sentinel), each
group a list of spans `[x, y, d1x, d1y, ...]` (absolute anchor pair
followed by 6-bit deltas).  `byteLen` counts 6-bit units: `+4` per anchor
pair, `+2` per delta pair, `+1` per span flush, `+3` per part sentinel
(the closing span terminator plus the 12-bit sentinel itself).
`storeDeltas6` bit-packs the groups through BitView starting at bit 32 and
stores the final bit index in a big-endian 32-bit header.  `deltaDecode6`
reverses the packing and multiplies everything by 16. -/

/-- JS `Math.ceil(n * 0.75)` for a natural number. -/
def ceil075 (n : Nat) : Nat := (3 * n + 3) / 4

/-- State of the `deltaEncode6` loop. -/
structure EncState where
  x : Int
  y : Int
  span : List Int
  spans : List (List Int)
  polys : List (List (List Int))
  byteLen : Nat
deriving DecidableEq

def encInit : EncState := ⟨0, 0, [], [], [], 0⟩

/-- The scan loop of `deltaEncode6` on the already second-stage-quantized
stream.  A non-sentinel sample consumes its pair partner `rest.headD 0`
(the JS source reads `quantized[i+1]`, which is never out of range on the
sentinel-terminated streams the compressor produces). -/
def encLoop : List Int → EncState → EncState
  | [], st => st
  | v :: rest, st =>
    if v = -2048 then
      encLoop rest { st with polys := st.polys ++ [st.spans ++ [st.span]],
                             spans := [], span := [], byteLen := st.byteLen + 3 }
    else
      let h := rest.headD 0
      if st.span = [] then
        encLoop rest.tail
          { st with x := v, y := h, span := [v, h], byteLen := st.byteLen + 4 }
      else if 31 < (st.x - v).natAbs ∨ 31 < (st.y - h).natAbs then
        encLoop rest.tail
          { st with spans := st.spans ++ [st.span], span := [v, h], x := v, y := h,
                    byteLen := st.byteLen + 1 + 4 }
      else
        encLoop rest.tail
          { st with span := st.span ++ [v - st.x, h - st.y], x := v, y := h,
                    byteLen := st.byteLen + 2 }
termination_by l => l.length
decreasing_by
  all_goals simp [List.length_tail]
  all_goals omega

/-- DataView.setUint32 big-endian (used for the bit-length header). -/
def setUint32BE (l : List Nat) (off : Nat) (v : Nat) : List Nat :=
  (((l.set off (v / 16777216 % 256)).set (off + 1) (v / 65536 % 256)).set
    (off + 2) (v / 256 % 256)).set (off + 3) (v % 256)

/-- DataView.getUint32 big-endian, unchecked (callers check bounds). -/
def readU32BE (l : List Nat) (off : Nat) : Nat :=
  lget l off * 16777216 + lget l (off + 1) * 65536 + lget l (off + 2) * 256 +
    lget l (off + 3)

/-- Write the 6-bit deltas of a span. -/
def writeDeltas (bi : List Nat × Nat) (ds : List Int) : List Nat × Nat :=
  ds.foldl (fun bi d => (setInt6 bi.1 bi.2 d, bi.2 + 6)) bi

/-- Write one span: two 12-bit anchors, the deltas, then the 6-bit span
terminator `-32`.  A missing anchor (empty span, only possible for a
stream with no points at all) is JS `undefined`, whose NaN arithmetic
stores wire value 0 — exactly what `setInt12` stores for `-2048`, which is
how `List.getD _ _ (-2048)` models it. -/
def writeSpan (bi : List Nat × Nat) (span : List Int) : List Nat × Nat :=
  let bi1 := (setInt12 bi.1 bi.2 (span.getD 0 (-2048)), bi.2 + 12)
  let bi2 := (setInt12 bi1.1 bi1.2 (span.getD 1 (-2048)), bi1.2 + 12)
  let bi3 := writeDeltas bi2 (span.drop 2)
  (setInt6 bi3.1 bi3.2 (-32), bi3.2 + 6)

/-- Write one group: its spans, then the 12-bit part sentinel `-2048`. -/
def writeGroup (bi : List Nat × Nat) (spans : List (List Int)) : List Nat × Nat :=
  let bi1 := spans.foldl writeSpan bi
  (setInt12 bi1.1 bi1.2 (-2048), bi1.2 + 12)

/-- storeDeltas6: allocate `ceil(byteLen*0.75)+4` zeroed bytes, bit-pack
all groups starting at bit 32, then store the final bit index in the
32-bit big-endian header. -/
def storeDeltas6 (byteLen : Nat) (polys : List (List (List Int))) : List Nat :=
  let buf := List.replicate (ceil075 byteLen + 4) 0
  let bi := polys.foldl writeGroup (buf, 32)
  setUint32BE bi.1 0 bi.2

/-- Final bit index produced by `storeDeltas6` (the value the header
records). -/
def storeIdxEnd (byteLen : Nat) (polys : List (List (List Int))) : Nat :=
  (polys.foldl writeGroup (List.replicate (ceil075 byteLen + 4) 0, 32)).2

/-- deltaEncode6: second-stage quantization by truncating division by 16,
then the scan loop, then bit packing. -/
def deltaEncode6 (arr : List Int) : List Nat :=
  let quantized := arr.map (fun v => v.tdiv 16)
  let st := encLoop quantized encInit
  storeDeltas6 st.byteLen st.polys

mutual
/-- Outer loop of `deltaDecode6`: read a 12-bit field; `-2048` is a part
sentinel (emitted and the loop continues), anything else starts a span
whose second anchor is read unconditionally. -/
def decOuter (l : List Nat) (bl : Nat) : Nat → Nat → List Int → List Int
  | 0, _, acc => acc
  | fuel + 1, idx, acc =>
    if idx < bl then
      let x := getInt12 l idx
      if x = -2048 then decOuter l bl fuel (idx + 12) (acc ++ [-2048])
      else
        decInner l bl fuel (idx + 24) x (getInt12 l (idx + 12))
          (acc ++ [x, getInt12 l (idx + 12)])
    else acc

/-- Inner loop of `deltaDecode6`: accumulate 6-bit delta pairs until the
span terminator `-32`. -/
def decInner (l : List Nat) (bl : Nat) : Nat → Nat → Int → Int → List Int → List Int
  | 0, _, _, _, acc => acc
  | fuel + 1, idx, x, y, acc =>
    if idx < bl then
      let dx := getInt6 l idx
      if dx = -32 then decOuter l bl fuel (idx + 6) acc
      else
        decInner l bl fuel (idx + 12) (x + dx) (y + getInt6 l (idx + 6))
          (acc ++ [x + dx, y + getInt6 l (idx + 6)])
    else acc
end

/-- deltaDecode6: read the bit-length header (a `DataView` access that
throws on a buffer shorter than 4 bytes), run the scan loop, then undo
the second-stage quantization by multiplying by 16.  The loop index
strictly increases by at least 6 every iteration, so fuel `bl + 1` is
never exhausted; it only makes the recursion structural. -/
def deltaDecode6 (buf : List Nat) : Except Unit (List Int) :=
  if 4 ≤ buf.length then
    let bl := readU32BE buf 0
    .ok ((decOuter buf bl (bl + 1) 32 []).map (· * 16))
  else .error ()

/-! ### Field sequences

`storeDeltas6` writes a sequence of 12-bit and 6-bit fields at strictly
increasing bit offsets; `deltaDecode6` reads them back in order.  The
bridge is the field list of a span/group/stream and the predicate
`FieldsAt`, which says the buffer holds the given fields starting at a
given bit offset. -/

inductive BField where
  | f12 (v : Int)
  | f6 (v : Int)
deriving DecidableEq

def fwidth : BField → Nat
  | .f12 _ => 12
  | .f6 _ => 6

def totalWidth (fs : List BField) : Nat := (fs.map fwidth).sum

/-- A field value the BitView wire format represents exactly. -/
def fieldOK : BField → Prop
  | .f12 v => -2048 ≤ v ∧ v ≤ 2047
  | .f6 v => -32 ≤ v ∧ v ≤ 31

def writeF (bi : List Nat × Nat) (f : BField) : List Nat × Nat :=
  match f with
  | .f12 v => (setInt12 bi.1 bi.2 v, bi.2 + 12)
  | .f6 v => (setInt6 bi.1 bi.2 v, bi.2 + 6)

def writeFs (bi : List Nat × Nat) (fs : List BField) : List Nat × Nat :=
  fs.foldl writeF bi

/-- The fields of one span: two 12-bit anchors, 6-bit deltas, terminator. -/
def spanFields (s : List Int) : List BField :=
  .f12 (s.getD 0 (-2048)) :: .f12 (s.getD 1 (-2048)) ::
    ((s.drop 2).map .f6 ++ [.f6 (-32)])

/-- The fields of one group: its spans then the part sentinel. -/
def groupFields (g : List (List Int)) : List BField :=
  g.flatMap spanFields ++ [.f12 (-2048)]

def polysFields (ps : List (List (List Int))) : List BField :=
  ps.flatMap groupFields

/-- The buffer holds the given fields starting at bit offset `o`. -/
def FieldsAt (B : List Nat) : Nat → List BField → Prop
  | _, [] => True
  | o, .f12 v :: fs => getInt12 B o = v ∧ FieldsAt B (o + 12) fs
  | o, .f6 v :: fs => getInt6 B o = v ∧ FieldsAt B (o + 6) fs

/-! ### Decoded form of a span/group structure

`spanPoints` reconstructs the absolute points a span represents (anchor
pair plus accumulated deltas), mirroring what `deltaDecode6` pushes.
`polysDec` is the full decoded stream: the points of every span of every
group, with `-2048` after each group. -/

def walkDs : Int → Int → List Int → List Int
  | x, y, dx :: dy :: rest => (x + dx) :: (y + dy) :: walkDs (x + dx) (y + dy) rest
  | _, _, _ => []

def spanPoints : List Int → List Int
  | x :: y :: ds => x :: y :: walkDs x y ds
  | _ => []

def groupDec (g : List (List Int)) : List Int := g.flatMap spanPoints ++ [-2048]

def polysDec (ps : List (List (List Int))) : List Int := ps.flatMap groupDec

/-- A well-formed span: an anchor pair (the x anchor is never `-2048`,
which is reserved for the part sentinel) followed by an even run of
deltas that fit in 6 bits without hitting the `-32` span terminator. -/
def spanOK (s : List Int) : Prop :=
  ∃ x y ds, s = x :: y :: ds ∧ (-2047 ≤ x ∧ x ≤ 2047) ∧ (-2048 ≤ y ∧ y ≤ 2047) ∧
    ds.length % 2 = 0 ∧ ∀ d ∈ ds, -31 ≤ d ∧ d ≤ 31

def groupOK (g : List (List Int)) : Prop := ∀ s ∈ g, spanOK s

def polysOK (ps : List (List (List Int))) : Prop := ∀ g ∈ ps, groupOK g

/-- Resumption states of the `deltaDecode6` loop. -/
inductive DState where
  | done
  | tl (ss : List (List Int)) (gs : List (List (List Int)))
  | inner (x y : Int) (ds : List Int) (ss : List (List Int))
      (gs : List (List (List Int)))

def dsFields : DState → List BField
  | .done => []
  | .tl ss gs => ss.flatMap spanFields ++ [.f12 (-2048)] ++ polysFields gs
  | .inner _ _ ds ss gs =>
      ds.map .f6 ++ [.f6 (-32)] ++ (ss.flatMap spanFields ++ [.f12 (-2048)] ++ polysFields gs)

def dsDecode : DState → List Int
  | .done => []
  | .tl ss gs => ss.flatMap spanPoints ++ [-2048] ++ polysDec gs
  | .inner x y ds ss gs =>
      walkDs x y ds ++ (ss.flatMap spanPoints ++ [-2048] ++ polysDec gs)

def dsOK : DState → Prop
  | .done => True
  | .tl ss gs => (∀ s ∈ ss, spanOK s) ∧ polysOK gs
  | .inner _ _ ds ss gs =>
      ds.length % 2 = 0 ∧ (∀ d ∈ ds, -31 ≤ d ∧ d ≤ 31) ∧
        (∀ s ∈ ss, spanOK s) ∧ polysOK gs

def dsRun (st : DState) (B : List Nat) (bl fuel o : Nat) (acc : List Int) : List Int :=
  match st with
  | .inner x y _ _ _ => decInner B bl fuel o x y acc
  | _ => decOuter B bl fuel o acc

/-! ### Encoder loop invariant

`encLoop` is related to the decoded stream: the groups it eventually
flushes decode back (via `polysDec`) to exactly the input samples, and
`byteLen` counts exactly the written 6-bit units — provided the stream
never presents a part sentinel while the current span is empty (this is
the zero-point corner in which the source undercounts, see the C8
analysis). -/

/-- End point of a delta walk. -/
def walkEnd : Int → Int → List Int → Int × Int
  | x, y, dx :: dy :: rest => walkEnd (x + dx) (y + dy) rest
  | x, y, _ => (x, y)

/-- Pending decoded samples held in the encoder state (flushed spans of
the current group plus the current span). -/
def pendDec (st : EncState) : List Int :=
  st.spans.flatMap spanPoints ++ (if st.span = [] then [] else spanPoints st.span)

/-- Pending already-counted 6-bit units (the current span is missing its
terminator unit, which is only counted on flush). -/
def pendW (st : EncState) : Nat :=
  totalWidth (st.spans.flatMap spanFields) +
    (if st.span = [] then 0 else totalWidth (spanFields st.span) - 6)

/-- Encoder loop invariant. -/
def StInv (st : EncState) : Prop :=
  polysOK st.polys ∧ (∀ s ∈ st.spans, spanOK s) ∧
    (st.span = [] ∨ ∃ x0 y0 ds, st.span = x0 :: y0 :: ds ∧ spanOK st.span ∧
      walkEnd x0 y0 ds = (st.x, st.y))

/-! ## Data model (src/SHPParser.ts interfaces)

JS `number` is modelled as `ℚ` (exact rational arithmetic; IEEE-754
rounding is out of scope of every claim below, which only exercises
integers and small dyadic/decimal literals, where doubles are exact).
`Infinity` appears only in the min/max bounding-box folds of
`decompress`, so box fields use `JNum`, rationals extended with the two
infinities.  Typed arrays are lists; optional interface fields are
`Option`. -/

inductive JNum where
  | posInf
  | negInf
  | val (q : ℚ)
deriving DecidableEq

/-- JS `Math.min` (no NaN in any modelled flow). -/
def jmin : JNum → JNum → JNum
  | .negInf, _ => .negInf
  | _, .negInf => .negInf
  | .posInf, b => b
  | a, .posInf => a
  | .val a, .val b => .val (min a b)

/-- JS `Math.max`. -/
def jmax : JNum → JNum → JNum
  | .posInf, _ => .posInf
  | _, .posInf => .posInf
  | .negInf, b => b
  | a, .negInf => a
  | .val a, .val b => .val (max a b)

structure PointContent where
  x : ℚ
  y : ℚ
  z : Option ℚ := none
  m : Option ℚ := none
deriving DecidableEq

structure PolyContent where
  minX : JNum
  minY : JNum
  maxX : JNum
  maxY : JNum
  parts : List Int
  points : List ℚ
  z : Option (List ℚ) := none
  m : Option (List ℚ) := none
  minZ : Option JNum := none
  maxZ : Option JNum := none
  minM : Option JNum := none
  maxM : Option JNum := none
  partTypes : Option (List Int) := none
deriving DecidableEq

inductive ShapeContent where
  | pt (c : PointContent)
  | poly (c : PolyContent)
deriving DecidableEq

structure Shape where
  type : Int
  content : Option ShapeContent := none
deriving DecidableEq

structure ShapeRecord where
  number : Int
  length : Int
  shape : Shape
deriving DecidableEq

structure ShapefileData where
  fileCode : Int
  wordLength : Int
  byteLength : Int
  version : Int
  shapeType : Int
  minX : JNum
  minY : JNum
  maxX : JNum
  maxY : JNum
  minZ : JNum
  maxZ : JNum
  minM : JNum
  maxM : JNum
  records : List ShapeRecord
deriving DecidableEq

namespace ShapeType

def NULL : Int := 0

def POINT : Int := 1

def POLYLINE : Int := 3

def POLYGON : Int := 5

def MULTIPOINT : Int := 8

def POINTZ : Int := 11

def POLYLINEZ : Int := 13

def POLYGONZ : Int := 15

def MULTIPOINTZ : Int := 18

def POINTM : Int := 21

def POLYLINEM : Int := 23

def POLYGONM : Int := 25

def MULTIPOINTM : Int := 28

def MULTIPATCH : Int := 31

end ShapeType

/-- Error conditions (JS throws; the payload string is irrelevant to every
claim, so errors are a plain enumeration). -/
inductive Err where
  | badVersion
  | shortBuffer
  | badContent
  | badFileCode
  | unknownShape
  | negCount
  | pointsExhausted
  | misaligned
  | fuel
deriving DecidableEq

/-! ## Number coercions -/

/-- Truncation toward zero (first step of every JS ToInt* coercion). -/
def ratTrunc (q : ℚ) : Int := q.num.tdiv (q.den : Int)

/-- JS `Int16Array` element coercion: truncate, then wrap to 16 bits. -/
def toInt16 (q : ℚ) : Int := (ratTrunc q + 32768) % 65536 - 32768

/-- 32-bit signed wrap (JS `Int32Array` element coercion on an integer). -/
def wrap32 (n : Nat) : Int := ((n : Int) + 2147483648) % 4294967296 - 2147483648

/-- JS `Math.round` on a rational: floor(x + 1/2). -/
def jsRound (q : ℚ) : Int := (q + 1 / 2).floor

/-! ## Little-endian byte chunks

`compress` fills a freshly zeroed buffer strictly left to right with
DataView writes whose sizes add up to the allocation exactly, so its
output is modelled as the concatenation of the written chunks. -/

def u16LE (n : Nat) : List Nat := [n % 256, n / 256 % 256]

def u32LE (n : Nat) : List Nat :=
  [n % 256, n / 256 % 256, n / 65536 % 256, n / 16777216 % 256]

def i32LE (v : Int) : List Nat := u32LE (v % 4294967296).toNat

/-- IEEE-754 float32 serialisation is outside the scope of every claim
(no claim inspects Z/M values); only the width, 4 bytes per value, is
modelled. -/
def f32enc (q : ℚ) : List Nat := [0, 0, 0, 0]

/-! ## Bounds-checked DataView readers (DataView throws on reads past the
end of the buffer). -/

def rdU8 (l : List Nat) (o : Nat) : Except Err Nat :=
  if o < l.length then .ok (lget l o) else .error .shortBuffer

def rdU16LE (l : List Nat) (o : Nat) : Except Err Nat :=
  if o + 2 ≤ l.length then .ok (lget l o + 256 * lget l (o + 1))
  else .error .shortBuffer

def rdU32LE (l : List Nat) (o : Nat) : Except Err Nat :=
  if o + 4 ≤ l.length then
    .ok (lget l o + 256 * lget l (o + 1) + 65536 * lget l (o + 2) +
      16777216 * lget l (o + 3))
  else .error .shortBuffer

def rdI32LE (l : List Nat) (o : Nat) : Except Err Int := do
  let v ← rdU32LE l o
  if v < 2147483648 then .ok (v : Int) else .ok ((v : Int) - 4294967296)

/-! ## compress (src/SHPCompress.ts) -/

def isPolyType (t : Int) : Bool :=
  t == ShapeType.POLYGON || t == ShapeType.POLYLINE || t == ShapeType.POLYGONZ ||
    t == ShapeType.POLYLINEZ || t == ShapeType.POLYGONM || t == ShapeType.POLYLINEM

/-- `!shapeType` in JS is the zero test on the (integral) shape type. -/
def effShapeType (shp : ShapefileData) : Int :=
  if shp.shapeType == 0 && !shp.records.isEmpty then
    (shp.records.headD ⟨0, 0, ⟨0, none⟩⟩).shape.type
  else shp.shapeType

/-- Typed-array read at a possibly out-of-range signed index.  A JS
out-of-range read yields `undefined` and poisons the arithmetic with NaN;
the claims only quantify over models whose part ranges are in bounds,
where this default is never consulted. -/
def pget (l : List ℚ) (i : Int) : ℚ :=
  if 0 ≤ i ∧ i < l.length then l.getD i.toNat 0 else 0

/-- The point indices `start ≤ j < end` of one part. -/
def partRange (start fin : Int) : List Int :=
  (List.range (fin - start).toNat).map (fun (j : Nat) => start + (j : Int))

/-- `parts[k+1] ?? points.length / 2` (the flat list stores x,y pairs). -/
def partEnd (c : PolyContent) (k : Nat) : Int :=
  c.parts.getD (k + 1) ((c.points.length / 2 : Nat) : Int)

/-- The point counts `end - start` pushed into a record's metadata. -/
def recordPartLens (c : PolyContent) : List Int :=
  (List.range c.parts.length).map (fun k => partEnd c k - c.parts.getD k 0)

/-- The x,y coordinates compress visits for one record, in visit order. -/
def recordCoords (c : PolyContent) : List ℚ :=
  (List.range c.parts.length).flatMap (fun k =>
    (partRange (c.parts.getD k 0) (partEnd c k)).flatMap
      (fun j => [pget c.points (2 * j), pget c.points (2 * j + 1)]))

/-- The per-point values of an optional z/m array, in visit order. -/
def recordVals (vals : List ℚ) (c : PolyContent) : List ℚ :=
  (List.range c.parts.length).flatMap (fun k =>
    (partRange (c.parts.getD k 0) (partEnd c k)).map (fun j => pget vals j))

/-- One iteration of the compress record loop: the coordinates, z values,
m values and part lengths it contributes.  A poly-typed record whose
content is missing or not a PolyContent makes the JS code dereference
`undefined` (TypeError). -/
def compressRecord (isZ isM : Bool) (r : ShapeRecord) :
    Except Err (List ℚ × List ℚ × List ℚ × List Int) :=
  if isPolyType r.shape.type then
    match r.shape.content with
    | some (.poly c) =>
      .ok (recordCoords c,
        (if isZ then match c.z with | some zl => recordVals zl c | none => [] else []),
        (if isM then match c.m with | some ml => recordVals ml c | none => [] else []),
        recordPartLens c)
    | _ => .error .badContent
  else .ok ([], [], [], [])

def compressScan (isZ isM : Bool) :
    List ShapeRecord → Except Err (List ℚ × List ℚ × List ℚ × List (List Int))
  | [] => .ok ([], [], [], [])
  | r :: rs => do
    let (cs, zs, ms, pl) ← compressRecord isZ isM r
    let (cs2, zs2, ms2, meta) ← compressScan isZ isM rs
    .ok (cs ++ cs2, zs ++ zs2, ms ++ ms2, pl :: meta)

/-- Stage-1 quantization as pushed by compress: `(x / 180) * 32767`. -/
def quantCoord (v : ℚ) : ℚ := v / 180 * 32767

/-- The Int16Array handed to `deltaEncode6`: the quantized coordinates
with the single trailing `-32768` terminator, coerced elementwise. -/
def compressStream (coords : List ℚ) : List Int :=
  ((coords.map quantCoord) ++ [(-32768 : ℚ)]).map toInt16

/-- The fixed 14-byte header. -/
def compressHeader (isZ isM : Bool) (st : Int) (recordCount : Nat)
    (fileCode shpVersion : Int) : List Nat :=
  [if isZ || isM then 2 else 1, (st % 256).toNat] ++ u32LE recordCount ++
    i32LE (if fileCode == 0 then 9994 else fileCode) ++
    i32LE (if shpVersion == 0 then 1000 else shpVersion)

/-- The per-record part table: u16 part count, then u32 part lengths. -/
def compressTable (meta : List (List Int)) : List Nat :=
  meta.flatMap (fun parts =>
    u16LE (parts.length % 65536) ++
      parts.flatMap (fun len => u32LE (len % 4294967296).toNat))

def compress (shp : ShapefileData) : Except Err (List Nat) := do
  let st := effShapeType shp
  let isZ := st == ShapeType.POLYGONZ || st == ShapeType.POLYLINEZ
  let isM := isZ || st == ShapeType.POLYGONM || st == ShapeType.POLYLINEM
  let (coords, zs, ms, meta) ← compressScan isZ isM shp.records
  let payload := deltaEncode6 (compressStream coords)
  .ok (compressHeader isZ isM st meta.length shp.fileCode shp.version ++
    compressTable meta ++ payload ++
    (if isZ then zs.flatMap f32enc else []) ++
    (if isM then ms.flatMap f32enc else []))

/-! ## decompress (src/SHPCompress.ts) -/

/-- Read `n` u32 part lengths. -/
def readParts (buffer : List Nat) (off : Nat) : Nat → Except Err (List Nat × Nat)
  | 0 => .ok ([], off)
  | n + 1 => do
    let len ← rdU32LE buffer off
    let (rest, off2) ← readParts buffer (off + 4) n
    .ok (len :: rest, off2)

/-- Read the part table of `n` records; also accumulates the total point
count. -/
def readTable (buffer : List Nat) (off : Nat) :
    Nat → Except Err (List (List Nat) × Nat × Nat)
  | 0 => .ok ([], off, 0)
  | n + 1 => do
    let pc ← rdU16LE buffer off
    let (parts, off2) ← readParts buffer (off + 2) pc
    let (rest, off3, tp) ← readTable buffer off2 n
    .ok (parts :: rest, off3, parts.sum + tp)

/-- `new Float32Array(buffer.slice(o, o + 4*n))`: the slice clamps, the
constructor throws unless the byte count is a multiple of 4.  Values are
the float32 stub. -/
def f32slice (bytes : List Nat) (n : Nat) : Except Err (List ℚ) :=
  let sz := min (4 * n) bytes.length
  if sz % 4 = 0 then .ok (List.replicate (sz / 4) 0) else .error .misaligned

/-- Consume `len` reconstructed points (x,y pairs) from the decoded flat
stream, converting each value back to degrees. -/
def consumePoints (flatPoints : List Int) : Nat → Nat → Except Err (List ℚ × Nat)
  | _, 0 => .ok ([], 0)
  | pi, k + 1 =>
    if pi + 1 ≥ flatPoints.length then .error .pointsExhausted
    else do
      let x := ((flatPoints.getD pi 0 : Int) : ℚ) / 32767 * 180
      let y := ((flatPoints.getD (pi + 1) 0 : Int) : ℚ) / 32767 * 180
      let (restPts, used) ← consumePoints flatPoints (pi + 2) k
      .ok (x :: y :: restPts, used + 2)

/-- Consume the points of all parts of one record. -/
def consumeParts (flatPoints : List Int) : List Nat → Nat → Except Err (List ℚ × Nat)
  | [], _ => .ok ([], 0)
  | len :: rest, pi => do
    let (pts, used) ← consumePoints flatPoints pi len
    let (pts2, used2) ← consumeParts flatPoints rest (pi + used)
    .ok (pts ++ pts2, used + used2)

/-- Part start offsets (`currentPartStart` accumulation). -/
def partStarts (lens : List Nat) : List Nat :=
  (List.range lens.length).map (fun k => (lens.take k).sum)

/-- x entries of a flat x,y list. -/
def evens : List ℚ → List ℚ
  | x :: _ :: r => x :: evens r
  | _ => []

/-- y entries of a flat x,y list. -/
def odds : List ℚ → List ℚ
  | _ :: y :: r => y :: odds r
  | _ => []

/-- `Math.min` fold from `Infinity` (the per-record bbox loops). -/
def jminFold (vs : List ℚ) : JNum := vs.foldl (fun a v => jmin a (.val v)) .posInf

def jmaxFold (vs : List ℚ) : JNum := vs.foldl (fun a v => jmax a (.val v)) .negInf

/-- Global bounding box accumulator. -/
structure BBox8 where
  minX : JNum
  minY : JNum
  maxX : JNum
  maxY : JNum
  minZ : JNum
  maxZ : JNum
  minM : JNum
  maxM : JNum
deriving DecidableEq

def bbox0 : BBox8 := ⟨.posInf, .posInf, .negInf, .negInf, .posInf, .negInf, .posInf, .negInf⟩

/-- The record reconstruction loop.  `i` is the record index, `pi` the
flat-point cursor, `gi` the global z/m cursor; returns the records, the
global bbox and the accumulated `totalRecordsBytes`. -/
def reconstruct (shapeType : Int) (flatPoints : List Int) (zs ms : Option (List ℚ)) :
    Nat → Nat → Nat → List (List Nat) → BBox8 → Nat →
    Except Err (List ShapeRecord × BBox8 × Nat)
  | _, _, _, [], box, trb => .ok ([], box, trb)
  | i, pi, gi, lens :: rest, box, trb =>
    if lens.isEmpty then do
      let (recs, box2, trb2) ←
        reconstruct shapeType flatPoints zs ms (i + 1) pi gi rest box (trb + 12)
      .ok (⟨(i : Int) + 1, 2, ⟨ShapeType.NULL, none⟩⟩ :: recs, box2, trb2)
    else do
      let (pts, used) ← consumeParts flatPoints lens pi
      let n := lens.sum
      let zvals := match zs with
        | some zl => (List.range n).map (fun t => zl.getD (gi + t) 0)
        | none => []
      let mvals := match ms with
        | some ml => (List.range n).map (fun t => ml.getD (gi + t) 0)
        | none => []
      let recMinX := jminFold (evens pts)
      let recMinY := jminFold (odds pts)
      let recMaxX := jmaxFold (evens pts)
      let recMaxY := jmaxFold (odds pts)
      let recMinZ := jminFold zvals
      let recMaxZ := jmaxFold zvals
      let recMinM := jminFold mvals
      let recMaxM := jmaxFold mvals
      let contentBytes := 44 + lens.length * 4 + pts.length * 8 +
        (if zs.isSome then 16 + zvals.length * 8 else 0) +
        (if ms.isSome then 16 + mvals.length * 8 else 0)
      let content : PolyContent :=
        { minX := recMinX, minY := recMinY, maxX := recMaxX, maxY := recMaxY,
          parts := (partStarts lens).map wrap32, points := pts,
          z := if zs.isSome then some zvals else none,
          m := if ms.isSome then some mvals else none,
          minZ := if zs.isSome then some recMinZ else none,
          maxZ := if zs.isSome then some recMaxZ else none,
          minM := if ms.isSome then some recMinM else none,
          maxM := if ms.isSome then some recMaxM else none }
      let box2 : BBox8 :=
        { minX := jmin box.minX recMinX, minY := jmin box.minY recMinY,
          maxX := jmax box.maxX recMaxX, maxY := jmax box.maxY recMaxY,
          minZ := if zs.isSome then jmin box.minZ recMinZ else box.minZ,
          maxZ := if zs.isSome then jmax box.maxZ recMaxZ else box.maxZ,
          minM := if ms.isSome then jmin box.minM recMinM else box.minM,
          maxM := if ms.isSome then jmax box.maxM recMaxM else box.maxM }
      let (recs, box3, trb2) ← reconstruct shapeType flatPoints zs ms
        (i + 1) (pi + used) (gi + n) rest box2 (trb + 8 + contentBytes)
      .ok (⟨(i : Int) + 1, ((contentBytes : Int) / 2), ⟨shapeType, some (.poly content)⟩⟩
        :: recs, box3, trb2)

def decompress (buffer : List Nat) : Except Err ShapefileData := do
  let version ← rdU8 buffer 0
  if version ≠ 1 ∧ version ≠ 2 then .error .badVersion
  else do
  let shapeType ← rdU8 buffer 1
  let recordCount ← rdU32LE buffer 2
  let fileCode ← rdI32LE buffer 6
  let shpVersion ← rdI32LE buffer 10
  let (recordParts, off1, totalPoints) ← readTable buffer 14 recordCount
  match deltaDecode6 (buffer.drop off1) with
  | .error _ => .error .shortBuffer
  | .ok flatPoints => do
  let bitLength := readU32BE (buffer.drop off1) 0
  let off2 := off1 + (bitLength + 7) / 8
  let isZ := shapeType = 15 ∨ shapeType = 13
  let isM := isZ ∨ shapeType = 25 ∨ shapeType = 23
  let zs ← if version = 2 ∧ isZ then do
      let l ← f32slice (buffer.drop off2) totalPoints
      pure (some l)
    else pure none
  let off3 := off2 + (if version = 2 ∧ isZ then totalPoints * 4 else 0)
  let ms ← if version = 2 ∧ isM then do
      let l ← f32slice (buffer.drop off3) totalPoints
      pure (some l)
    else pure none
  let (records, box, trb) ←
    reconstruct (shapeType : Int) flatPoints zs ms 0 0 0 recordParts bbox0 0
  let fileLengthBytes := 100 + trb
  let noXY := box.minX = JNum.posInf
  let noZ := box.minZ = JNum.posInf
  let noM := box.minM = JNum.posInf
  .ok { fileCode := fileCode,
        wordLength := ((fileLengthBytes : Int) / 2),
        byteLength := (fileLengthBytes : Int),
        version := shpVersion,
        shapeType := (shapeType : Int),
        minX := if noXY then .val 0 else box.minX,
        minY := if noXY then .val 0 else box.minY,
        maxX := if noXY then .val 0 else box.maxX,
        maxY := if noXY then .val 0 else box.maxY,
        minZ := if noZ then .val 0 else box.minZ,
        maxZ := if noZ then .val 0 else box.maxZ,
        minM := if noM then .val 0 else box.minM,
        maxM := if noM then .val 0 else box.maxM,
        records := records }

/-- The wire value of one coordinate: quantize, coerce to Int16, second
stage (truncate /16), undo (×16). -/
def wireVal (v : ℚ) : Int := (toInt16 (quantCoord v)).tdiv 16 * 16

/-- The reconstructed coordinate after a round trip. -/
def roundtripCoord (v : ℚ) : ℚ := ((wireVal v : Int) : ℚ) / 32767 * 180

/-! ## Point-stream consumption -/

/-- Wire-to-degrees conversion (`(val / 32767) * 180`). -/
def cnv (v : Int) : ℚ := (v : ℚ) / 32767 * 180

/-! ## Reconstruction loop characterisation -/

/-- The record the reconstruction loop emits for a non-empty part list
(mirrors the body of `reconstruct`, with the consumed points in take/drop
form). -/
def reconRecord (st : Int) (fp : List Int) (zs ms : Option (List ℚ)) (i pi gi : Nat)
    (lens : List Nat) : ShapeRecord :=
  let pts := ((fp.drop pi).take (2 * lens.sum)).map cnv
  let n := lens.sum
  let zvals := match zs with
    | some zl => (List.range n).map (fun t => zl.getD (gi + t) 0)
    | none => []
  let mvals := match ms with
    | some ml => (List.range n).map (fun t => ml.getD (gi + t) 0)
    | none => []
  let contentBytes := 44 + lens.length * 4 + pts.length * 8 +
    (if zs.isSome then 16 + zvals.length * 8 else 0) +
    (if ms.isSome then 16 + mvals.length * 8 else 0)
  ⟨(i : Int) + 1, ((contentBytes : Int) / 2),
    ⟨st, some (.poly
      { minX := jminFold (evens pts), minY := jminFold (odds pts),
        maxX := jmaxFold (evens pts), maxY := jmaxFold (odds pts),
        parts := (partStarts lens).map wrap32, points := pts,
        z := if zs.isSome then some zvals else none,
        m := if ms.isSome then some mvals else none,
        minZ := if zs.isSome then some (jminFold zvals) else none,
        maxZ := if zs.isSome then some (jmaxFold zvals) else none,
        minM := if ms.isSome then some (jminFold mvals) else none,
        maxM := if ms.isSome then some (jmaxFold mvals) else none })⟩⟩

/-- The full record list the reconstruction loop emits. -/
def reconRecords (st : Int) (fp : List Int) (zs ms : Option (List ℚ)) :
    Nat → Nat → Nat → List (List Nat) → List ShapeRecord
  | _, _, _, [] => []
  | i, pi, gi, lens :: rest =>
    if lens.isEmpty then
      ⟨(i : Int) + 1, 2, ⟨ShapeType.NULL, none⟩⟩ ::
        reconRecords st fp zs ms (i + 1) pi gi rest
    else
      reconRecord st fp zs ms i pi gi lens ::
        reconRecords st fp zs ms (i + 1) (pi + 2 * lens.sum) (gi + lens.sum) rest

/-! ## Model-derived streams and well-formedness -/

/-- The metadata entry a record contributes (its part point counts). -/
def recProfile (r : ShapeRecord) : List Int :=
  match r.shape.content with
  | some (.poly c) => recordPartLens c
  | _ => []

/-- The flat point list of a record's poly content. -/
def recPoints (r : ShapeRecord) : List ℚ :=
  match r.shape.content with
  | some (.poly c) => c.points
  | _ => []

/-- The coordinates a record contributes to the compressed stream. -/
def recCoords (r : ShapeRecord) : List ℚ :=
  match r.shape.content with
  | some (.poly c) => recordCoords c
  | _ => []

def modelCoords (rs : List ShapeRecord) : List ℚ := rs.flatMap recCoords

def modelLens (rs : List ShapeRecord) : List (List Int) := rs.map recProfile

/-- Compressible content: flat x,y pairs, part starts that are a
monotone chain inside the point array, a part table that fits the u16
part-count field, coordinates in quantization range. -/
def contentWF (c : PolyContent) : Prop :=
  c.points.length % 2 = 0 ∧
  c.parts.length < 65536 ∧
  (∀ k < c.parts.length, 0 ≤ c.parts.getD k 0) ∧
  (∀ k, k + 1 < c.parts.length → c.parts.getD k 0 ≤ c.parts.getD (k + 1) 0) ∧
  (∀ k < c.parts.length, c.parts.getD k 0 ≤ ((c.points.length / 2 : Nat) : Int)) ∧
  (∀ v ∈ c.points, -180 ≤ v ∧ v ≤ 180)

/-- A model the round-trip claims quantify over: a consistent poly-family
shape type, every record a well-formed poly record, and sizes inside the
compact format's u32 header fields. -/
def modelWF (M : ShapefileData) : Prop :=
  (M.shapeType = 3 ∨ M.shapeType = 5 ∨ M.shapeType = 13 ∨ M.shapeType = 15 ∨
    M.shapeType = 23 ∨ M.shapeType = 25) ∧
  (∀ r ∈ M.records, isPolyType r.shape.type = true ∧
    ∃ c, r.shape.content = some (.poly c) ∧ contentWF c) ∧
  M.records.length < 4294967296 ∧
  (modelCoords M.records).length ≤ 100000000 ∧
  -2147483648 ≤ M.fileCode ∧ M.fileCode < 2147483648 ∧
  -2147483648 ≤ M.version ∧ M.version < 2147483648

/-- The content-derived record length (16-bit words) that `decompress`
recomputes: 2 for a Null shape, else the poly content-byte formula
halved. -/
def contentWords (r : ShapeRecord) : Int :=
  match r.shape.content with
  | some (.poly c) =>
    ((44 + c.parts.length * 4 + c.points.length * 8 +
      (if c.z.isSome then 16 + (c.z.getD []).length * 8 else 0) +
      (if c.m.isSome then 16 + (c.m.getD []).length * 8 else 0) : Nat) : Int) / 2
  | _ => 2

/-! ## SHPParser.parse / parseShape (src/SHPParser.ts)

`DataView` reads take a JS number offset (modelled `Int`: record lengths
read from the buffer may be negative and propagate into offsets); an
out-of-range or negative offset throws, modelled `.error .shortBuffer`.
`getFloat64` is modelled as a bounds-checked read whose decoded value is
idealized to `0` (as with `f32enc` on the compress side, no claim depends
on the decoded float values, only on success or failure of the access). -/

def pdvI32BE (l : List Nat) (off : Int) : Except Err Int :=
  if 0 ≤ off ∧ off.toNat + 4 ≤ l.length then
    .ok (let u := readU32BE l off.toNat
      if u < 2147483648 then (u : Int) else (u : Int) - 4294967296)
  else .error .shortBuffer

def pdvU32LE (l : List Nat) (off : Nat) : Nat :=
  lget l off + lget l (off + 1) * 256 + lget l (off + 2) * 65536 +
    lget l (off + 3) * 16777216

def pdvI32LE (l : List Nat) (off : Int) : Except Err Int :=
  if 0 ≤ off ∧ off.toNat + 4 ≤ l.length then
    .ok (let u := pdvU32LE l off.toNat
      if u < 2147483648 then (u : Int) else (u : Int) - 4294967296)
  else .error .shortBuffer

def pdvF64 (l : List Nat) (off : Int) : Except Err ℚ :=
  if 0 ≤ off ∧ off.toNat + 8 ≤ l.length then .ok 0 else .error .shortBuffer

/-- `clamp(value, min, max)` from SHPParser.ts. -/
def clampQ (value lo hi : ℚ) : ℚ := min (max value lo) hi

/-- The `content.parts[i] = dv.getInt32(idx, true); idx += 4` loop. -/
def readI32s (l : List Nat) : Int → Nat → Except Err (List Int)
  | _, 0 => .ok []
  | off, n + 1 => do
    let v ← pdvI32LE l off
    let rest ← readI32s l (off + 4) n
    .ok (v :: rest)

/-- The clamped x/y pair loop (`idx += 16` per pair). -/
def readPairs (l : List Nat) : Int → Nat → Except Err (List ℚ)
  | _, 0 => .ok []
  | off, n + 1 => do
    let x ← pdvF64 l off
    let y ← pdvF64 l (off + 8)
    let rest ← readPairs l (off + 16) n
    .ok (clampQ x (-180) 180 :: clampQ y (-90) 90 :: rest)

/-- The z/m value loops (`idx += 8` per value). -/
def readF64s (l : List Nat) : Int → Nat → Except Err (List ℚ)
  | _, 0 => .ok []
  | off, n + 1 => do
    let v ← pdvF64 l off
    let rest ← readF64s l (off + 8) n
    .ok (v :: rest)

/-- `SHPParser.parseShape` (the unused `length` parameter of the source is
omitted).  `new Int32Array(partCount)` / `new Float64Array(pointCount*2)`
with a negative argument throw a RangeError, modelled `.error .negCount`. -/
def parseShape (dv : List Nat) (idx0 : Int) : Except Err Shape := do
  let t ← pdvI32LE dv idx0
  let idx := idx0 + 4
  if t = 0 then .ok ⟨0, none⟩
  else if t = 1 then do
    let x ← pdvF64 dv idx
    let y ← pdvF64 dv (idx + 8)
    .ok ⟨1, some (.pt ⟨clampQ x (-180) 180, clampQ y (-90) 90, none, none⟩)⟩
  else if t = 11 then do
    let x ← pdvF64 dv idx
    let y ← pdvF64 dv (idx + 8)
    let z ← pdvF64 dv (idx + 16)
    let m ← pdvF64 dv (idx + 24)
    .ok ⟨11, some (.pt ⟨clampQ x (-180) 180, clampQ y (-90) 90, some z, some m⟩)⟩
  else if t = 21 then do
    let x ← pdvF64 dv idx
    let y ← pdvF64 dv (idx + 8)
    let m ← pdvF64 dv (idx + 16)
    .ok ⟨21, some (.pt ⟨clampQ x (-180) 180, clampQ y (-90) 90, none, some m⟩)⟩
  else if t = 3 ∨ t = 5 ∨ t = 13 ∨ t = 15 ∨ t = 23 ∨ t = 25 ∨ t = 31 then do
    let partCount ← pdvI32LE dv (idx + 32)
    let pointCount ← pdvI32LE dv (idx + 36)
    let minX ← pdvF64 dv idx
    let minY ← pdvF64 dv (idx + 8)
    let maxX ← pdvF64 dv (idx + 16)
    let maxY ← pdvF64 dv (idx + 24)
    if partCount < 0 ∨ pointCount < 0 then .error .negCount else do
    let parts ← readI32s dv (idx + 40) partCount.toNat
    let idx2 := idx + 40 + 4 * partCount
    let partTypes ← if t = 31 then do
        let pt ← readI32s dv idx2 partCount.toNat
        pure (some pt)
      else pure none
    let idx3 := idx2 + (if t = 31 then 4 * partCount else 0)
    let points ← readPairs dv idx3 pointCount.toNat
    let idx4 := idx3 + 16 * pointCount
    let zblock ← if t = 13 ∨ t = 15 ∨ t = 31 then do
        let mnZ ← pdvF64 dv idx4
        let mxZ ← pdvF64 dv (idx4 + 8)
        let zs ← readF64s dv (idx4 + 16) pointCount.toNat
        pure (some (mnZ, mxZ, zs))
      else pure none
    let idx5 := idx4 + (if t = 13 ∨ t = 15 ∨ t = 31 then 16 + 8 * pointCount else 0)
    let mblock ← if t = 13 ∨ t = 15 ∨ t = 23 ∨ t = 25 ∨ t = 31 then do
        let mnM ← pdvF64 dv idx5
        let mxM ← pdvF64 dv (idx5 + 8)
        let ms ← readF64s dv (idx5 + 16) pointCount.toNat
        pure (some (mnM, mxM, ms))
      else pure none
    .ok ⟨t, some (.poly {
      minX := .val (clampQ minX (-180) 180),
      minY := .val (clampQ minY (-90) 90),
      maxX := .val (clampQ maxX (-180) 180),
      maxY := .val (clampQ maxY (-90) 90),
      parts := parts,
      points := points,
      z := zblock.map (fun b => b.2.2),
      m := mblock.map (fun b => b.2.2),
      minZ := zblock.map (fun b => .val b.1),
      maxZ := zblock.map (fun b => .val b.2.1),
      minM := mblock.map (fun b => .val b.1),
      maxM := mblock.map (fun b => .val b.2.1),
      partTypes := partTypes })⟩
  else if t = 8 ∨ t = 18 ∨ t = 28 then do
    let pointCount ← pdvI32LE dv (idx + 32)
    let minX ← pdvF64 dv idx
    let minY ← pdvF64 dv (idx + 8)
    let maxX ← pdvF64 dv (idx + 16)
    let maxY ← pdvF64 dv (idx + 24)
    if pointCount < 0 then .error .negCount else do
    let idx3 := idx + 36
    let points ← readPairs dv idx3 pointCount.toNat
    let idx4 := idx3 + 16 * pointCount
    let zblock ← if t = 18 then do
        let mnZ ← pdvF64 dv idx4
        let mxZ ← pdvF64 dv (idx4 + 8)
        let zs ← readF64s dv (idx4 + 16) pointCount.toNat
        pure (some (mnZ, mxZ, zs))
      else pure none
    let idx5 := idx4 + (if t = 18 then 16 + 8 * pointCount else 0)
    let mblock ← if t = 18 ∨ t = 28 then do
        let mnM ← pdvF64 dv idx5
        let mxM ← pdvF64 dv (idx5 + 8)
        let ms ← readF64s dv (idx5 + 16) pointCount.toNat
        pure (some (mnM, mxM, ms))
      else pure none
    .ok ⟨t, some (.poly {
      minX := .val (clampQ minX (-180) 180),
      minY := .val (clampQ minY (-90) 90),
      maxX := .val (clampQ maxX (-180) 180),
      maxY := .val (clampQ maxY (-90) 90),
      parts := [],
      points := points,
      z := zblock.map (fun b => b.2.2),
      m := mblock.map (fun b => b.2.2),
      minZ := zblock.map (fun b => .val b.1),
      maxZ := zblock.map (fun b => .val b.2.1),
      minM := mblock.map (fun b => .val b.1),
      maxM := mblock.map (fun b => .val b.2.1) })⟩
  else .error .unknownShape

/-- The `try { parseShape } catch { shape = { type: NULL } }` downgrade. -/
def pshape (dv : List Nat) (idx : Int) : Shape :=
  match parseShape dv idx with
  | .ok s => s
  | .error _ => ⟨0, none⟩

/-- The record loop of `parse`: read the big-endian record number and
length (these reads are outside the try block, so their failures
propagate), parse the body with the Null downgrade, and advance by
`8 + length*2` bytes.  The loop is fueled to make the recursion
structural; `parse` passes more fuel than any terminating run needs. -/
def parseRecords (dv : List Nat) (byteLength : Int) : Nat → Int → Except Err (List ShapeRecord)
  | 0, idx => if idx < byteLength then .error .fuel else .ok []
  | fuel + 1, idx =>
    if idx < byteLength then do
      let num ← pdvI32BE dv idx
      let len ← pdvI32BE dv (idx + 4)
      let rest ← parseRecords dv byteLength fuel (idx + 8 + len * 2)
      .ok (⟨num, len, pshape dv (idx + 8)⟩ :: rest)
    else .ok []

/-- `SHPParser.parse`. -/
def parse (dv : List Nat) : Except Err ShapefileData := do
  let fileCode ← pdvI32BE dv 0
  if fileCode ≠ 9994 then .error .badFileCode else do
  let wordLength ← pdvI32BE dv 24
  let byteLength := wordLength * 2
  let version ← pdvI32LE dv 28
  let shapeType ← pdvI32LE dv 32
  let minX ← pdvF64 dv 36
  let minY ← pdvF64 dv 44
  let maxX ← pdvF64 dv 52
  let maxY ← pdvF64 dv 60
  let minZ ← pdvF64 dv 68
  let maxZ ← pdvF64 dv 76
  let minM ← pdvF64 dv 84
  let maxM ← pdvF64 dv 92
  let records ← parseRecords dv byteLength (dv.length + 1) 100
  .ok { fileCode := fileCode, wordLength := wordLength, byteLength := byteLength,
        version := version, shapeType := shapeType,
        minX := .val minX, minY := .val minY, maxX := .val maxX, maxY := .val maxY,
        minZ := .val minZ, maxZ := .val maxZ, minM := .val minM, maxM := .val maxM,
        records := records }

/-- The record-frame table of a buffer: starting at `idx`, each frame
carries the record number and length stored at its head, and the next
frame starts `8 + len*2` bytes later; the table ends exactly when the
running index passes `byteLength`. -/
def FramesAt (dv : List Nat) (byteLength : Int) : Int → List (Int × Int) → Prop
  | idx, [] => ¬idx < byteLength
  | idx, f :: rest =>
    idx < byteLength ∧ pdvI32BE dv idx = .ok f.1 ∧ pdvI32BE dv (idx + 4) = .ok f.2 ∧
      FramesAt dv byteLength (idx + 8 + f.2 * 2) rest

/-- The records the loop produces over a frame table. -/
def recsOf (dv : List Nat) : Int → List (Int × Int) → List ShapeRecord
  | _, [] => []
  | idx, f :: rest => ⟨f.1, f.2, pshape dv (idx + 8)⟩ :: recsOf dv (idx + 8 + f.2 * 2) rest

instance {ε α : Type} [DecidableEq ε] [DecidableEq α] : DecidableEq (Except ε α) :=
  fun a b =>
    match a, b with
    | .ok x, .ok y =>
      if h : x = y then .isTrue (by rw [h]) else .isFalse (fun hc => h (by injection hc))
    | .error x, .error y =>
      if h : x = y then .isTrue (by rw [h]) else .isFalse (fun hc => h (by injection hc))
    | .ok x, .error y => .isFalse (fun hc => by injection hc)
    | .error x, .ok y => .isFalse (fun hc => by injection hc)

/-! ## Concrete models used by witnesses and counterexamples -/

/-- An empty well-formed POLYLINE model. -/
def Mw3 : ShapefileData :=
  { fileCode := 9994, wordLength := 0, byteLength := 0, version := 1000, shapeType := 3,
    minX := .val 0, minY := .val 0, maxX := .val 0, maxY := .val 0,
    minZ := .val 0, maxZ := .val 0, minM := .val 0, maxM := .val 0, records := [] }

/-- A one-part MULTIPATCH record (a shape type the parser emits but the
compressor's poly-type filter excludes). -/
def Pcx1 : PolyContent :=
  { minX := .val 0, minY := .val 0, maxX := .val 0, maxY := .val 0,
    parts := [0], points := [0, 0] }

def Mcx1 : ShapefileData :=
  { fileCode := 9994, wordLength := 0, byteLength := 0, version := 1000, shapeType := 31,
    minX := .val 0, minY := .val 0, maxX := .val 0, maxY := .val 0,
    minZ := .val 0, maxZ := .val 0, minM := .val 0, maxM := .val 0,
    records := [⟨1, 2, ⟨31, some (.poly Pcx1)⟩⟩] }

def M2cx1 : ShapefileData :=
  { fileCode := 9994, wordLength := 56, byteLength := 112, version := 1000,
    shapeType := 31,
    minX := .val 0, minY := .val 0, maxX := .val 0, maxY := .val 0,
    minZ := .val 0, maxZ := .val 0, minM := .val 0, maxM := .val 0,
    records := [⟨1, 2, ⟨0, none⟩⟩] }

/-- A two-part POLYLINE record: part starts 0 and 1, two x,y pairs. -/
def Pcx4 : PolyContent :=
  { minX := .val 0, minY := .val 0, maxX := .val 0, maxY := .val 0,
    parts := [0, 1], points := [0, 0, 0, 0] }

def Mcx4 : ShapefileData :=
  { fileCode := 9994, wordLength := 0, byteLength := 0, version := 1000, shapeType := 3,
    minX := .val 0, minY := .val 0, maxX := .val 0, maxY := .val 0,
    minZ := .val 0, maxZ := .val 0, minM := .val 0, maxM := .val 0,
    records := [⟨1, 2, ⟨3, some (.poly Pcx4)⟩⟩] }

/-- A record-free POLYGONZ model: its records contain no Z or M data. -/
def Mz15 : ShapefileData :=
  { fileCode := 9994, wordLength := 0, byteLength := 0, version := 1000, shapeType := 15,
    minX := .val 0, minY := .val 0, maxX := .val 0, maxY := .val 0,
    minZ := .val 0, maxZ := .val 0, minM := .val 0, maxM := .val 0, records := [] }

/-- A 116-byte shapefile: valid header (file code 9994, word length 58 =
116 bytes), one record frame (number 1, length 4 words) whose body has
the unrecognized shape type 99. -/
def dvW : List Nat :=
  [0, 0, 39, 10] ++ List.replicate 20 0 ++ [0, 0, 0, 58] ++ List.replicate 72 0 ++
    [0, 0, 0, 1] ++ [0, 0, 0, 4] ++ [99, 0, 0, 0] ++ [0, 0, 0, 0]

/-! ## Theorems -/

theorem lget_lt_256 {l : List Nat} (h : bytesOK l) (i : Nat) : lget l i < 256 := by
  unfold lget
  rw [List.getD_eq_getElem?_getD]
  by_cases hi : i < l.length
  · rw [List.getElem?_eq_getElem hi]
    exact h _ (List.getElem_mem hi)
  · rw [List.getElem?_eq_none (by omega)]
    simp

theorem lget_set (l : List Nat) (i j v : Nat) :
    lget (l.set i v) j = if i = j ∧ i < l.length then v else lget l j := by
  unfold lget
  rw [List.getD_eq_getElem?_getD, List.getD_eq_getElem?_getD, List.getElem?_set]
  by_cases hij : i = j
  · subst hij
    by_cases hlen : i < l.length
    · simp [hlen]
    · rw [List.getElem?_eq_none (by omega)]
      simp [hlen]
  · simp [hij]

theorem bytesOK_set {l : List Nat} (h : bytesOK l) {v : Nat} (hv : v < 256) (i : Nat) :
    bytesOK (l.set i v) := by
  intro b hb
  rcases List.mem_or_eq_of_mem_set hb with hmem | rfl
  · exact h b hmem
  · exact hv

/-! ### Arithmetic characterisation of the bit operations

The JS masks used by BitView are contiguous runs of bits (except for the
split keep-mask of `setInt6`); `maskExtract` turns each `&&&` with such a
literal into pure `/ % *` arithmetic that `omega` can reason about. -/

theorem maskExtract (x a b : Nat) :
    x &&& ((2 ^ b - 1) <<< a) = ((x >>> a) % 2 ^ b) <<< a := by
  apply Nat.eq_of_testBit_eq
  intro i
  simp only [Nat.testBit_and, Nat.testBit_shiftLeft, Nat.testBit_mod_two_pow,
    Nat.testBit_shiftRight]
  rcases Nat.lt_or_ge i a with hia | hia
  · simp [Nat.not_le.mpr hia]
  · have h2 : a + (i - a) = i := by omega
    simp only [Nat.le_of_lt, hia, decide_eq_true_eq, Bool.true_and, ge_iff_le,
      Nat.testBit_two_pow_sub_one]
    simp [Nat.le_of_lt, hia, h2]
    rcases Nat.lt_or_ge (i - a) b with hib | hib
    · simp [hib]
    · simp [Nat.not_lt.mpr hib]

theorem and255 (x : Nat) : x &&& 255 = x % 256 := by
  have h := maskExtract x 0 8; simp [Nat.shiftRight_eq_div_pow] at h; omega

theorem and127 (x : Nat) : x &&& 127 = x % 128 := by
  have h := maskExtract x 0 7; simp [Nat.shiftRight_eq_div_pow] at h; omega

theorem and63 (x : Nat) : x &&& 63 = x % 64 := by
  have h := maskExtract x 0 6; simp [Nat.shiftRight_eq_div_pow] at h; omega

theorem and31 (x : Nat) : x &&& 31 = x % 32 := by
  have h := maskExtract x 0 5; simp [Nat.shiftRight_eq_div_pow] at h; omega

theorem and15 (x : Nat) : x &&& 15 = x % 16 := by
  have h := maskExtract x 0 4; simp [Nat.shiftRight_eq_div_pow] at h; omega

theorem and7 (x : Nat) : x &&& 7 = x % 8 := by
  have h := maskExtract x 0 3; simp [Nat.shiftRight_eq_div_pow] at h; omega

theorem and3 (x : Nat) : x &&& 3 = x % 4 := by
  have h := maskExtract x 0 2; simp [Nat.shiftRight_eq_div_pow] at h; omega

theorem and1 (x : Nat) : x &&& 1 = x % 2 := Nat.and_one_is_mod x

theorem and254 (x : Nat) : x &&& 254 = x / 2 % 128 * 2 := by
  have h := maskExtract x 1 7
  simp [Nat.shiftLeft_eq, Nat.shiftRight_eq_div_pow] at h; omega

theorem and252 (x : Nat) : x &&& 252 = x / 4 % 64 * 4 := by
  have h := maskExtract x 2 6
  simp [Nat.shiftLeft_eq, Nat.shiftRight_eq_div_pow] at h; omega

theorem and248 (x : Nat) : x &&& 248 = x / 8 % 32 * 8 := by
  have h := maskExtract x 3 5
  simp [Nat.shiftLeft_eq, Nat.shiftRight_eq_div_pow] at h; omega

theorem and240 (x : Nat) : x &&& 240 = x / 16 % 16 * 16 := by
  have h := maskExtract x 4 4
  simp [Nat.shiftLeft_eq, Nat.shiftRight_eq_div_pow] at h; omega

theorem and224 (x : Nat) : x &&& 224 = x / 32 % 8 * 32 := by
  have h := maskExtract x 5 3
  simp [Nat.shiftLeft_eq, Nat.shiftRight_eq_div_pow] at h; omega

theorem and192 (x : Nat) : x &&& 192 = x / 64 % 4 * 64 := by
  have h := maskExtract x 6 2
  simp [Nat.shiftLeft_eq, Nat.shiftRight_eq_div_pow] at h; omega

theorem and128 (x : Nat) : x &&& 128 = x / 128 % 2 * 128 := by
  have h := maskExtract x 7 1
  simp [Nat.shiftLeft_eq, Nat.shiftRight_eq_div_pow] at h; omega

theorem and64 (x : Nat) : x &&& 64 = x / 64 % 2 * 64 := by
  have h := maskExtract x 6 1
  simp [Nat.shiftLeft_eq, Nat.shiftRight_eq_div_pow] at h; omega

theorem and32 (x : Nat) : x &&& 32 = x / 32 % 2 * 32 := by
  have h := maskExtract x 5 1
  simp [Nat.shiftLeft_eq, Nat.shiftRight_eq_div_pow] at h; omega

theorem and16 (x : Nat) : x &&& 16 = x / 16 % 2 * 16 := by
  have h := maskExtract x 4 1
  simp [Nat.shiftLeft_eq, Nat.shiftRight_eq_div_pow] at h; omega

theorem and8 (x : Nat) : x &&& 8 = x / 8 % 2 * 8 := by
  have h := maskExtract x 3 1
  simp [Nat.shiftLeft_eq, Nat.shiftRight_eq_div_pow] at h; omega

theorem and4 (x : Nat) : x &&& 4 = x / 4 % 2 * 4 := by
  have h := maskExtract x 2 1
  simp [Nat.shiftLeft_eq, Nat.shiftRight_eq_div_pow] at h; omega

theorem and2 (x : Nat) : x &&& 2 = x / 2 % 2 * 2 := by
  have h := maskExtract x 1 1
  simp [Nat.shiftLeft_eq, Nat.shiftRight_eq_div_pow] at h; omega

theorem and126 (x : Nat) : x &&& 126 = x / 2 % 64 * 2 := by
  have h := maskExtract x 1 6
  simp [Nat.shiftLeft_eq, Nat.shiftRight_eq_div_pow] at h; omega

theorem and129 (x : Nat) (hx : x < 256) : x &&& 129 = x / 128 * 128 + x % 2 := by
  revert hx; revert x; decide

theorem and65280 (x : Nat) : x &&& 65280 = x / 256 % 256 * 256 := by
  have h := maskExtract x 8 8
  simp [Nat.shiftLeft_eq, Nat.shiftRight_eq_div_pow] at h; omega

theorem and16711680 (x : Nat) : x &&& 16711680 = x / 65536 % 256 * 65536 := by
  have h := maskExtract x 16 8
  simp [Nat.shiftLeft_eq, Nat.shiftRight_eq_div_pow] at h; omega

theorem n12_lt (val : Int) : n12 val < 4096 := by
  unfold n12; omega

theorem n6_lt (val : Int) : n6 val < 64 := by
  unfold n6; omega

theorem n12_inRange {val : Int} (h1 : -2048 ≤ val) (h2 : val ≤ 2047) :
    (n12 val : Int) = val + 2048 := by
  unfold n12; omega

theorem n6_inRange {val : Int} (h1 : -32 ≤ val) (h2 : val ≤ 31) :
    (n6 val : Int) = val + 32 := by
  unfold n6; omega

theorem bytesOK_iff {l : List Nat} : bytesOK l ↔ ∀ i < l.length, lget l i < 256 := by
  constructor
  · intro h i _
    exact lget_lt_256 h i
  · intro h b hb
    obtain ⟨i, hi, rfl⟩ := List.mem_iff_getElem.mp hb
    have := h i hi
    unfold lget at this
    rwa [List.getD_eq_getElem?_getD, List.getElem?_eq_getElem hi] at this

theorem setInt12_length (l : List Nat) (idx : Nat) (v : Int) :
    (setInt12 l idx v).length = l.length := by
  simp [setInt12]

theorem setInt6_length (l : List Nat) (idx : Nat) (v : Int) :
    (setInt6 l idx v).length = l.length := by
  simp [setInt6]

/-- Arithmetic form of `getInt12`: the 12-bit field starting at bit
`8*q + r` is the slice `[12-r, 24-r)` of the 24-bit window made of bytes
`q, q+1, q+2`. -/
theorem getInt12_decomp (l : List Nat) (q r : Nat) (hr : r < 8) (hb : bytesOK l) :
    getInt12 l (8 * q + r) =
      ((lget l q % 2 ^ (8 - r) * 65536 + lget l (q + 1) * 256 + lget l (q + 2)) /
        2 ^ (12 - r) : Nat) - 2048 := by
  have ha := lget_lt_256 hb q
  have hb1 := lget_lt_256 hb (q + 1)
  have hb2 := lget_lt_256 hb (q + 2)
  have hdq : (8 * q + r) / 8 = q := by omega
  have hdm : (8 * q + r) % 8 = r := by omega
  simp only [getInt12, hdq, hdm]
  interval_cases r <;>
  · simp only [Nat.shiftLeft_eq, Nat.shiftRight_eq_div_pow]
    norm_num
    simp only [and255, and127, and63, and31, and15, and7, and3, and1, and254, and252,
      and248, and240, and224, and192, and128, and126, and64, and32, and16, and8, and4,
      and2, and65280, and16711680, Nat.and_zero, Nat.zero_and]
    norm_num
    simp only [and255, and127, and63, and31, and15, and7, and3, and1, and254, and252,
      and248, and240, and224, and192, and128, and126, and64, and32, and16, and8, and4,
      and2, and65280, and16711680, Nat.and_zero, Nat.zero_and]
    omega

/-- Arithmetic form of `getInt6`. -/
theorem getInt6_decomp (l : List Nat) (q r : Nat) (hr : r < 8) (hb : bytesOK l) :
    getInt6 l (8 * q + r) =
      ((lget l q % 2 ^ (8 - r) * 256 + lget l (q + 1)) / 2 ^ (10 - r) : Nat) - 32 := by
  have ha := lget_lt_256 hb q
  have hb1 := lget_lt_256 hb (q + 1)
  have hdq : (8 * q + r) / 8 = q := by omega
  have hdm : (8 * q + r) % 8 = r := by omega
  simp only [getInt6, hdq, hdm]
  interval_cases r <;>
  · simp only [Nat.shiftLeft_eq, Nat.shiftRight_eq_div_pow]
    norm_num
    simp only [and255, and127, and63, and31, and15, and7, and3, and1, and254, and252,
      and248, and240, and224, and192, and128, and126, and64, and32, and16, and8, and4,
      and2, and65280, and16711680, Nat.and_zero, Nat.zero_and]
    norm_num
    simp only [and255, and127, and63, and31, and15, and7, and3, and1, and254, and252,
      and248, and240, and224, and192, and128, and126, and64, and32, and16, and8, and4,
      and2, and65280, and16711680, Nat.and_zero, Nat.zero_and]
    omega

/-- Byte-level description of `setInt12`: bytes `p, p+1, p+2` receive the
three slices of the shifted biased value, all other bytes are untouched;
out-of-range writes are dropped. -/
theorem setInt12_bytes (l : List Nat) (v : Int) (p t : Nat) (ht : t < 8) (hb : bytesOK l)
    (j : Nat) :
    lget (setInt12 l (8 * p + t) v) j =
      if j = p ∧ p < l.length then
        lget l p - lget l p % 2 ^ (8 - t) + n12 v * 2 ^ (12 - t) / 65536
      else if j = p + 1 ∧ p + 1 < l.length then
        lget l (p + 1) % 2 ^ (4 - t) + n12 v * 2 ^ (12 - t) / 256 % 256
      else if j = p + 2 ∧ p + 2 < l.length then
        lget l (p + 2) % 2 ^ (8 - (t - 4)) + n12 v * 2 ^ (12 - t) % 256
      else lget l j := by
  have hn := n12_lt v
  have ha := lget_lt_256 hb p
  have hb1 := lget_lt_256 hb (p + 1)
  have hb2 := lget_lt_256 hb (p + 2)
  have hdq : (8 * p + t) / 8 = p := by omega
  have hdm : (8 * p + t) % 8 = t := by omega
  simp only [setInt12, hdq, hdm, lget_set, List.length_set]
  interval_cases t <;>
  · simp only [Nat.shiftLeft_eq, Nat.shiftRight_eq_div_pow]
    norm_num
    simp only [and255, and127, and63, and31, and15, and7, and3, and1, and254, and252,
      and248, and240, and224, and192, and128, and126, and64, and32, and16, and8, and4,
      and2, and65280, and16711680, Nat.and_zero, Nat.zero_and]
    norm_num
    simp only [and255, and127, and63, and31, and15, and7, and3, and1, and254, and252,
      and248, and240, and224, and192, and128, and126, and64, and32, and16, and8, and4,
      and2, and65280, and16711680, Nat.and_zero, Nat.zero_and]
    split_ifs <;> omega

/-- Byte-level description of `setInt6`. -/
theorem setInt6_bytes (l : List Nat) (v : Int) (p t : Nat) (ht : t < 8) (hb : bytesOK l)
    (j : Nat) :
    lget (setInt6 l (8 * p + t) v) j =
      if j = p ∧ p < l.length then
        lget l p - lget l p % 2 ^ (8 - t) + lget l p % 2 ^ (2 - t) +
          n6 v * 2 ^ (10 - t) / 256 % 256
      else if j = p + 1 ∧ p + 1 < l.length then
        lget l (p + 1) % 2 ^ (8 - (t - 2)) + n6 v * 2 ^ (10 - t) % 256
      else lget l j := by
  have hn := n6_lt v
  have ha := lget_lt_256 hb p
  have hb1 := lget_lt_256 hb (p + 1)
  have hdq : (8 * p + t) / 8 = p := by omega
  have hdm : (8 * p + t) % 8 = t := by omega
  simp only [setInt6, hdq, hdm, lget_set, List.length_set]
  interval_cases t <;>
  · simp only [Nat.shiftLeft_eq, Nat.shiftRight_eq_div_pow]
    norm_num
    simp only [and129 _ ha, and255, and127, and63, and31, and15, and7, and3, and1,
      and254, and252, and248, and240, and224, and192, and128, and126, and64, and32,
      and16, and8, and4, and2, and65280, and16711680, Nat.and_zero, Nat.zero_and]
    norm_num
    simp only [and129 _ ha, and255, and127, and63, and31, and15, and7, and3, and1,
      and254, and252, and248, and240, and224, and192, and128, and126, and64, and32,
      and16, and8, and4, and2, and65280, and16711680, Nat.and_zero, Nat.zero_and]
    split_ifs <;> omega

theorem bytesOK_setInt12 {l : List Nat} (hb : bytesOK l) (idx : Nat) (v : Int) :
    bytesOK (setInt12 l idx v) := by
  rw [bytesOK_iff]
  intro j hj
  obtain ⟨p, t, ht, rfl⟩ : ∃ p t, t < 8 ∧ idx = 8 * p + t :=
    ⟨idx / 8, idx % 8, Nat.mod_lt _ (by norm_num), by omega⟩
  rw [setInt12_bytes l v p t ht hb j]
  have hn := n12_lt v
  have ha := lget_lt_256 hb p
  have hb1 := lget_lt_256 hb (p + 1)
  have hb2 := lget_lt_256 hb (p + 2)
  have hj' := lget_lt_256 hb j
  split_ifs <;> interval_cases t <;> omega

theorem bytesOK_setInt6 {l : List Nat} (hb : bytesOK l) (idx : Nat) (v : Int) :
    bytesOK (setInt6 l idx v) := by
  rw [bytesOK_iff]
  intro j hj
  obtain ⟨p, t, ht, rfl⟩ : ∃ p t, t < 8 ∧ idx = 8 * p + t :=
    ⟨idx / 8, idx % 8, Nat.mod_lt _ (by norm_num), by omega⟩
  rw [setInt6_bytes l v p t ht hb j]
  have hn := n6_lt v
  have ha := lget_lt_256 hb p
  have hb1 := lget_lt_256 hb (p + 1)
  have hj' := lget_lt_256 hb j
  split_ifs <;> interval_cases t <;> omega

/-- Writing then reading a 12-bit field recovers the (biased) wire value. -/
theorem getInt12_setInt12 (l : List Nat) (idx : Nat) (v : Int) (hb : bytesOK l)
    (hbound : idx + 12 ≤ 8 * l.length) :
    getInt12 (setInt12 l idx v) idx = (n12 v : Int) - 2048 := by
  obtain ⟨p, t, ht, rfl⟩ : ∃ p t, t < 8 ∧ idx = 8 * p + t :=
    ⟨idx / 8, idx % 8, Nat.mod_lt _ (by norm_num), by omega⟩
  have hp : p < l.length := by omega
  have hp1 : p + 1 < l.length := by omega
  rw [getInt12_decomp _ p t ht (bytesOK_setInt12 hb _ v)]
  rw [setInt12_bytes l v p t ht hb p, setInt12_bytes l v p t ht hb (p + 1),
    setInt12_bytes l v p t ht hb (p + 2)]
  have hn := n12_lt v
  have ha := lget_lt_256 hb p
  have hb1 := lget_lt_256 hb (p + 1)
  have hb2 := lget_lt_256 hb (p + 2)
  simp only [Nat.self_eq_add_right, hp, hp1, and_true, true_and, and_false, false_and]
  norm_num
  interval_cases t <;> split_ifs <;> omega

/-- Writing then reading a 6-bit field recovers the (biased) wire value. -/
theorem getInt6_setInt6 (l : List Nat) (idx : Nat) (v : Int) (hb : bytesOK l)
    (hbound : idx + 6 ≤ 8 * l.length) :
    getInt6 (setInt6 l idx v) idx = (n6 v : Int) - 32 := by
  obtain ⟨p, t, ht, rfl⟩ : ∃ p t, t < 8 ∧ idx = 8 * p + t :=
    ⟨idx / 8, idx % 8, Nat.mod_lt _ (by norm_num), by omega⟩
  have hp : p < l.length := by omega
  rw [getInt6_decomp _ p t ht (bytesOK_setInt6 hb _ v)]
  rw [setInt6_bytes l v p t ht hb p, setInt6_bytes l v p t ht hb (p + 1)]
  have hn := n6_lt v
  have ha := lget_lt_256 hb p
  have hb1 := lget_lt_256 hb (p + 1)
  simp only [Nat.self_eq_add_right, hp, and_true, true_and, and_false, false_and]
  norm_num
  interval_cases t <;> split_ifs <;> omega

set_option maxHeartbeats 1000000 in
/-- A 12-bit write strictly after a 12-bit field does not change it. -/
theorem getInt12_frame_set12 (l : List Nat) (v : Int) (o idx : Nat) (hb : bytesOK l)
    (hd : o + 12 ≤ idx) :
    getInt12 (setInt12 l idx v) o = getInt12 l o := by
  obtain ⟨q, r, hr, rfl⟩ : ∃ q r, r < 8 ∧ o = 8 * q + r :=
    ⟨o / 8, o % 8, Nat.mod_lt _ (by norm_num), by omega⟩
  obtain ⟨p, t, ht, rfl⟩ : ∃ p t, t < 8 ∧ idx = 8 * p + t :=
    ⟨idx / 8, idx % 8, Nat.mod_lt _ (by norm_num), by omega⟩
  rw [getInt12_decomp _ q r hr (bytesOK_setInt12 hb _ v), getInt12_decomp _ q r hr hb]
  rw [setInt12_bytes l v p t ht hb q, setInt12_bytes l v p t ht hb (q + 1), setInt12_bytes l v p t ht hb (q + 2)]
  have hn := n12_lt v
  have ha := lget_lt_256 hb (q)
  have hc1 := lget_lt_256 hb (q + 1)
  have hc2 := lget_lt_256 hb (q + 2)
  rcases Nat.lt_or_ge p (q + 3) with hp | hp
  · have hpeq : p = q + 1 ∨ p = q + 2 := by omega
    rcases hpeq with hpq | hpq
    · rw [hpq]
      have hrb : r ≤ 3 := by omega
      have f1 : (q = q + 1 ∧ q + 1 < l.length) = False := eq_false (by omega)
      have f2 : (q = q + 1 + 1 ∧ q + 1 + 1 < l.length) = False := eq_false (by omega)
      have f3 : (q = q + 1 + 2 ∧ q + 1 + 2 < l.length) = False := eq_false (by omega)
      have f4 : (q + 1 = q + 1 ∧ q + 1 < l.length) = (q + 1 < l.length) := by
        simp [show q + 1 = q + 1 by omega]
      have f5 : (q + 1 = q + 1 + 1 ∧ q + 1 + 1 < l.length) = False := eq_false (by omega)
      have f6 : (q + 1 = q + 1 + 2 ∧ q + 1 + 2 < l.length) = False := eq_false (by omega)
      have f7 : (q + 2 = q + 1 ∧ q + 1 < l.length) = False := eq_false (by omega)
      have f8 : (q + 2 = q + 1 + 1 ∧ q + 1 + 1 < l.length) = (q + 1 + 1 < l.length) := by
        simp [show q + 2 = q + 1 + 1 by omega]
      have f9 : (q + 2 = q + 1 + 2 ∧ q + 1 + 2 < l.length) = False := eq_false (by omega)
      simp only [f1, f2, f3, f4, f5, f6, f7, f8, f9, if_false]
      interval_cases r <;> interval_cases t <;> split_ifs <;> omega
    · rw [hpq]
      have f1 : (q = q + 2 ∧ q + 2 < l.length) = False := eq_false (by omega)
      have f2 : (q = q + 2 + 1 ∧ q + 2 + 1 < l.length) = False := eq_false (by omega)
      have f3 : (q = q + 2 + 2 ∧ q + 2 + 2 < l.length) = False := eq_false (by omega)
      have f4 : (q + 1 = q + 2 ∧ q + 2 < l.length) = False := eq_false (by omega)
      have f5 : (q + 1 = q + 2 + 1 ∧ q + 2 + 1 < l.length) = False := eq_false (by omega)
      have f6 : (q + 1 = q + 2 + 2 ∧ q + 2 + 2 < l.length) = False := eq_false (by omega)
      have f7 : (q + 2 = q + 2 ∧ q + 2 < l.length) = (q + 2 < l.length) := by
        simp [show q + 2 = q + 2 by omega]
      have f8 : (q + 2 = q + 2 + 1 ∧ q + 2 + 1 < l.length) = False := eq_false (by omega)
      have f9 : (q + 2 = q + 2 + 2 ∧ q + 2 + 2 < l.length) = False := eq_false (by omega)
      simp only [f1, f2, f3, f4, f5, f6, f7, f8, f9, if_false]
      interval_cases r <;> interval_cases t <;> split_ifs <;> omega
  · have g1 : ¬(q = p ∧ p < l.length) := by omega
    have g2 : ¬(q = p + 1 ∧ p + 1 < l.length) := by omega
    have g3 : ¬(q = p + 2 ∧ p + 2 < l.length) := by omega
    have g4 : ¬(q + 1 = p ∧ p < l.length) := by omega
    have g5 : ¬(q + 1 = p + 1 ∧ p + 1 < l.length) := by omega
    have g6 : ¬(q + 1 = p + 2 ∧ p + 2 < l.length) := by omega
    have g7 : ¬(q + 2 = p ∧ p < l.length) := by omega
    have g8 : ¬(q + 2 = p + 1 ∧ p + 1 < l.length) := by omega
    have g9 : ¬(q + 2 = p + 2 ∧ p + 2 < l.length) := by omega
    simp only [g1, g2, g3, g4, g5, g6, g7, g8, g9, if_false]

set_option maxHeartbeats 1000000 in
/-- A 6-bit write strictly after a 12-bit field does not change it. -/
theorem getInt12_frame_set6 (l : List Nat) (v : Int) (o idx : Nat) (hb : bytesOK l)
    (hd : o + 12 ≤ idx) :
    getInt12 (setInt6 l idx v) o = getInt12 l o := by
  obtain ⟨q, r, hr, rfl⟩ : ∃ q r, r < 8 ∧ o = 8 * q + r :=
    ⟨o / 8, o % 8, Nat.mod_lt _ (by norm_num), by omega⟩
  obtain ⟨p, t, ht, rfl⟩ : ∃ p t, t < 8 ∧ idx = 8 * p + t :=
    ⟨idx / 8, idx % 8, Nat.mod_lt _ (by norm_num), by omega⟩
  rw [getInt12_decomp _ q r hr (bytesOK_setInt6 hb _ v), getInt12_decomp _ q r hr hb]
  rw [setInt6_bytes l v p t ht hb q, setInt6_bytes l v p t ht hb (q + 1), setInt6_bytes l v p t ht hb (q + 2)]
  have hn := n6_lt v
  have ha := lget_lt_256 hb (q)
  have hc1 := lget_lt_256 hb (q + 1)
  have hc2 := lget_lt_256 hb (q + 2)
  rcases Nat.lt_or_ge p (q + 3) with hp | hp
  · have hpeq : p = q + 1 ∨ p = q + 2 := by omega
    rcases hpeq with hpq | hpq
    · rw [hpq]
      have hrb : r ≤ 3 := by omega
      have f1 : (q = q + 1 ∧ q + 1 < l.length) = False := eq_false (by omega)
      have f2 : (q = q + 1 + 1 ∧ q + 1 + 1 < l.length) = False := eq_false (by omega)
      have f3 : (q + 1 = q + 1 ∧ q + 1 < l.length) = (q + 1 < l.length) := by
        simp [show q + 1 = q + 1 by omega]
      have f4 : (q + 1 = q + 1 + 1 ∧ q + 1 + 1 < l.length) = False := eq_false (by omega)
      have f5 : (q + 2 = q + 1 ∧ q + 1 < l.length) = False := eq_false (by omega)
      have f6 : (q + 2 = q + 1 + 1 ∧ q + 1 + 1 < l.length) = (q + 1 + 1 < l.length) := by
        simp [show q + 2 = q + 1 + 1 by omega]
      simp only [f1, f2, f3, f4, f5, f6, if_false]
      interval_cases r <;> interval_cases t <;> split_ifs <;> omega
    · rw [hpq]
      have f1 : (q = q + 2 ∧ q + 2 < l.length) = False := eq_false (by omega)
      have f2 : (q = q + 2 + 1 ∧ q + 2 + 1 < l.length) = False := eq_false (by omega)
      have f3 : (q + 1 = q + 2 ∧ q + 2 < l.length) = False := eq_false (by omega)
      have f4 : (q + 1 = q + 2 + 1 ∧ q + 2 + 1 < l.length) = False := eq_false (by omega)
      have f5 : (q + 2 = q + 2 ∧ q + 2 < l.length) = (q + 2 < l.length) := by
        simp [show q + 2 = q + 2 by omega]
      have f6 : (q + 2 = q + 2 + 1 ∧ q + 2 + 1 < l.length) = False := eq_false (by omega)
      simp only [f1, f2, f3, f4, f5, f6, if_false]
      interval_cases r <;> interval_cases t <;> split_ifs <;> omega
  · have g1 : ¬(q = p ∧ p < l.length) := by omega
    have g2 : ¬(q = p + 1 ∧ p + 1 < l.length) := by omega
    have g3 : ¬(q + 1 = p ∧ p < l.length) := by omega
    have g4 : ¬(q + 1 = p + 1 ∧ p + 1 < l.length) := by omega
    have g5 : ¬(q + 2 = p ∧ p < l.length) := by omega
    have g6 : ¬(q + 2 = p + 1 ∧ p + 1 < l.length) := by omega
    simp only [g1, g2, g3, g4, g5, g6, if_false]

set_option maxHeartbeats 1000000 in
/-- A 12-bit write strictly after a 6-bit field does not change it. -/
theorem getInt6_frame_set12 (l : List Nat) (v : Int) (o idx : Nat) (hb : bytesOK l)
    (hd : o + 6 ≤ idx) :
    getInt6 (setInt12 l idx v) o = getInt6 l o := by
  obtain ⟨q, r, hr, rfl⟩ : ∃ q r, r < 8 ∧ o = 8 * q + r :=
    ⟨o / 8, o % 8, Nat.mod_lt _ (by norm_num), by omega⟩
  obtain ⟨p, t, ht, rfl⟩ : ∃ p t, t < 8 ∧ idx = 8 * p + t :=
    ⟨idx / 8, idx % 8, Nat.mod_lt _ (by norm_num), by omega⟩
  rw [getInt6_decomp _ q r hr (bytesOK_setInt12 hb _ v), getInt6_decomp _ q r hr hb]
  rw [setInt12_bytes l v p t ht hb q, setInt12_bytes l v p t ht hb (q + 1)]
  have hn := n12_lt v
  have ha := lget_lt_256 hb (q)
  have hc1 := lget_lt_256 hb (q + 1)
  rcases Nat.lt_or_ge p (q + 2) with hp | hp
  · have hpeq : p = q ∨ p = q + 1 := by omega
    rcases hpeq with hpq | hpq
    · rw [hpq]
      have hrb : r ≤ 1 := by omega
      have f1 : (q = q ∧ q < l.length) = (q < l.length) := by
        simp [show q = q by omega]
      have f2 : (q = q + 1 ∧ q + 1 < l.length) = False := eq_false (by omega)
      have f3 : (q = q + 2 ∧ q + 2 < l.length) = False := eq_false (by omega)
      have f4 : (q + 1 = q ∧ q < l.length) = False := eq_false (by omega)
      have f5 : (q + 1 = q + 1 ∧ q + 1 < l.length) = (q + 1 < l.length) := by
        simp [show q + 1 = q + 1 by omega]
      have f6 : (q + 1 = q + 2 ∧ q + 2 < l.length) = False := eq_false (by omega)
      simp only [f1, f2, f3, f4, f5, f6, if_false]
      interval_cases r <;> interval_cases t <;> split_ifs <;> omega
    · rw [hpq]
      have f1 : (q = q + 1 ∧ q + 1 < l.length) = False := eq_false (by omega)
      have f2 : (q = q + 1 + 1 ∧ q + 1 + 1 < l.length) = False := eq_false (by omega)
      have f3 : (q = q + 1 + 2 ∧ q + 1 + 2 < l.length) = False := eq_false (by omega)
      have f4 : (q + 1 = q + 1 ∧ q + 1 < l.length) = (q + 1 < l.length) := by
        simp [show q + 1 = q + 1 by omega]
      have f5 : (q + 1 = q + 1 + 1 ∧ q + 1 + 1 < l.length) = False := eq_false (by omega)
      have f6 : (q + 1 = q + 1 + 2 ∧ q + 1 + 2 < l.length) = False := eq_false (by omega)
      simp only [f1, f2, f3, f4, f5, f6, if_false]
      interval_cases r <;> interval_cases t <;> split_ifs <;> omega
  · have g1 : ¬(q = p ∧ p < l.length) := by omega
    have g2 : ¬(q = p + 1 ∧ p + 1 < l.length) := by omega
    have g3 : ¬(q = p + 2 ∧ p + 2 < l.length) := by omega
    have g4 : ¬(q + 1 = p ∧ p < l.length) := by omega
    have g5 : ¬(q + 1 = p + 1 ∧ p + 1 < l.length) := by omega
    have g6 : ¬(q + 1 = p + 2 ∧ p + 2 < l.length) := by omega
    simp only [g1, g2, g3, g4, g5, g6, if_false]

set_option maxHeartbeats 1000000 in
/-- A 6-bit write strictly after a 6-bit field does not change it. -/
theorem getInt6_frame_set6 (l : List Nat) (v : Int) (o idx : Nat) (hb : bytesOK l)
    (hd : o + 6 ≤ idx) :
    getInt6 (setInt6 l idx v) o = getInt6 l o := by
  obtain ⟨q, r, hr, rfl⟩ : ∃ q r, r < 8 ∧ o = 8 * q + r :=
    ⟨o / 8, o % 8, Nat.mod_lt _ (by norm_num), by omega⟩
  obtain ⟨p, t, ht, rfl⟩ : ∃ p t, t < 8 ∧ idx = 8 * p + t :=
    ⟨idx / 8, idx % 8, Nat.mod_lt _ (by norm_num), by omega⟩
  rw [getInt6_decomp _ q r hr (bytesOK_setInt6 hb _ v), getInt6_decomp _ q r hr hb]
  rw [setInt6_bytes l v p t ht hb q, setInt6_bytes l v p t ht hb (q + 1)]
  have hn := n6_lt v
  have ha := lget_lt_256 hb (q)
  have hc1 := lget_lt_256 hb (q + 1)
  rcases Nat.lt_or_ge p (q + 2) with hp | hp
  · have hpeq : p = q ∨ p = q + 1 := by omega
    rcases hpeq with hpq | hpq
    · rw [hpq]
      have hrb : r ≤ 1 := by omega
      have f1 : (q = q ∧ q < l.length) = (q < l.length) := by
        simp [show q = q by omega]
      have f2 : (q = q + 1 ∧ q + 1 < l.length) = False := eq_false (by omega)
      have f3 : (q + 1 = q ∧ q < l.length) = False := eq_false (by omega)
      have f4 : (q + 1 = q + 1 ∧ q + 1 < l.length) = (q + 1 < l.length) := by
        simp [show q + 1 = q + 1 by omega]
      simp only [f1, f2, f3, f4, if_false]
      interval_cases r <;> interval_cases t <;> split_ifs <;> omega
    · rw [hpq]
      have f1 : (q = q + 1 ∧ q + 1 < l.length) = False := eq_false (by omega)
      have f2 : (q = q + 1 + 1 ∧ q + 1 + 1 < l.length) = False := eq_false (by omega)
      have f3 : (q + 1 = q + 1 ∧ q + 1 < l.length) = (q + 1 < l.length) := by
        simp [show q + 1 = q + 1 by omega]
      have f4 : (q + 1 = q + 1 + 1 ∧ q + 1 + 1 < l.length) = False := eq_false (by omega)
      simp only [f1, f2, f3, f4, if_false]
      interval_cases r <;> interval_cases t <;> split_ifs <;> omega
  · have g1 : ¬(q = p ∧ p < l.length) := by omega
    have g2 : ¬(q = p + 1 ∧ p + 1 < l.length) := by omega
    have g3 : ¬(q + 1 = p ∧ p < l.length) := by omega
    have g4 : ¬(q + 1 = p + 1 ∧ p + 1 < l.length) := by omega
    simp only [g1, g2, g3, g4, if_false]

theorem totalWidth_nil : totalWidth [] = 0 := rfl

theorem totalWidth_cons (f : BField) (fs : List BField) :
    totalWidth (f :: fs) = fwidth f + totalWidth fs := by
  simp [totalWidth]

theorem totalWidth_append (fs1 fs2 : List BField) :
    totalWidth (fs1 ++ fs2) = totalWidth fs1 + totalWidth fs2 := by
  simp [totalWidth]

theorem writeFs_append (bi : List Nat × Nat) (fs1 fs2 : List BField) :
    writeFs bi (fs1 ++ fs2) = writeFs (writeFs bi fs1) fs2 := by
  simp [writeFs]

theorem writeFs_idx (b : List Nat) (o : Nat) (fs : List BField) :
    (writeFs (b, o) fs).2 = o + totalWidth fs := by
  induction fs generalizing b o with
  | nil => simp [writeFs, totalWidth]
  | cons f fs ih =>
    cases f <;> simp [writeFs, List.foldl_cons, writeF, totalWidth_cons, fwidth] <;>
      rw [show List.foldl writeF _ fs = writeFs _ fs from rfl, ih] <;> omega

theorem writeFs_length (b : List Nat) (o : Nat) (fs : List BField) :
    (writeFs (b, o) fs).1.length = b.length := by
  induction fs generalizing b o with
  | nil => simp [writeFs]
  | cons f fs ih =>
    cases f <;> simp only [writeFs, List.foldl_cons, writeF] <;>
      rw [show List.foldl writeF _ fs = writeFs _ fs from rfl, ih] <;>
      simp [setInt12_length, setInt6_length]

theorem bytesOK_writeFs {b : List Nat} (hb : bytesOK b) (o : Nat) (fs : List BField) :
    bytesOK (writeFs (b, o) fs).1 := by
  induction fs generalizing b o with
  | nil => simpa [writeFs] using hb
  | cons f fs ih =>
    cases f <;> simp only [writeFs, List.foldl_cons, writeF] <;>
      rw [show List.foldl writeF _ fs = writeFs _ fs from rfl]
    · exact ih (bytesOK_setInt12 hb _ _) _
    · exact ih (bytesOK_setInt6 hb _ _) _

theorem getInt12_frame_writeFs (fs : List BField) {b : List Nat} (hb : bytesOK b)
    (o i : Nat) (hd : o + 12 ≤ i) :
    getInt12 (writeFs (b, i) fs).1 o = getInt12 b o := by
  induction fs generalizing b i with
  | nil => simp [writeFs]
  | cons f fs ih =>
    cases f with
    | f12 v =>
      simp only [writeFs, List.foldl_cons, writeF]
      rw [show List.foldl writeF _ fs = writeFs _ fs from rfl]
      rw [ih (bytesOK_setInt12 hb _ _) _ (by omega), getInt12_frame_set12 _ _ _ _ hb hd]
    | f6 v =>
      simp only [writeFs, List.foldl_cons, writeF]
      rw [show List.foldl writeF _ fs = writeFs _ fs from rfl]
      rw [ih (bytesOK_setInt6 hb _ _) _ (by omega), getInt12_frame_set6 _ _ _ _ hb hd]

theorem getInt6_frame_writeFs (fs : List BField) {b : List Nat} (hb : bytesOK b)
    (o i : Nat) (hd : o + 6 ≤ i) :
    getInt6 (writeFs (b, i) fs).1 o = getInt6 b o := by
  induction fs generalizing b i with
  | nil => simp [writeFs]
  | cons f fs ih =>
    cases f with
    | f12 v =>
      simp only [writeFs, List.foldl_cons, writeF]
      rw [show List.foldl writeF _ fs = writeFs _ fs from rfl]
      rw [ih (bytesOK_setInt12 hb _ _) _ (by omega), getInt6_frame_set12 _ _ _ _ hb hd]
    | f6 v =>
      simp only [writeFs, List.foldl_cons, writeF]
      rw [show List.foldl writeF _ fs = writeFs _ fs from rfl]
      rw [ih (bytesOK_setInt6 hb _ _) _ (by omega), getInt6_frame_set6 _ _ _ _ hb hd]

/-- After writing an in-range field sequence into a large-enough buffer,
the buffer holds exactly those fields. -/
theorem FieldsAt_writeFs (fs : List BField) {b : List Nat} (hb : bytesOK b) (o : Nat)
    (hok : ∀ f ∈ fs, fieldOK f) (hfit : o + totalWidth fs ≤ 8 * b.length) :
    FieldsAt (writeFs (b, o) fs).1 o fs := by
  induction fs generalizing b o with
  | nil => simp [FieldsAt]
  | cons f fs ih =>
    have hf := hok f (by simp)
    have hrest : ∀ g ∈ fs, fieldOK g := fun g hg => hok g (by simp [hg])
    cases f with
    | f12 v =>
      rw [totalWidth_cons] at hfit
      simp only [writeFs, List.foldl_cons, writeF]
      rw [show List.foldl writeF _ fs = writeFs _ fs from rfl]
      constructor
      · rw [getInt12_frame_writeFs fs (bytesOK_setInt12 hb _ _) o (o + 12) (by omega)]
        rw [getInt12_setInt12 b o v hb (by simp only [fwidth] at hfit; omega)]
        rw [n12_inRange hf.1 hf.2]
        omega
      · exact ih (bytesOK_setInt12 hb _ _) (o + 12) hrest
          (by rw [setInt12_length]; simp only [fwidth] at hfit; omega)
    | f6 v =>
      rw [totalWidth_cons] at hfit
      simp only [writeFs, List.foldl_cons, writeF]
      rw [show List.foldl writeF _ fs = writeFs _ fs from rfl]
      constructor
      · rw [getInt6_frame_writeFs fs (bytesOK_setInt6 hb _ _) o (o + 6) (by omega)]
        rw [getInt6_setInt6 b o v hb (by simp only [fwidth] at hfit; omega)]
        rw [n6_inRange hf.1 hf.2]
        omega
      · exact ih (bytesOK_setInt6 hb _ _) (o + 6) hrest
          (by rw [setInt6_length]; simp only [fwidth] at hfit; omega)

theorem FieldsAt_append {B : List Nat} (fs1 fs2 : List BField) (o : Nat) :
    FieldsAt B o (fs1 ++ fs2) ↔
      FieldsAt B o fs1 ∧ FieldsAt B (o + totalWidth fs1) fs2 := by
  induction fs1 generalizing o with
  | nil => simp [FieldsAt, totalWidth]
  | cons f fs ih =>
    cases f <;>
      simp [FieldsAt, ih, totalWidth_cons, fwidth, Nat.add_assoc, and_assoc]

theorem six_le_totalWidth (f : BField) (fs : List BField) :
    6 ≤ totalWidth (f :: fs) := by
  cases f <;> simp [totalWidth_cons, fwidth] <;> omega

theorem length_le_totalWidth (fs : List BField) : 6 * fs.length ≤ totalWidth fs := by
  induction fs with
  | nil => simp [totalWidth]
  | cons f fs ih => cases f <;> simp [totalWidth_cons, fwidth] <;> omega

/-- Main decode simulation: started on a buffer holding the fields of a
resumption state, with the bit-length marking exactly their end, the
decode loop appends exactly the decoded stream of that state. -/
theorem dec_spec (fuel : Nat) :
    ∀ (st : DState) (B : List Nat) (bl o : Nat) (acc : List Int),
      dsOK st → FieldsAt B o (dsFields st) → bl = o + totalWidth (dsFields st) →
      (dsFields st).length ≤ fuel →
      dsRun st B bl fuel o acc = acc ++ dsDecode st := by
  induction fuel with
  | zero =>
    intro st B bl o acc hok hF hbl hcount
    cases st with
    | done => simp [dsRun, dsFields, totalWidth] at hbl ⊢; cases fuelz : (0:Nat) <;>
        simp [dsDecode, decOuter, hbl]
    | tl ss gs => simp [dsFields] at hcount
    | inner x y ds ss gs => simp [dsFields] at hcount
  | succ fuel ih =>
    intro st B bl o acc hok hF hbl hcount
    cases st with
    | done =>
      simp only [dsFields, totalWidth_nil, Nat.add_zero] at hbl
      simp [dsRun, decOuter, hbl, dsDecode]
    | tl ss gs =>
      cases ss with
      | nil =>
        -- next field is the part sentinel
        simp only [dsFields, List.flatMap_nil, List.nil_append] at hF hbl hcount
        rw [FieldsAt_append] at hF
        have hsent : getInt12 B o = -2048 := hF.1.1
        have hlt : o < bl := by
          have := six_le_totalWidth (.f12 (-2048)) []
          simp only [totalWidth_append] at hbl
          omega
        simp only [dsRun, decOuter, hlt, if_pos, hsent, if_true]
        cases gs with
        | nil =>
          have : bl = o + 12 := by
            simp [totalWidth_append, totalWidth_cons, totalWidth_nil, fwidth,
              polysFields] at hbl
            omega
          have := ih .done B bl (o + 12) (acc ++ [-2048]) trivial trivial
            (by simp [dsFields, totalWidth_nil]; omega) (by simp [dsFields])
          simp only [dsRun, dsDecode] at this
          simp only [this, dsDecode, polysDec, List.flatMap_nil, List.append_nil]
          simp
        | cons g gs2 =>
          have hfields : FieldsAt B (o + 12) (dsFields (.tl g gs2)) := by
            have := hF.2
            simp only [totalWidth_cons, totalWidth_nil, fwidth] at this
            simpa [dsFields, polysFields, groupFields, List.flatMap_cons,
              List.append_assoc] using this
          have hbl2 : bl = o + 12 + totalWidth (dsFields (.tl g gs2)) := by
            simp only [totalWidth_append, totalWidth_cons, totalWidth_nil, fwidth] at hbl
            simp only [dsFields, totalWidth_append, polysFields, List.flatMap_cons,
              groupFields, totalWidth_cons] at hbl ⊢
            simp [totalWidth_append] at hbl ⊢
            omega
          have hok2 : dsOK (.tl g gs2) := by
            rcases hok with ⟨-, hgs⟩
            exact ⟨hgs g (by simp), fun g2 hg2 => hgs g2 (by simp [hg2])⟩
          have hcnt : (dsFields (.tl g gs2)).length ≤ fuel := by
            simp only [dsFields, polysFields, List.flatMap_cons, groupFields] at hcount ⊢
            simp at hcount ⊢
            omega
          have := ih (.tl g gs2) B bl (o + 12) (acc ++ [-2048]) hok2 hfields hbl2 hcnt
          simp only [dsRun] at this
          rw [this]
          simp [dsDecode, polysDec, groupDec, List.flatMap_cons]
      | cons s ss2 =>
        obtain ⟨x, y, ds, rfl, hx, hy, hdev, hdr⟩ := hok.1 s (by simp)
        have hfsplit : dsFields (.tl ((x :: y :: ds) :: ss2) gs) =
            .f12 x :: .f12 y :: (ds.map .f6 ++ [.f6 (-32)] ++ dsFields (.tl ss2 gs)) := by
          simp [dsFields, spanFields, List.flatMap_cons, List.append_assoc]
        rw [hfsplit] at hF hbl hcount
        have hgx : getInt12 B o = x := hF.1
        have hgy : getInt12 B (o + 12) = y := hF.2.1
        have hlt : o < bl := by
          rw [hbl, totalWidth_cons]
          simp only [fwidth]
          omega
        have hxne : ¬(x = -2048) := by omega
        simp only [dsRun, decOuter, hlt, if_pos, hxne, if_false, hgx, hgy, if_neg]
        have hok2 : dsOK (.inner x y ds ss2 gs) :=
          ⟨hdev, hdr, fun s2 hs2 => hok.1 s2 (by simp [hs2]), hok.2⟩
        have hF2 : FieldsAt B (o + 24) (dsFields (.inner x y ds ss2 gs)) := by
          have := hF.2.2
          simpa [dsFields, Nat.add_assoc] using this
        have hbl2 : bl = o + 24 + totalWidth (dsFields (.inner x y ds ss2 gs)) := by
          rw [hbl]
          simp only [totalWidth_cons, fwidth, dsFields]
          omega
        have hcnt2 : (dsFields (.inner x y ds ss2 gs)).length ≤ fuel := by
          have hlen2 : (BField.f12 x :: BField.f12 y ::
              (ds.map .f6 ++ [.f6 (-32)] ++ dsFields (.tl ss2 gs))).length =
              (dsFields (.inner x y ds ss2 gs)).length + 2 := by
            simp [dsFields]
          omega
        have := ih (.inner x y ds ss2 gs) B bl (o + 24) (acc ++ [x, y]) hok2 hF2 hbl2 hcnt2
        simp only [dsRun] at this
        rw [this]
        simp [dsDecode, spanPoints, List.flatMap_cons]
    | inner x y ds ss gs =>
      rcases hds : ds with _ | ⟨dx, _ | ⟨dy, rest2⟩⟩
      · -- no deltas left: the span terminator
        subst hds
        simp only [dsFields, List.map_nil, List.nil_append] at hF hbl hcount
        rw [FieldsAt_append] at hF
        have hterm : getInt6 B o = -32 := hF.1.1
        have hlt : o < bl := by
          rw [hbl, totalWidth_append, totalWidth_cons]
          simp only [fwidth]
          omega
        simp only [dsRun, decInner, hlt, if_pos, hterm, if_true]
        have hok2 : dsOK (.tl ss gs) := ⟨hok.2.2.1, hok.2.2.2⟩
        have hF2 : FieldsAt B (o + 6) (dsFields (.tl ss gs)) := by
          have := hF.2
          simpa [dsFields, totalWidth_cons, totalWidth_nil, fwidth] using this
        have hbl2 : bl = o + 6 + totalWidth (dsFields (.tl ss gs)) := by
          rw [hbl]
          simp only [totalWidth_append, totalWidth_cons, totalWidth_nil, fwidth, dsFields,
            totalWidth_append]
          omega
        have hcnt2 : (dsFields (.tl ss gs)).length ≤ fuel := by
          have hlen2 : ([BField.f6 (-32)] ++
              (ss.flatMap spanFields ++ [BField.f12 (-2048)] ++ polysFields gs)).length =
              (dsFields (.tl ss gs)).length + 1 := by
            simp [dsFields]
          omega
        have := ih (.tl ss gs) B bl (o + 6) acc hok2 hF2 hbl2 hcnt2
        simp only [dsRun] at this
        rw [this]
        simp [dsDecode, walkDs]
      · -- odd number of deltas is impossible
        exfalso
        have := hok.1
        rw [hds] at this
        simp at this
      · -- a delta pair
        subst hds
        have hfsplit : dsFields (.inner x y (dx :: dy :: rest2) ss gs) =
            .f6 dx :: .f6 dy :: dsFields (.inner x y rest2 ss gs) := by
          simp [dsFields]
        rw [hfsplit] at hF hbl hcount
        have hgdx : getInt6 B o = dx := hF.1
        have hgdy : getInt6 B (o + 6) = dy := hF.2.1
        have hdxr := hok.2.1 dx (by simp)
        have hdyr := hok.2.1 dy (by simp)
        have hlt : o < bl := by
          rw [hbl, totalWidth_cons]
          simp only [fwidth]
          omega
        have hdxne : ¬(dx = -32) := by omega
        simp only [dsRun, decInner]
        rw [hgdx, hgdy, if_pos hlt, if_neg hdxne]
        have hok2 : dsOK (.inner (x + dx) (y + dy) rest2 ss gs) := by
          refine ⟨?_, fun d hd => hok.2.1 d (by simp [hd]), hok.2.2.1, hok.2.2.2⟩
          have := hok.1
          simp at this ⊢
          omega
        have hF2 : FieldsAt B (o + 12) (dsFields (.inner (x + dx) (y + dy) rest2 ss gs)) := by
          have := hF.2.2
          simpa [dsFields, Nat.add_assoc] using this
        have hbl2 : bl = o + 12 + totalWidth (dsFields (.inner (x + dx) (y + dy) rest2 ss gs)) := by
          rw [hbl]
          simp only [totalWidth_cons, fwidth, dsFields]
          omega
        have hcnt2 : (dsFields (.inner (x + dx) (y + dy) rest2 ss gs)).length ≤ fuel := by
          have hlen2 : (BField.f6 dx :: BField.f6 dy ::
              dsFields (.inner x y rest2 ss gs)).length =
              (dsFields (.inner x y rest2 ss gs)).length + 2 := by
            simp
          have hlen3 : (dsFields (.inner (x + dx) (y + dy) rest2 ss gs)).length =
              (dsFields (.inner x y rest2 ss gs)).length := by
            simp [dsFields]
          omega
        have := ih (.inner (x + dx) (y + dy) rest2 ss gs) B bl (o + 12)
          (acc ++ [x + dx, y + dy]) hok2 hF2 hbl2 hcnt2
        simp only [dsRun] at this
        rw [this]
        simp [dsDecode, walkDs]

theorem polysFields_append1 (ps : List (List (List Int))) (g : List (List Int)) :
    polysFields (ps ++ [g]) = polysFields ps ++ groupFields g := by
  simp [polysFields]

theorem polysDec_append1 (ps : List (List (List Int))) (g : List (List Int)) :
    polysDec (ps ++ [g]) = polysDec ps ++ groupDec g := by
  simp [polysDec]

theorem groupFields_width_append1 (g : List (List Int)) (s : List Int) :
    totalWidth ((g ++ [s]).flatMap spanFields) =
      totalWidth (g.flatMap spanFields) + totalWidth (spanFields s) := by
  simp [totalWidth_append]

theorem width_map_f6 (ds : List Int) : totalWidth (ds.map .f6) = 6 * ds.length := by
  induction ds with
  | nil => simp [totalWidth]
  | cons d ds ih =>
    simp only [List.map_cons, totalWidth_cons, fwidth, ih, List.length_cons]
    omega

theorem spanFields_width (x y : Int) (ds : List Int) :
    totalWidth (spanFields (x :: y :: ds)) = 30 + 6 * ds.length := by
  simp only [spanFields, totalWidth_cons, totalWidth_append, fwidth, List.drop_succ_cons,
    List.drop_zero, width_map_f6]
  simp [totalWidth_cons, totalWidth_nil, fwidth]
  omega

theorem walkDs_append_pair (dx dy : Int) : ∀ (x y : Int) (ds : List Int),
    ds.length % 2 = 0 →
    walkDs x y (ds ++ [dx, dy]) =
      walkDs x y ds ++ [(walkEnd x y ds).1 + dx, (walkEnd x y ds).2 + dy] := by
  intro x y ds
  induction x, y, ds using walkDs.induct with
  | case1 x y d1 d2 rest ih =>
    intro hev
    simp only [List.cons_append, walkDs, walkEnd, List.append_eq]
    rw [ih (by simp at hev; omega)]
  | case2 l x y h1 =>
    intro hev
    cases l with
    | nil => simp [walkDs, walkEnd]
    | cons d l2 =>
      cases l2 with
      | nil => simp at hev
      | cons d2 l3 => exact absurd rfl fun he => h1 d d2 l3 he

/-- walkEnd after appending one delta pair. -/
theorem walkEnd_append_pair (dx dy : Int) : ∀ (x y : Int) (ds : List Int),
    ds.length % 2 = 0 →
    walkEnd x y (ds ++ [dx, dy]) =
      ((walkEnd x y ds).1 + dx, (walkEnd x y ds).2 + dy) := by
  intro x y ds
  induction x, y, ds using walkDs.induct with
  | case1 x y d1 d2 rest ih =>
    intro hev
    simp only [List.cons_append, walkEnd, List.append_eq]
    exact ih (by simp at hev; omega)
  | case2 l x y h1 =>
    intro hev
    cases l with
    | nil => simp [walkEnd]
    | cons d l2 =>
      cases l2 with
      | nil => simp at hev
      | cons d2 l3 => exact absurd rfl fun he => h1 d d2 l3 he

theorem spanPoints_append_pair (x0 y0 : Int) (ds : List Int) (dx dy : Int)
    (hev : ds.length % 2 = 0) :
    spanPoints (x0 :: y0 :: (ds ++ [dx, dy])) =
      spanPoints (x0 :: y0 :: ds) ++
        [(walkEnd x0 y0 ds).1 + dx, (walkEnd x0 y0 ds).2 + dy] := by
  simp [spanPoints, walkDs_append_pair dx dy x0 y0 ds hev]

/-- Main encoder specification, by strong induction on the stream length:
for a stream of in-range sample pairs followed by a single part sentinel,
the flushed groups decode back to the input, they are well formed, and
`byteLen` counts exactly the 6-bit units of their fields. -/
theorem encLoop_spec_aux : ∀ (n : Nat) (data : List Int) (st : EncState),
    data.length = n → data.length % 2 = 0 →
    (∀ v ∈ data, -2047 ≤ v ∧ v ≤ 2047) → StInv st → (data = [] → st.span ≠ []) →
    polysDec (encLoop (data ++ [-2048]) st).polys =
        polysDec st.polys ++ pendDec st ++ data ++ [-2048] ∧
      polysOK (encLoop (data ++ [-2048]) st).polys ∧
      (encLoop (data ++ [-2048]) st).span = [] ∧
      (encLoop (data ++ [-2048]) st).spans = [] ∧
      6 * (encLoop (data ++ [-2048]) st).byteLen +
          totalWidth (polysFields st.polys) + pendW st =
        6 * st.byteLen + totalWidth (polysFields (encLoop (data ++ [-2048]) st).polys) := by
  intro n
  induction n using Nat.strong_induction_on with
  | _ n ih =>
  intro data st hlen hev hdr hinv hne
  have hinv2 := hinv
  rcases hinv with ⟨hpOK, hssOK, hspinv⟩
  match data with
  | [] =>
    have hspne := hne rfl
    rcases hspinv with hE | ⟨x0, y0, ds0, hspan, hspOK, hwend⟩
    · exact absurd hE hspne
    have hws : totalWidth (spanFields st.span) = 30 + 6 * ds0.length := by
      rw [hspan, spanFields_width]
    simp only [List.nil_append, encLoop, ite_true]
    refine ⟨?_, ?_, True.intro, True.intro, ?_⟩
    · rw [polysDec_append1]
      simp [groupDec, pendDec, hspne, List.flatMap_append]
    · intro g hg
      rcases List.mem_append.mp hg with hg1 | hg2
      · exact hpOK g hg1
      · intro s hs
        have : g = st.spans ++ [st.span] := by simpa using hg2
        subst this
        rcases List.mem_append.mp hs with hs1 | hs2
        · exact hssOK s hs1
        · simp at hs2
          subst hs2
          exact hspOK
    · have h1 : totalWidth (polysFields (st.polys ++ [st.spans ++ [st.span]])) =
          totalWidth (polysFields st.polys) +
            (totalWidth ((st.spans ++ [st.span]).flatMap spanFields) + 12) := by
        rw [polysFields_append1, totalWidth_append]
        simp [groupFields, totalWidth_append, totalWidth_cons, totalWidth_nil, fwidth]
        omega
      have h2 := groupFields_width_append1 st.spans st.span
      have h3 : pendW st = totalWidth (st.spans.flatMap spanFields) +
          (totalWidth (spanFields st.span) - 6) := by
        simp [pendW, hspne]
      simp only [h1, h2, h3]
      omega
  | [v] =>
    simp at hlen hev
  | v :: h :: rest =>
    have hv := hdr v (by simp)
    have hh := hdr h (by simp)
    have hvne : ¬(v = -2048) := by omega
    have hev2 : rest.length % 2 = 0 := by simp at hev; omega
    have hdr2 : ∀ w ∈ rest, -2047 ≤ w ∧ w ≤ 2047 := fun w hw => hdr w (by simp [hw])
    have hlt : rest.length < n := by simp at hlen; omega
    simp only [List.cons_append, encLoop, if_neg hvne, List.headD_cons, List.tail_cons]
    by_cases hsp : st.span = []
    · -- start a fresh span
      simp only [hsp, if_pos, ite_true]
      have hinvA : StInv { st with x := v, y := h, span := [v, h], byteLen := st.byteLen + 4 } := by
        refine ⟨hpOK, hssOK, Or.inr ⟨v, h, [], rfl, ?_, rfl⟩⟩
        exact ⟨v, h, [], rfl, ⟨hv.1, hv.2⟩, ⟨by omega, hh.2⟩, by simp, by simp⟩
      obtain ⟨ha, hb, hc, hd, he⟩ := ih rest.length hlt rest
        { st with x := v, y := h, span := [v, h], byteLen := st.byteLen + 4 } rfl hev2 hdr2
        hinvA (fun _ => by simp)
      have hpd : pendDec { st with x := v, y := h, span := [v, h], byteLen := st.byteLen + 4 } =
          pendDec st ++ [v, h] := by
        simp [pendDec, hsp, spanPoints, walkDs]
      have hpw : pendW { st with x := v, y := h, span := [v, h], byteLen := st.byteLen + 4 } =
          pendW st + 24 := by
        simp [pendW, hsp, spanFields_width]
      refine ⟨?_, hb, hc, hd, ?_⟩
      · rw [ha, hpd]
        simp
      · simp only at he
        omega
    · rcases hspinv with hE | ⟨x0, y0, ds0, hspan, hspOK, hwend⟩
      · exact absurd hE hsp
      have hws : totalWidth (spanFields st.span) = 30 + 6 * ds0.length := by
        rw [hspan, spanFields_width]
      have hds0ev : ds0.length % 2 = 0 := by
        rcases hspOK with ⟨x1, y1, ds1, heq, -, -, hev1, -⟩
        rw [hspan] at heq
        injection heq with e1 e2
        injection e2 with e3 e4
        subst e4
        exact hev1
      simp only [hsp, if_neg, ite_false]
      by_cases hfl : 31 < (st.x - v).natAbs ∨ 31 < (st.y - h).natAbs
      · -- flush the span, start a fresh one
        simp only [hfl, if_pos, ite_true]
        have hinvB : StInv { st with spans := st.spans ++ [st.span], span := [v, h], x := v, y := h, byteLen := st.byteLen + 1 + 4 } := by
          refine ⟨hpOK, ?_, Or.inr ⟨v, h, [], rfl, ?_, rfl⟩⟩
          · intro s hs
            rcases List.mem_append.mp hs with hs1 | hs2
            · exact hssOK s hs1
            · simp at hs2
              subst hs2
              exact hspOK
          · exact ⟨v, h, [], rfl, ⟨hv.1, hv.2⟩, ⟨by omega, hh.2⟩, by simp, by simp⟩
        obtain ⟨ha, hb, hc, hd, he⟩ := ih rest.length hlt rest
          { st with spans := st.spans ++ [st.span], span := [v, h], x := v, y := h, byteLen := st.byteLen + 1 + 4 }
          rfl hev2 hdr2 hinvB (fun _ => by simp)
        have hpd : pendDec { st with spans := st.spans ++ [st.span], span := [v, h], x := v, y := h, byteLen := st.byteLen + 1 + 4 } =
            pendDec st ++ [v, h] := by
          simp [pendDec, hsp, spanPoints, walkDs, List.flatMap_append]
        have hpw : pendW { st with spans := st.spans ++ [st.span], span := [v, h], x := v, y := h, byteLen := st.byteLen + 1 + 4 } =
            pendW st + 30 := by
          simp only [pendW, hsp, if_neg, ite_false, groupFields_width_append1]
          simp [spanFields_width, hws]
          omega
        refine ⟨?_, hb, hc, hd, ?_⟩
        · rw [ha, hpd]
          simp
        · simp only at he
          omega
      · -- append a delta pair to the current span
        simp only [hfl, if_neg, ite_false]
        have hdvr : -31 ≤ v - st.x ∧ v - st.x ≤ 31 := by
          rw [not_or] at hfl
          omega
        have hdhr : -31 ≤ h - st.y ∧ h - st.y ≤ 31 := by
          rw [not_or] at hfl
          omega
        have hspan2 : st.span ++ [v - st.x, h - st.y] = x0 :: y0 :: (ds0 ++ [v - st.x, h - st.y]) := by
          rw [hspan]
          simp
        have hinvC : StInv { st with span := st.span ++ [v - st.x, h - st.y], x := v, y := h, byteLen := st.byteLen + 2 } := by
          refine ⟨hpOK, hssOK, Or.inr ⟨x0, y0, ds0 ++ [v - st.x, h - st.y], hspan2, ?_, ?_⟩⟩
          · rcases hspOK with ⟨x1, y1, ds1, heq, hx1, hy1, hev1, hdr1⟩
            rw [hspan] at heq
            injection heq with e1 e2
            injection e2 with e3 e4
            subst e1
            subst e3
            subst e4
            refine ⟨x0, y0, ds0 ++ [v - st.x, h - st.y], hspan2, hx1, hy1, ?_, ?_⟩
            · simp
              omega
            · intro d hd
              rcases List.mem_append.mp hd with hd1 | hd2
              · exact hdr1 d hd1
              · simp at hd2
                rcases hd2 with rfl | rfl
                · exact hdvr
                · exact hdhr
          · show walkEnd x0 y0 (ds0 ++ [v - st.x, h - st.y]) = (v, h)
            rw [walkEnd_append_pair _ _ x0 y0 ds0 hds0ev, hwend]
            simp
        obtain ⟨ha, hb, hc, hd, he⟩ := ih rest.length hlt rest
          { st with span := st.span ++ [v - st.x, h - st.y], x := v, y := h, byteLen := st.byteLen + 2 }
          rfl hev2 hdr2 hinvC (fun _ => by simp)
        have hpd : pendDec { st with span := st.span ++ [v - st.x, h - st.y], x := v, y := h, byteLen := st.byteLen + 2 } =
            pendDec st ++ [v, h] := by
          simp only [pendDec, hsp, if_neg, ite_false]
          have hne2 : ¬(st.span ++ [v - st.x, h - st.y] = []) := by simp
          simp only [hne2, if_neg, ite_false]
          rw [hspan2, spanPoints_append_pair x0 y0 ds0 _ _ hds0ev, hwend, hspan]
          simp
        have hpw : pendW { st with span := st.span ++ [v - st.x, h - st.y], x := v, y := h, byteLen := st.byteLen + 2 } =
            pendW st + 12 := by
          simp only [pendW, hsp, if_neg, ite_false]
          have hne2 : ¬(st.span ++ [v - st.x, h - st.y] = []) := by simp
          simp only [hne2, if_neg, ite_false, hspan2, spanFields_width, hws]
          simp
          omega
        refine ⟨?_, hb, hc, hd, ?_⟩
        · rw [ha, hpd]
          simp
        · simp only at he
          omega

/-! ### Writer bridge: the `storeDeltas6` fold is `writeFs` over the field
sequence of the groups. -/

theorem writeDeltas_eq (bi : List Nat × Nat) (ds : List Int) :
    writeDeltas bi ds = writeFs bi (ds.map .f6) := by
  simp [writeDeltas, writeFs, List.foldl_map, writeF]

theorem writeSpan_eq (bi : List Nat × Nat) (s : List Int) :
    writeSpan bi s = writeFs bi (spanFields s) := by
  simp [writeSpan, spanFields, writeFs_append, writeDeltas_eq, writeFs, writeF]

theorem foldl_writeSpan_eq : ∀ (g : List (List Int)) (bi : List Nat × Nat),
    g.foldl writeSpan bi = writeFs bi (g.flatMap spanFields) := by
  intro g
  induction g with
  | nil => intro bi; simp [writeFs]
  | cons s g ih =>
    intro bi
    simp [List.foldl_cons, List.flatMap_cons, writeFs_append, writeSpan_eq, ih]

theorem writeGroup_eq (bi : List Nat × Nat) (g : List (List Int)) :
    writeGroup bi g = writeFs bi (groupFields g) := by
  simp [writeGroup, groupFields, writeFs_append, foldl_writeSpan_eq, writeFs, writeF]

theorem foldl_writeGroup_eq : ∀ (ps : List (List (List Int))) (bi : List Nat × Nat),
    ps.foldl writeGroup bi = writeFs bi (polysFields ps) := by
  intro ps
  induction ps with
  | nil => intro bi; simp [writeFs, polysFields]
  | cons g ps ih =>
    intro bi
    simp [List.foldl_cons, polysFields, List.flatMap_cons, writeFs_append, writeGroup_eq, ih]

/-- Every field of a well-formed span is representable. -/
theorem fieldOK_spanFields {s : List Int} (h : spanOK s) :
    ∀ f ∈ spanFields s, fieldOK f := by
  obtain ⟨x, y, ds, rfl, hx, hy, -, hdr⟩ := h
  intro f hf
  simp only [spanFields, List.getD_cons_zero, List.getD_cons_succ, List.drop_succ_cons,
    List.drop_zero, List.mem_cons, List.mem_append, List.mem_map, List.mem_singleton] at hf
  rcases hf with rfl | rfl | ⟨d, hd, rfl⟩ | rfl | hf0
  · exact ⟨by omega, hx.2⟩
  · exact hy
  · have := hdr d hd
    exact ⟨by omega, by omega⟩
  · exact ⟨by omega, by omega⟩
  · simp at hf0

/-- Every field of a well-formed group list is representable. -/
theorem fieldOK_polysFields {ps : List (List (List Int))} (h : polysOK ps) :
    ∀ f ∈ polysFields ps, fieldOK f := by
  intro f hf
  rw [polysFields, List.mem_flatMap] at hf
  obtain ⟨g, hg, hf⟩ := hf
  rw [groupFields, List.mem_append] at hf
  rcases hf with hf | hf
  · rw [List.mem_flatMap] at hf
    obtain ⟨sp, hsp, hf⟩ := hf
    exact fieldOK_spanFields (h g hg sp hsp) f hf
  · simp only [List.mem_singleton] at hf
    subst hf
    exact ⟨by omega, by omega⟩

/-! ### The bit-length header does not disturb the payload. -/

theorem getInt12_congr {l1 l2 : List Nat} {o : Nat}
    (h : ∀ j, 4 ≤ j → lget l1 j = lget l2 j) (ho : 32 ≤ o) :
    getInt12 l1 o = getInt12 l2 o := by
  have h1 := h (o / 8) (by omega)
  have h2 := h (o / 8 + 1) (by omega)
  have h3 := h (o / 8 + 2) (by omega)
  simp only [getInt12, h1, h2, h3]

theorem getInt6_congr {l1 l2 : List Nat} {o : Nat}
    (h : ∀ j, 4 ≤ j → lget l1 j = lget l2 j) (ho : 32 ≤ o) :
    getInt6 l1 o = getInt6 l2 o := by
  have h1 := h (o / 8) (by omega)
  have h2 := h (o / 8 + 1) (by omega)
  simp only [getInt6, h1, h2]

theorem FieldsAt_congr {l1 l2 : List Nat}
    (h : ∀ j, 4 ≤ j → lget l1 j = lget l2 j) :
    ∀ (fs : List BField) (o : Nat), 32 ≤ o → FieldsAt l1 o fs → FieldsAt l2 o fs := by
  intro fs
  induction fs with
  | nil => intro o _ _; trivial
  | cons f fs ih =>
    intro o ho hF
    cases f with
    | f12 v =>
      exact ⟨by rw [← getInt12_congr h ho]; exact hF.1, ih (o + 12) (by omega) hF.2⟩
    | f6 v =>
      exact ⟨by rw [← getInt6_congr h ho]; exact hF.1, ih (o + 6) (by omega) hF.2⟩

theorem setUint32BE_length (l : List Nat) (off v : Nat) :
    (setUint32BE l off v).length = l.length := by
  simp [setUint32BE]

theorem lget_setUint32BE_ge4 (l : List Nat) (v : Nat) (j : Nat) (hj : 4 ≤ j) :
    lget (setUint32BE l 0 v) j = lget l j := by
  simp only [setUint32BE]
  rw [lget_set, if_neg (fun hc => absurd hc.1 (by omega)),
      lget_set, if_neg (fun hc => absurd hc.1 (by omega)),
      lget_set, if_neg (fun hc => absurd hc.1 (by omega)),
      lget_set, if_neg (fun hc => absurd hc.1 (by omega))]

theorem readU32BE_setUint32BE (l : List Nat) (v : Nat) (h4 : 4 ≤ l.length)
    (hv : v < 4294967296) :
    readU32BE (setUint32BE l 0 v) 0 = v := by
  have h0 : (0 : Nat) < l.length := by omega
  have h1 : (1 : Nat) < l.length := by omega
  have h2 : (2 : Nat) < l.length := by omega
  have h3 : (3 : Nat) < l.length := by omega
  simp [readU32BE, setUint32BE, lget_set, h0, h1, h2, h3]
  omega

/-! ### byteLen growth bound (used for the 32-bit header range). -/

theorem encLoop_byteLen_le : ∀ (n : Nat) (l : List Int) (st : EncState),
    l.length = n → (encLoop l st).byteLen ≤ st.byteLen + 5 * l.length := by
  intro n
  induction n using Nat.strong_induction_on with
  | _ n ih =>
  intro l st hlen
  match l with
  | [] => simp [encLoop]
  | v :: rest =>
    have htl : rest.tail.length ≤ rest.length := by cases rest <;> simp
    simp only [encLoop]
    by_cases hv : v = -2048
    · rw [if_pos hv]
      have := ih rest.length (by simp at hlen; omega) rest
        { st with polys := st.polys ++ [st.spans ++ [st.span]],
                  spans := [], span := [], byteLen := st.byteLen + 3 } rfl
      simp only [List.length_cons] at this ⊢
      omega
    · rw [if_neg hv]
      by_cases hsp : st.span = []
      · rw [if_pos hsp]
        have := ih rest.tail.length (by simp at hlen; omega) rest.tail
          { st with x := v, y := rest.headD 0, span := [v, rest.headD 0],
                    byteLen := st.byteLen + 4 } rfl
        simp only [List.length_cons] at this ⊢
        omega
      · rw [if_neg hsp]
        by_cases hfl : 31 < (st.x - v).natAbs ∨ 31 < (st.y - rest.headD 0).natAbs
        · rw [if_pos hfl]
          have := ih rest.tail.length (by simp at hlen; omega) rest.tail
            { st with spans := st.spans ++ [st.span], span := [v, rest.headD 0],
                      x := v, y := rest.headD 0, byteLen := st.byteLen + 1 + 4 } rfl
          simp only [List.length_cons] at this ⊢
          omega
        · rw [if_neg hfl]
          have := ih rest.tail.length (by simp at hlen; omega) rest.tail
            { st with span := st.span ++ [v - st.x, rest.headD 0 - st.y],
                      x := v, y := rest.headD 0, byteLen := st.byteLen + 2 } rfl
          simp only [List.length_cons] at this ⊢
          omega

/-! ### Decoding a whole group list from its fields. -/

theorem dec_polys (ps : List (List (List Int))) (B : List Nat) (bl fuel o : Nat)
    (acc : List Int) (hok : polysOK ps) (hF : FieldsAt B o (polysFields ps))
    (hbl : bl = o + totalWidth (polysFields ps))
    (hfuel : (polysFields ps).length ≤ fuel) :
    decOuter B bl fuel o acc = acc ++ polysDec ps := by
  cases ps with
  | nil =>
    simp only [polysFields, List.flatMap_nil, totalWidth_nil, Nat.add_zero] at hbl
    cases fuel with
    | zero => simp [decOuter, polysDec]
    | succ f => simp [decOuter, hbl, polysDec]
  | cons g gs =>
    have hfs : dsFields (.tl g gs) = polysFields (g :: gs) := by
      simp [dsFields, polysFields, groupFields, List.flatMap_cons, List.append_assoc]
    have hdec : dsDecode (.tl g gs) = polysDec (g :: gs) := by
      simp [dsDecode, polysDec, groupDec, List.flatMap_cons, List.append_assoc]
    have hok2 : dsOK (.tl g gs) :=
      ⟨hok g (by simp), fun g2 hg2 => hok g2 (by simp [hg2])⟩
    have := dec_spec fuel (.tl g gs) B bl o acc hok2 (by rw [hfs]; exact hF)
      (by rw [hfs]; exact hbl) (by rw [hfs]; exact hfuel)
    simpa [dsRun, hdec] using this

/-! ### Second-stage quantization bounds. -/

theorem tdiv16_bounds (v : Int) (h1 : -32767 ≤ v) (h2 : v ≤ 32767) :
    -2047 ≤ v.tdiv 16 ∧ v.tdiv 16 ≤ 2047 := by
  rcases le_or_lt 0 v with hv | hv
  · rw [Int.tdiv_eq_ediv hv (by norm_num)]
    omega
  · have hneg : v.tdiv 16 = -((-v).tdiv 16) := by
      rw [Int.neg_tdiv]
      omega
    rw [hneg, Int.tdiv_eq_ediv (by omega) (by norm_num)]
    omega

/-! ### Fields are insensitive to bytes appended after the payload:
within-bounds reads mask away the out-of-range third (or second) byte. -/

theorem lget_append_lt {l1 l2 : List Nat} {j : Nat} (h : j < l1.length) :
    lget (l1 ++ l2) j = lget l1 j := by
  unfold lget
  rw [List.getD_eq_getElem?_getD, List.getD_eq_getElem?_getD,
    List.getElem?_append, if_pos h]

theorem getInt12_append (l1 l2 : List Nat) (idx : Nat)
    (h : idx + 12 ≤ 8 * l1.length) :
    getInt12 (l1 ++ l2) idx = getInt12 l1 idx := by
  have hb0 : idx / 8 < l1.length := by omega
  have hb1 : idx / 8 + 1 < l1.length := by omega
  by_cases hb2 : idx / 8 + 2 < l1.length
  · simp only [getInt12, lget_append_lt hb0, lget_append_lt hb1, lget_append_lt hb2]
  · have hoff : idx % 8 ≤ 4 := by omega
    have hcm : (255 <<< (8 - (12 - (8 - idx % 8) - min (12 - (8 - idx % 8)) 8))) &&& 255
        = 0 := by
      have h8 : idx % 8 < 8 := Nat.mod_lt _ (by norm_num)
      set r := idx % 8 with hr
      interval_cases r <;> decide
    simp only [getInt12, lget_append_lt hb0, lget_append_lt hb1, hcm, Nat.and_zero]

theorem getInt6_append (l1 l2 : List Nat) (idx : Nat)
    (h : idx + 6 ≤ 8 * l1.length) :
    getInt6 (l1 ++ l2) idx = getInt6 l1 idx := by
  have hb0 : idx / 8 < l1.length := by omega
  by_cases hb1 : idx / 8 + 1 < l1.length
  · simp only [getInt6, lget_append_lt hb0, lget_append_lt hb1]
  · have hoff : idx % 8 ≤ 2 := by omega
    have hbm : (255 <<< (8 - (6 - (8 - idx % 8)))) &&& 255 = 0 := by
      have h8 : idx % 8 < 8 := Nat.mod_lt _ (by norm_num)
      set r := idx % 8 with hr
      interval_cases r <;> decide
    simp only [getInt6, lget_append_lt hb0, hbm, Nat.and_zero]

theorem FieldsAt_append_frame {l1 : List Nat} (l2 : List Nat) :
    ∀ (fs : List BField) (o : Nat), o + totalWidth fs ≤ 8 * l1.length →
      FieldsAt l1 o fs → FieldsAt (l1 ++ l2) o fs := by
  intro fs
  induction fs with
  | nil => intro o _ _; trivial
  | cons f fs ih =>
    intro o hfit hF
    rw [totalWidth_cons] at hfit
    cases f with
    | f12 v =>
      simp only [fwidth] at hfit
      exact ⟨by rw [getInt12_append l1 l2 o (by omega)]; exact hF.1,
        ih (o + 12) (by omega) hF.2⟩
    | f6 v =>
      simp only [fwidth] at hfit
      exact ⟨by rw [getInt6_append l1 l2 o (by omega)]; exact hF.1,
        ih (o + 6) (by omega) hF.2⟩

theorem readU32BE_append (l1 l2 : List Nat) (h : 4 ≤ l1.length) :
    readU32BE (l1 ++ l2) 0 = readU32BE l1 0 := by
  simp only [readU32BE, lget_append_lt (show 0 < l1.length by omega),
    lget_append_lt (show 0 + 1 < l1.length by omega),
    lget_append_lt (show 0 + 2 < l1.length by omega),
    lget_append_lt (show 0 + 3 < l1.length by omega)]

/-! ### Full codec round trip on a sentinel-terminated sample stream. -/

/-- The delta codec restores exactly the second-stage-quantized samples
(times 16): all loss happens in the two quantization stages, none in the
delta/bit-packing layer. -/
theorem deltaCodec_roundtrip (data : List Int) (tail : List Nat) (hne : data ≠ [])
    (hev : data.length % 2 = 0) (hr : ∀ v ∈ data, -32767 ≤ v ∧ v ≤ 32767)
    (hlen : data.length ≤ 100000000) :
    deltaDecode6 (deltaEncode6 (data ++ [-32768]) ++ tail) =
        .ok (data.map (fun v => v.tdiv 16 * 16) ++ [-32768]) ∧
      (readU32BE (deltaEncode6 (data ++ [-32768]) ++ tail) 0 + 7) / 8 =
        (deltaEncode6 (data ++ [-32768])).length := by
  have hq : (data ++ [-32768]).map (fun v : Int => v.tdiv 16) =
      data.map (fun v : Int => v.tdiv 16) ++ [-2048] := by
    rw [List.map_append]
    simp
    decide
  set qd := data.map (fun v : Int => v.tdiv 16) with hqd
  have hqlen : qd.length = data.length := by rw [hqd, List.length_map]
  have hqne : qd ≠ [] := by
    rw [hqd]
    intro h
    exact hne (by simpa using h)
  have hqev : qd.length % 2 = 0 := by rw [hqlen]; exact hev
  have hqr : ∀ v ∈ qd, -2047 ≤ v ∧ v ≤ 2047 := by
    intro v hv
    rw [hqd, List.mem_map] at hv
    obtain ⟨w, hw, rfl⟩ := hv
    exact tdiv16_bounds w (hr w hw).1 (hr w hw).2
  obtain ⟨ha, hb, -, -, he⟩ := encLoop_spec_aux qd.length qd encInit rfl hqev hqr
    ⟨fun g hg => absurd hg (by simp [encInit]), fun sp hsp => absurd hsp (by simp [encInit]),
      Or.inl rfl⟩
    (fun h => absurd h hqne)
  set st2 := encLoop (qd ++ [-2048]) encInit with hst
  have hpd : polysDec st2.polys = qd ++ [-2048] := by
    simpa [polysDec, pendDec, encInit] using ha
  have hW : totalWidth (polysFields st2.polys) = 6 * st2.byteLen := by
    have h1 : totalWidth (polysFields encInit.polys) = 0 := rfl
    have h2 : pendW encInit = 0 := rfl
    have h3 : encInit.byteLen = 0 := rfl
    rw [h1, h2, h3] at he
    omega
  have hble : st2.byteLen ≤ 5 * (qd.length + 1) := by
    have := encLoop_byteLen_le (qd ++ [-2048]).length (qd ++ [-2048]) encInit rfl
    rw [← hst] at this
    simpa [encInit] using this
  have hqmap : deltaEncode6 (data ++ [-32768]) = storeDeltas6 st2.byteLen st2.polys := by
    simp only [deltaEncode6]
    rw [hq, ← hst]
  set B0 := List.replicate (ceil075 st2.byteLen + 4) 0 with hB0
  have hB0len : B0.length = ceil075 st2.byteLen + 4 := by rw [hB0, List.length_replicate]
  have hB0ok : bytesOK B0 := by
    intro x hx
    rw [hB0] at hx
    have := List.eq_of_mem_replicate hx
    omega
  have hfit : 32 + totalWidth (polysFields st2.polys) ≤ 8 * B0.length := by
    rw [hW, hB0len]
    simp only [ceil075]
    omega
  set wr := writeFs (B0, 32) (polysFields st2.polys) with hwr
  have hstore : storeDeltas6 st2.byteLen st2.polys = setUint32BE wr.1 0 wr.2 := by
    simp only [storeDeltas6]
    rw [foldl_writeGroup_eq, ← hB0, ← hwr]
  have hidx : wr.2 = 32 + totalWidth (polysFields st2.polys) := by
    rw [hwr]
    exact writeFs_idx B0 32 _
  have hwrlen : wr.1.length = B0.length := by
    rw [hwr]
    exact writeFs_length B0 32 _
  have hF1 : FieldsAt wr.1 32 (polysFields st2.polys) := by
    rw [hwr]
    exact FieldsAt_writeFs _ hB0ok 32 (fieldOK_polysFields hb) hfit
  set Bf := setUint32BE wr.1 0 wr.2 with hBf
  have hagree : ∀ j, 4 ≤ j → lget wr.1 j = lget Bf j := by
    intro j hj
    rw [hBf, lget_setUint32BE_ge4 _ _ j hj]
  have hF2 : FieldsAt Bf 32 (polysFields st2.polys) :=
    FieldsAt_congr hagree _ 32 (le_refl 32) hF1
  have hBflen : Bf.length = B0.length := by rw [hBf, setUint32BE_length, hwrlen]
  have h4le : 4 ≤ Bf.length := by rw [hBflen, hB0len]; omega
  have hv32 : wr.2 < 4294967296 := by
    rw [hidx, hW]
    omega
  have hread : readU32BE Bf 0 = wr.2 := by
    rw [hBf]
    exact readU32BE_setUint32BE wr.1 wr.2 (by rw [hwrlen, hB0len]; omega) hv32
  have hfuel : (polysFields st2.polys).length ≤ wr.2 + 1 := by
    have := length_le_totalWidth (polysFields st2.polys)
    omega
  have h4le2 : 4 ≤ (Bf ++ tail).length := by
    rw [List.length_append]
    omega
  have hfit2 : 32 + totalWidth (polysFields st2.polys) ≤ 8 * Bf.length := by
    rw [hBflen]
    exact hfit
  have hF3 : FieldsAt (Bf ++ tail) 32 (polysFields st2.polys) :=
    FieldsAt_append_frame tail _ 32 hfit2 hF2
  have hread2 : readU32BE (Bf ++ tail) 0 = wr.2 := by
    rw [readU32BE_append _ _ h4le, hread]
  constructor
  · rw [hqmap, hstore]
    simp only [deltaDecode6]
    rw [if_pos h4le2, hread2,
      dec_polys st2.polys (Bf ++ tail) wr.2 (wr.2 + 1) 32 [] hb hF3 (by rw [hidx]) hfuel,
      hpd]
    rw [List.nil_append, List.map_append, hqd, List.map_map]
    simp [Function.comp]
  · rw [hqmap, hstore]
    rw [hread2, hBflen, hB0len, hidx, hW]
    simp only [ceil075]
    omega

/-! ## Truncation arithmetic -/

theorem ratTrunc_eq_floor {q : ℚ} (h : 0 ≤ q) : ratTrunc q = ⌊q⌋ := by
  rw [ratTrunc, Rat.floor_def,
    Int.tdiv_eq_ediv (Rat.num_nonneg.mpr h) (by positivity)]

theorem ratTrunc_eq_ceil {q : ℚ} (h : q ≤ 0) : ratTrunc q = ⌈q⌉ := by
  have hneg : ratTrunc q = -ratTrunc (-q) := by
    simp [ratTrunc, Int.neg_tdiv]
  rw [hneg, ratTrunc_eq_floor (by linarith), ← Int.ceil_neg, neg_neg]

theorem ratTrunc_bounds {q : ℚ} {a b : Int} (ha : (a : ℚ) ≤ q) (hb : q ≤ (b : ℚ))
    (ha0 : a ≤ 0) (hb0 : 0 ≤ b) : a ≤ ratTrunc q ∧ ratTrunc q ≤ b := by
  rcases le_or_lt 0 q with hq | hq
  · rw [ratTrunc_eq_floor hq]
    constructor
    · have : (0 : Int) ≤ ⌊q⌋ := Int.floor_nonneg.mpr hq
      omega
    · have := Int.floor_mono hb
      rwa [Int.floor_intCast] at this
  · rw [ratTrunc_eq_ceil (le_of_lt hq)]
    constructor
    · have := Int.ceil_mono ha
      rwa [Int.ceil_intCast] at this
    · have : ⌈q⌉ ≤ 0 := Int.ceil_le.mpr (by exact_mod_cast le_of_lt hq)
      omega

theorem ratTrunc_err (q : ℚ) :
    q - 1 < (ratTrunc q : ℚ) ∧ (ratTrunc q : ℚ) < q + 1 := by
  rcases le_or_lt 0 q with hq | hq
  · rw [ratTrunc_eq_floor hq]
    constructor
    · linarith [Int.sub_one_lt_floor q]
    · linarith [Int.floor_le q]
  · rw [ratTrunc_eq_ceil (le_of_lt hq)]
    constructor
    · linarith [Int.le_ceil q]
    · linarith [Int.ceil_lt_add_one q]

/-- `toInt16` is the identity composed with truncation on values that fit. -/
theorem toInt16_eq {q : ℚ} (h1 : -32768 ≤ ratTrunc q) (h2 : ratTrunc q ≤ 32767) :
    toInt16 q = ratTrunc q := by
  rw [toInt16]
  omega

theorem tdiv16_err (t : Int) : t - 15 ≤ t.tdiv 16 * 16 ∧ t.tdiv 16 * 16 ≤ t + 15 := by
  rcases le_or_lt 0 t with ht | ht
  · rw [Int.tdiv_eq_ediv ht (by norm_num)]
    omega
  · have hneg : t.tdiv 16 = -((-t).tdiv 16) := by
      rw [Int.neg_tdiv]
      omega
    rw [hneg, Int.tdiv_eq_ediv (by omega) (by norm_num)]
    omega

/-- Quantization bound: a degree value in [-180, 180] quantizes into
[-32767, 32767]. -/
theorem quantCoord_bounds {v : ℚ} (h1 : -180 ≤ v) (h2 : v ≤ 180) :
    (-32767 : ℚ) ≤ quantCoord v ∧ quantCoord v ≤ 32767 := by
  rw [quantCoord]
  constructor <;> nlinarith

theorem toInt16_quantCoord {v : ℚ} (h1 : -180 ≤ v) (h2 : v ≤ 180) :
    toInt16 (quantCoord v) = ratTrunc (quantCoord v) ∧
      -32767 ≤ toInt16 (quantCoord v) ∧ toInt16 (quantCoord v) ≤ 32767 := by
  obtain ⟨hq1, hq2⟩ := quantCoord_bounds h1 h2
  obtain ⟨ht1, ht2⟩ := ratTrunc_bounds
    (show (((-32767 : Int) : ℚ)) ≤ quantCoord v by exact_mod_cast hq1)
    (show quantCoord v ≤ (((32767 : Int) : ℚ)) by exact_mod_cast hq2)
    (by norm_num) (by norm_num)
  have he := toInt16_eq (by omega) ht2
  exact ⟨he, by omega, by omega⟩

/-- Round-trip coordinate error is below 2880/32767 < 0.1 degrees. -/
theorem roundtripCoord_err {v : ℚ} (h1 : -180 ≤ v) (h2 : v ≤ 180) :
    |roundtripCoord v - v| < 1 / 10 := by
  obtain ⟨he, ht1, ht2⟩ := toInt16_quantCoord h1 h2
  set q := quantCoord v with hq
  set t := toInt16 q with hts
  set w := t.tdiv 16 * 16 with hw
  have herr1 : q - 1 < (t : ℚ) ∧ (t : ℚ) < q + 1 := by
    rw [he]
    exact ratTrunc_err q
  have herr2 : t - 15 ≤ w ∧ w ≤ t + 15 := tdiv16_err t
  have herr2q : (t : ℚ) - 15 ≤ (w : ℚ) ∧ (w : ℚ) ≤ (t : ℚ) + 15 :=
    ⟨by exact_mod_cast herr2.1, by exact_mod_cast herr2.2⟩
  have hv : v = q * 180 / 32767 := by
    rw [hq, quantCoord]
    ring
  have hwv : wireVal v = w := rfl
  have hdiff : roundtripCoord v - v = ((w : ℚ) - q) * (180 / 32767) := by
    rw [roundtripCoord, hwv, hv]
    ring
  rw [hdiff, abs_mul, abs_of_pos (by norm_num : (0 : ℚ) < 180 / 32767)]
  have habs : |(w : ℚ) - q| < 16 := by
    rw [abs_lt]
    constructor <;> linarith [herr1.1, herr1.2, herr2q.1, herr2q.2]
  calc |(w : ℚ) - q| * (180 / 32767) < 16 * (180 / 32767) := by
        apply mul_lt_mul_of_pos_right habs
        norm_num
    _ < 1 / 10 := by norm_num

/-! ## Byte-chunk read-back -/

theorem lget_append_right (a b : List Nat) (k : Nat) :
    lget (a ++ b) (a.length + k) = lget b k := by
  unfold lget
  rw [List.getD_eq_getElem?_getD, List.getD_eq_getElem?_getD, List.getElem?_append,
    if_neg (by omega)]
  have he : a.length + k - a.length = k := by omega
  rw [he]

theorem u16LE_readback (pre post : List Nat) (n : Nat) (hn : n < 65536) :
    rdU16LE (pre ++ (u16LE n ++ post)) pre.length = .ok n := by
  rw [rdU16LE, if_pos (by simp only [List.length_append, u16LE, List.length_cons]; omega)]
  have h0 := lget_append_right pre (u16LE n ++ post) 0
  have h1 := lget_append_right pre (u16LE n ++ post) 1
  rw [Nat.add_zero] at h0
  rw [h0, h1]
  simp [u16LE, lget, List.getD]
  omega

theorem u32LE_readback (pre post : List Nat) (n : Nat) (hn : n < 4294967296) :
    rdU32LE (pre ++ (u32LE n ++ post)) pre.length = .ok n := by
  rw [rdU32LE, if_pos (by simp only [List.length_append, u32LE, List.length_cons]; omega)]
  have h0 := lget_append_right pre (u32LE n ++ post) 0
  have h1 := lget_append_right pre (u32LE n ++ post) 1
  have h2 := lget_append_right pre (u32LE n ++ post) 2
  have h3 := lget_append_right pre (u32LE n ++ post) 3
  rw [Nat.add_zero] at h0
  rw [h0, h1, h2, h3]
  simp [u32LE, lget, List.getD]
  omega

theorem i32LE_readback (pre post : List Nat) (v : Int) (h1 : -2147483648 ≤ v)
    (h2 : v < 2147483648) :
    rdI32LE (pre ++ (i32LE v ++ post)) pre.length = .ok v := by
  have hread := u32LE_readback pre post ((v % 4294967296).toNat) (by omega)
  rw [rdI32LE, i32LE, hread]
  show (if (v % 4294967296).toNat < 2147483648 then
      (Except.ok (((v % 4294967296).toNat : Nat) : Int) : Except Err Int)
    else .ok ((((v % 4294967296).toNat : Nat) : Int) - 4294967296)) = .ok v
  split_ifs with hc
  · congr 1
    omega
  · congr 1
    omega

theorem u8_readback (pre post : List Nat) (b : Nat) :
    rdU8 (pre ++ (b :: post)) pre.length = .ok b := by
  rw [rdU8, if_pos (by simp only [List.length_append, List.length_cons]; omega)]
  have h0 := lget_append_right pre (b :: post) 0
  rw [Nat.add_zero] at h0
  rw [h0]
  simp [lget]

/-! ## Part-table read-back -/

theorem readParts_spec : ∀ (lens : List Int) (pre post : List Nat),
    (∀ v ∈ lens, 0 ≤ v ∧ v < 4294967296) →
    readParts (pre ++ (lens.flatMap (fun len => u32LE (len % 4294967296).toNat) ++ post))
      pre.length lens.length =
      .ok (lens.map (fun v => v.toNat), pre.length + 4 * lens.length) := by
  intro lens
  induction lens with
  | nil =>
    intro pre post hb
    simp [readParts]
  | cons h t ih =>
    intro pre post hb
    have hh := hb h (by simp)
    have hmod : (h % 4294967296).toNat = h.toNat := by omega
    have hassoc : pre ++ (((h :: t).flatMap (fun len => u32LE (len % 4294967296).toNat)) ++ post) =
        pre ++ (u32LE (h % 4294967296).toNat ++
          (t.flatMap (fun len => u32LE (len % 4294967296).toNat) ++ post)) := by
      simp [List.flatMap_cons]
    rw [hassoc]
    have hread := u32LE_readback pre
      (t.flatMap (fun len => u32LE (len % 4294967296).toNat) ++ post)
      ((h % 4294967296).toNat) (by omega)
    have hpre2 : pre ++ (u32LE (h % 4294967296).toNat ++
        (t.flatMap (fun len => u32LE (len % 4294967296).toNat) ++ post)) =
        (pre ++ u32LE (h % 4294967296).toNat) ++
          (t.flatMap (fun len => u32LE (len % 4294967296).toNat) ++ post) := by
      simp
    have hlen2 : (pre ++ u32LE (h % 4294967296).toNat).length = pre.length + 4 := by
      simp [u32LE]
    have hihs := ih (pre ++ u32LE (h % 4294967296).toNat) post
      (fun v hv => hb v (by simp [hv]))
    rw [hlen2] at hihs
    rw [hpre2] at hread ⊢
    rw [List.length_cons, readParts, hread, hihs]
    show Except.ok ((h % 4294967296).toNat :: t.map (fun v => v.toNat),
      pre.length + 4 + 4 * t.length) = _
    rw [hmod]
    congr 1
    simp
    omega

theorem ok_bind {ε α β : Type} (a : α) (f : α → Except ε β) :
    (Except.ok a : Except ε α) >>= f = f a := rfl

theorem flatU32_len (l : List Int) :
    (l.flatMap (fun len => u32LE (len % 4294967296).toNat)).length = 4 * l.length := by
  induction l with
  | nil => simp
  | cons a t iht =>
    rw [List.flatMap_cons, List.length_append, iht]
    simp only [u32LE, List.length_cons, List.length_nil]
    omega

theorem readTable_spec : ∀ (meta : List (List Int)) (pre post : List Nat),
    (∀ parts ∈ meta, parts.length < 65536 ∧ ∀ v ∈ parts, 0 ≤ v ∧ v < 4294967296) →
    readTable (pre ++ (compressTable meta ++ post)) pre.length meta.length =
      .ok (meta.map (fun parts => parts.map (fun v => v.toNat)),
        pre.length + (compressTable meta).length,
        (meta.map (fun parts => (parts.map (fun v => v.toNat)).sum)).sum) := by
  intro meta
  induction meta with
  | nil =>
    intro pre post hb
    simp [readTable, compressTable]
  | cons p m ih =>
    intro pre post hb
    have hp := hb p (by simp)
    have hplen : p.length % 65536 = p.length := Nat.mod_eq_of_lt hp.1
    have hassoc1 : pre ++ (compressTable (p :: m) ++ post) =
        pre ++ (u16LE p.length ++
          ((p.flatMap (fun len => u32LE (len % 4294967296).toNat)) ++
            (compressTable m ++ post))) := by
      simp [compressTable, List.flatMap_cons, hplen]
    rw [hassoc1]
    have hread1 := u16LE_readback pre
      ((p.flatMap (fun len => u32LE (len % 4294967296).toNat)) ++ (compressTable m ++ post))
      p.length hp.1
    have hassoc2 : pre ++ (u16LE p.length ++
        ((p.flatMap (fun len => u32LE (len % 4294967296).toNat)) ++
          (compressTable m ++ post))) =
        (pre ++ u16LE p.length) ++
          ((p.flatMap (fun len => u32LE (len % 4294967296).toNat)) ++
            (compressTable m ++ post)) := by
      simp
    have hlen1 : (pre ++ u16LE p.length).length = pre.length + 2 := by
      simp [u16LE]
    have hreadp := readParts_spec p (pre ++ u16LE p.length) (compressTable m ++ post) hp.2
    rw [hlen1] at hreadp
    have hassoc3 : (pre ++ u16LE p.length) ++
        ((p.flatMap (fun len => u32LE (len % 4294967296).toNat)) ++
          (compressTable m ++ post)) =
        ((pre ++ u16LE p.length) ++
          (p.flatMap (fun len => u32LE (len % 4294967296).toNat))) ++
          (compressTable m ++ post) := by
      simp
    have hlen2 : ((pre ++ u16LE p.length) ++
        (p.flatMap (fun len => u32LE (len % 4294967296).toNat))).length =
        pre.length + 2 + 4 * p.length := by
      simp only [List.length_append, flatU32_len, u16LE, List.length_cons, List.length_nil]
    have hih := ih ((pre ++ u16LE p.length) ++
      (p.flatMap (fun len => u32LE (len % 4294967296).toNat))) post
      (fun q hq => hb q (by simp [hq]))
    rw [hlen2] at hih
    rw [hassoc2] at hread1
    rw [hassoc2, List.length_cons, readTable, hread1, ok_bind]
    rw [hassoc3] at hreadp ⊢
    rw [hreadp, ok_bind]
    show (do
      let (rest, off3, tp) ← readTable
        ((pre ++ u16LE p.length ++ p.flatMap fun len => u32LE (len % 4294967296).toNat) ++
          (compressTable m ++ post))
        (pre.length + 2 + 4 * p.length) m.length
      Except.ok ((p.map (fun v : Int => v.toNat)) :: rest, off3,
        (p.map (fun v : Int => v.toNat)).sum + tp)) = _
    rw [hih, ok_bind]
    have hctlen : (compressTable (p :: m)).length = 2 + 4 * p.length + (compressTable m).length := by
      rw [show compressTable (p :: m) =
        (u16LE (p.length % 65536) ++ p.flatMap fun len => u32LE (len % 4294967296).toNat) ++
          compressTable m from by simp [compressTable, List.flatMap_cons]]
      simp only [List.length_append, flatU32_len, u16LE, List.length_cons, List.length_nil]
    show Except.ok ((p.map (fun v => v.toNat)) ::
        m.map (fun parts => parts.map (fun v => v.toNat)),
      pre.length + 2 + 4 * p.length + (compressTable m).length,
      (p.map (fun v => v.toNat)).sum +
        (m.map (fun parts => (parts.map (fun v => v.toNat)).sum)).sum) = _
    simp only [List.map_cons, List.sum_cons]
    congr 2
    rw [hctlen]
    congr 1
    omega

theorem consumePoints_spec : ∀ (k : Nat) (fp : List Int) (pi : Nat),
    pi + 2 * k ≤ fp.length →
    consumePoints fp pi k = .ok (((fp.drop pi).take (2 * k)).map cnv, 2 * k) := by
  intro k
  induction k with
  | zero =>
    intro fp pi h
    simp [consumePoints]
  | succ k ih =>
    intro fp pi h
    have hlt : ¬(pi + 1 ≥ fp.length) := by omega
    rw [consumePoints, if_neg hlt, ih fp (pi + 2) (by omega), ok_bind]
    have hp0 : pi < fp.length := by omega
    have hp1 : pi + 1 < fp.length := by omega
    have hdrop : fp.drop pi = fp.getD pi 0 :: fp.getD (pi + 1) 0 :: fp.drop (pi + 2) := by
      rw [List.drop_eq_getElem_cons hp0, List.drop_eq_getElem_cons hp1,
        List.getD_eq_getElem fp 0 hp0, List.getD_eq_getElem fp 0 hp1]
    rw [hdrop]
    have h2 : 2 * (k + 1) = 2 * k + 1 + 1 := by ring
    rw [h2, List.take_succ_cons, List.take_succ_cons, List.map_cons, List.map_cons]
    show Except.ok (cnv (fp.getD pi 0) :: cnv (fp.getD (pi + 1) 0) ::
      ((fp.drop (pi + 2)).take (2 * k)).map cnv, 2 * k + 2) = _
    congr 2

theorem consumeParts_spec : ∀ (lens : List Nat) (fp : List Int) (pi : Nat),
    pi + 2 * lens.sum ≤ fp.length →
    consumeParts fp lens pi =
      .ok (((fp.drop pi).take (2 * lens.sum)).map cnv, 2 * lens.sum) := by
  intro lens
  induction lens with
  | nil =>
    intro fp pi h
    simp [consumeParts]
  | cons len rest ih =>
    intro fp pi h
    have hsum : (len :: rest).sum = len + rest.sum := by simp
    rw [consumeParts, consumePoints_spec len fp pi (by rw [hsum] at h; omega), ok_bind]
    dsimp only
    rw [ih fp (pi + 2 * len) (by rw [hsum] at h; omega), ok_bind]
    dsimp only
    show Except.ok (((fp.drop pi).take (2 * len)).map cnv ++
      ((fp.drop (pi + 2 * len)).take (2 * rest.sum)).map cnv,
      2 * len + 2 * rest.sum) = _
    have htk : (fp.drop pi).take (2 * (len :: rest).sum) =
        (fp.drop pi).take (2 * len) ++ ((fp.drop (pi + 2 * len)).take (2 * rest.sum)) := by
      rw [hsum, show 2 * (len + rest.sum) = 2 * len + 2 * rest.sum from by ring,
        List.take_add]
      congr 2
      rw [List.drop_drop]
    rw [htk, List.map_append]
    congr 2
    rw [hsum]
    ring

theorem reconstruct_spec : ∀ (metaN : List (List Nat)) (st : Int) (fp : List Int)
    (zs ms : Option (List ℚ)) (i pi gi : Nat) (box : BBox8) (trb : Nat),
    pi + 2 * (metaN.map List.sum).sum ≤ fp.length →
    ∃ box2 trb2, reconstruct st fp zs ms i pi gi metaN box trb =
      .ok (reconRecords st fp zs ms i pi gi metaN, box2, trb2) := by
  intro metaN
  induction metaN with
  | nil =>
    intro st fp zs ms i pi gi box trb h
    exact ⟨box, trb, rfl⟩
  | cons lens rest ih =>
    intro st fp zs ms i pi gi box trb h
    simp only [List.map_cons, List.sum_cons] at h
    by_cases hemp : lens.isEmpty
    · obtain ⟨b2, t2, hrec⟩ := ih st fp zs ms (i + 1) pi gi box (trb + 12) (by omega)
      refine ⟨b2, t2, ?_⟩
      rw [reconstruct, if_pos hemp, hrec, ok_bind, reconRecords, if_pos hemp]
    · obtain ⟨b2, t2, hrec⟩ := ih st fp zs ms (i + 1) (pi + 2 * lens.sum) (gi + lens.sum)
        _ _ (by omega)
      refine ⟨b2, t2, ?_⟩
      rw [reconstruct, if_neg hemp, consumeParts_spec lens fp pi (by omega), ok_bind]
      dsimp only
      rw [hrec, ok_bind]
      dsimp only
      rw [reconRecords, if_neg hemp]
      rfl

/-! ## Length bookkeeping -/

theorem flatF32_len (l : List ℚ) : (l.flatMap f32enc).length = 4 * l.length := by
  induction l with
  | nil => simp
  | cons a t ih =>
    rw [List.flatMap_cons, List.length_append, ih]
    simp [f32enc]
    omega

theorem len_flatMap_pair {α β : Type} (l : List α) (f g : α → β) :
    (l.flatMap (fun j => [f j, g j])).length = 2 * l.length := by
  induction l with
  | nil => simp
  | cons a t ih =>
    rw [List.flatMap_cons, List.length_append, ih]
    simp
    omega

theorem partRange_length (start fin : Int) :
    (partRange start fin).length = (fin - start).toNat := by
  rw [partRange, List.length_map, List.length_range]

theorem mem_partRange {start fin j : Int} (h : j ∈ partRange start fin) :
    start ≤ j ∧ j < fin := by
  rw [partRange, List.mem_map] at h
  obtain ⟨t, ht, rfl⟩ := h
  rw [List.mem_range] at ht
  omega

theorem recordCoords_length (c : PolyContent) :
    (recordCoords c).length =
      2 * ((recordPartLens c).map (fun v => v.toNat)).sum := by
  rw [recordCoords, recordPartLens]
  induction (List.range c.parts.length) with
  | nil => simp
  | cons k ks ih =>
    rw [List.flatMap_cons, List.length_append, ih, List.map_cons, List.map_cons,
      List.sum_cons, len_flatMap_pair, partRange_length]
    ring

theorem recordVals_length (vals : List ℚ) (c : PolyContent) :
    2 * (recordVals vals c).length = (recordCoords c).length := by
  rw [recordCoords, recordVals]
  induction (List.range c.parts.length) with
  | nil => simp
  | cons k ks ih =>
    rw [List.flatMap_cons, List.flatMap_cons, List.length_append, List.length_append,
      len_flatMap_pair, List.length_map]
    omega

theorem recordCoords_even (c : PolyContent) : (recordCoords c).length % 2 = 0 := by
  rw [recordCoords_length]
  omega

theorem modelCoords_even (rs : List ShapeRecord) : (modelCoords rs).length % 2 = 0 := by
  rw [modelCoords]
  induction rs with
  | nil => simp
  | cons r t ih =>
    rw [List.flatMap_cons, List.length_append]
    have : (recCoords r).length % 2 = 0 := by
      rw [recCoords]
      match hc : r.shape.content with
      | some (.poly c) => exact recordCoords_even c
      | some (.pt c) => simp
      | none => simp
    omega

/-- Every coordinate compress visits on a well-formed record is one of the
record's points, hence in range. -/
theorem recordCoords_mem {c : PolyContent} (hwf : contentWF c) :
    ∀ v ∈ recordCoords c, -180 ≤ v ∧ v ≤ 180 := by
  obtain ⟨hev, hlen, hpos, hmono, hbnd, hrange⟩ := hwf
  intro v hv
  rw [recordCoords, List.mem_flatMap] at hv
  obtain ⟨k, hk, hv⟩ := hv
  rw [List.mem_range] at hk
  rw [List.mem_flatMap] at hv
  obtain ⟨j, hj, hv⟩ := hv
  obtain ⟨hjlo2, hjhi⟩ := mem_partRange hj
  have hstart := hpos k hk
  have hjlo : 0 ≤ j := by omega
  have hendN : partEnd c k ≤ ((c.points.length / 2 : Nat) : Int) := by
    rw [partEnd]
    by_cases hk1 : k + 1 < c.parts.length
    · rw [List.getD_eq_getElem c.parts _ hk1]
      have := hbnd (k + 1) hk1
      rwa [List.getD_eq_getElem c.parts 0 hk1] at this
    · rw [List.getD_eq_default _ _ (by omega)]
  have h2j : (0 : Int) ≤ 2 * j ∧ 2 * j + 1 < (c.points.length : Int) := by
    constructor
    · omega
    · omega
  simp only [List.mem_cons, List.mem_singleton] at hv
  rcases hv with rfl | rfl | hv
  · rw [pget, if_pos (by constructor <;> omega)]
    have hins : (2 * j).toNat < c.points.length := by omega
    rw [List.getD_eq_getElem c.points 0 hins]
    exact hrange _ (List.getElem_mem hins)
  · rw [pget, if_pos (by constructor <;> omega)]
    have hins : (2 * j + 1).toNat < c.points.length := by omega
    rw [List.getD_eq_getElem c.points 0 hins]
    exact hrange _ (List.getElem_mem hins)
  · simp at hv

theorem modelCoords_mem {rs : List ShapeRecord}
    (h : ∀ r ∈ rs, isPolyType r.shape.type = true ∧
      ∃ c, r.shape.content = some (.poly c) ∧ contentWF c) :
    ∀ v ∈ modelCoords rs, -180 ≤ v ∧ v ≤ 180 := by
  intro v hv
  rw [modelCoords, List.mem_flatMap] at hv
  obtain ⟨r, hr, hv⟩ := hv
  obtain ⟨-, c, hc, hcwf⟩ := h r hr
  rw [recCoords, hc] at hv
  exact recordCoords_mem hcwf v hv

/-! ## compress characterisation -/

theorem compressScan_spec (isZ isM : Bool) : ∀ (rs : List ShapeRecord),
    (∀ r ∈ rs, isPolyType r.shape.type = true ∧
      ∃ c, r.shape.content = some (.poly c)) →
    ∃ zs ms, compressScan isZ isM rs = .ok (modelCoords rs, zs, ms, modelLens rs) ∧
      2 * zs.length ≤ (modelCoords rs).length ∧
      2 * ms.length ≤ (modelCoords rs).length := by
  intro rs
  induction rs with
  | nil =>
    intro h
    exact ⟨[], [], rfl, by simp, by simp⟩
  | cons r t ih =>
    intro h
    obtain ⟨hpt, c, hc⟩ := h r (by simp)
    obtain ⟨zs, ms, hscan, hzl, hml⟩ := ih (fun r2 hr2 => h r2 (by simp [hr2]))
    have hrec : compressRecord isZ isM r =
        .ok (recordCoords c,
          (if isZ then match c.z with | some zl => recordVals zl c | none => [] else []),
          (if isM then match c.m with | some ml => recordVals ml c | none => [] else []),
          recordPartLens c) := by
      rw [compressRecord, if_pos hpt, hc]
      try rfl
    rw [compressScan, hrec, ok_bind]
    dsimp only
    rw [hscan, ok_bind]
    dsimp only
    have hrc : recCoords r = recordCoords c := by
      unfold recCoords
      rw [hc]
    have hprof : recProfile r = recordPartLens c := by
      unfold recProfile
      rw [hc]
    refine ⟨(if isZ then match c.z with | some zl => recordVals zl c | none => [] else []) ++ zs,
      (if isM then match c.m with | some ml => recordVals ml c | none => [] else []) ++ ms,
      ?_, ?_, ?_⟩
    · show Except.ok _ = _
      congr 2
      · rw [show modelCoords (r :: t) = recCoords r ++ modelCoords t from rfl, hrc]
      · congr 1
        rw [show modelLens (r :: t) = recProfile r :: modelLens t from rfl, hprof]
    · rw [show modelCoords (r :: t) = recCoords r ++ modelCoords t from rfl, hrc,
        List.length_append, List.length_append]
      have hrv : 2 * (if isZ then match c.z with
          | some zl => recordVals zl c | none => [] else []).length ≤
          (recordCoords c).length := by
        split_ifs
        · match c.z with
          | some zl => rw [recordVals_length]
          | none => simp
        · simp
      omega
    · rw [show modelCoords (r :: t) = recCoords r ++ modelCoords t from rfl, hrc,
        List.length_append, List.length_append]
      have hrv : 2 * (if isM then match c.m with
          | some ml => recordVals ml c | none => [] else []).length ≤
          (recordCoords c).length := by
        split_ifs
        · match c.m with
          | some ml => rw [recordVals_length]
          | none => simp
        · simp
      omega

/-! ## Properties of the reconstructed record list -/

theorem wrap32_id {n : Nat} (h : n ≤ 2147483647) : wrap32 n = n := by
  rw [wrap32]
  omega

theorem partStarts_length (lens : List Nat) : (partStarts lens).length = lens.length := by
  simp [partStarts]

theorem partStarts_getElem (lens : List Nat) (k : Nat)
    (h : k < (partStarts lens).length) :
    (partStarts lens)[k] = (lens.take k).sum := by
  simp [partStarts]

theorem sum_take_le (lens : List Nat) (k : Nat) : (lens.take k).sum ≤ lens.sum := by
  conv_rhs => rw [← List.take_append_drop k lens]
  rw [List.sum_append]
  omega

/-- `recordPartLens` of a reconstructed content recovers the table part
lengths. -/
theorem recordPartLens_reconstruct (lens : List Nat) (C : PolyContent)
    (hsum : lens.sum ≤ 2147483647)
    (hparts : C.parts = (partStarts lens).map wrap32)
    (hpts : C.points.length = 2 * lens.sum) :
    recordPartLens C = lens.map (fun (n : Nat) => (n : Int)) := by
  have hplen : C.parts.length = lens.length := by
    rw [hparts, List.length_map, partStarts_length]
  have hN : C.points.length / 2 = lens.sum := by omega
  have hgd : ∀ k < lens.length, C.parts.getD k 0 = ((lens.take k).sum : Int) := by
    intro k hk
    rw [hparts, List.getD_eq_getElem _ 0 (by rw [List.length_map, partStarts_length]; omega),
      List.getElem_map,
      partStarts_getElem lens k (by rw [partStarts_length]; exact hk),
      wrap32_id (le_trans (sum_take_le lens k) hsum)]
  have hend : ∀ k < lens.length, partEnd C k = ((lens.take (k + 1)).sum : Int) := by
    intro k hk
    rw [partEnd, hN]
    by_cases hk1 : k + 1 < lens.length
    · rw [hparts, List.getD_eq_getElem _ _ (by rw [List.length_map, partStarts_length]; omega),
        List.getElem_map,
        partStarts_getElem lens (k + 1) (by rw [partStarts_length]; exact hk1),
        wrap32_id (le_trans (sum_take_le lens (k + 1)) hsum)]
    · rw [List.getD_eq_default _ _ (by omega), List.take_of_length_le (by omega)]
  rw [recordPartLens, hplen]
  apply List.ext_getElem
  · simp
  · intro k h1 h2
    rw [List.getElem_map, List.getElem_range, List.getElem_map]
    simp only [List.length_map, List.length_range] at h1
    rw [hend k h1, hgd k h1]
    have := List.sum_take_succ lens k h1
    omega

theorem reconRecords_length (st : Int) (fp : List Int) (zs ms : Option (List ℚ)) :
    ∀ (metaN : List (List Nat)) (i pi gi : Nat),
    (reconRecords st fp zs ms i pi gi metaN).length = metaN.length := by
  intro metaN
  induction metaN with
  | nil => intro i pi gi; rfl
  | cons lens rest ih =>
    intro i pi gi
    by_cases hemp : lens.isEmpty
    · rw [reconRecords, if_pos hemp, List.length_cons, ih, List.length_cons]
    · rw [reconRecords, if_neg hemp, List.length_cons, ih, List.length_cons]

theorem reconRecord_profile (st : Int) (fp : List Int) (zs ms : Option (List ℚ))
    (i pi gi : Nat) (lens : List Nat)
    (hsum : lens.sum ≤ 2147483647) (hfp : pi + 2 * lens.sum ≤ fp.length) :
    recProfile (reconRecord st fp zs ms i pi gi lens) = lens.map (fun (n : Nat) => (n : Int)) := by
  have hptlen : (((fp.drop pi).take (2 * lens.sum)).map cnv).length = 2 * lens.sum := by
    rw [List.length_map, List.length_take, List.length_drop]
    omega
  exact recordPartLens_reconstruct lens _ hsum rfl hptlen

theorem reconRecords_profiles (st : Int) (fp : List Int) (zs ms : Option (List ℚ)) :
    ∀ (metaN : List (List Nat)) (i pi gi : Nat),
    pi + 2 * (metaN.map List.sum).sum ≤ fp.length →
    (∀ lens ∈ metaN, lens.sum ≤ 2147483647) →
    (reconRecords st fp zs ms i pi gi metaN).map recProfile =
      metaN.map (fun lens => lens.map (fun (n : Nat) => (n : Int))) := by
  intro metaN
  induction metaN with
  | nil => intro i pi gi h hs; rfl
  | cons lens rest ih =>
    intro i pi gi h hs
    simp only [List.map_cons, List.sum_cons] at h
    by_cases hemp : lens.isEmpty
    · have hnil : lens = [] := List.isEmpty_iff.mp hemp
      rw [reconRecords, if_pos hemp, List.map_cons, List.map_cons,
        ih (i + 1) pi gi (by omega) (fun l2 hl2 => hs l2 (by simp [hl2])), hnil]
      rfl
    · rw [reconRecords, if_neg hemp, List.map_cons, List.map_cons,
        reconRecord_profile st fp zs ms i pi gi lens (hs lens (by simp)) (by omega),
        ih (i + 1) (pi + 2 * lens.sum) (gi + lens.sum) (by omega)
          (fun l2 hl2 => hs l2 (by simp [hl2]))]

theorem reconRecords_numbers (st : Int) (fp : List Int) (zs ms : Option (List ℚ)) :
    ∀ (metaN : List (List Nat)) (i pi gi : Nat),
    (reconRecords st fp zs ms i pi gi metaN).map ShapeRecord.number =
      (List.range metaN.length).map (fun (j : Nat) => ((i + j : Nat) : Int) + 1) := by
  intro metaN
  induction metaN with
  | nil => intro i pi gi; rfl
  | cons lens rest ih =>
    intro i pi gi
    have hshift : (List.range rest.length).map
          ((fun (j : Nat) => ((i + j : Nat) : Int) + 1) ∘ Nat.succ) =
        (List.range rest.length).map (fun (j : Nat) => (((i + 1) + j : Nat) : Int) + 1) := by
      apply List.map_congr_left
      intro a ha
      show ((i + (a + 1) : Nat) : Int) + 1 = (((i + 1) + a : Nat) : Int) + 1
      congr 2
      omega
    have hrng : (List.range (lens :: rest).length).map
          (fun (j : Nat) => ((i + j : Nat) : Int) + 1) =
        ((i : Int) + 1) ::
          (List.range rest.length).map (fun (j : Nat) => (((i + 1) + j : Nat) : Int) + 1) := by
      rw [List.length_cons, List.range_succ_eq_map, List.map_cons, List.map_map, hshift]
      congr 1
    by_cases hemp : lens.isEmpty
    · rw [reconRecords, if_pos hemp, List.map_cons, ih (i + 1) pi gi, hrng]
    · rw [reconRecords, if_neg hemp, List.map_cons,
        ih (i + 1) (pi + 2 * lens.sum) (gi + lens.sum), hrng]
      rfl

theorem reconRecords_points (st : Int) (fp : List Int) (zs ms : Option (List ℚ)) :
    ∀ (metaN : List (List Nat)) (i pi gi : Nat),
    pi + 2 * (metaN.map List.sum).sum ≤ fp.length →
    (reconRecords st fp zs ms i pi gi metaN).flatMap recPoints =
      ((fp.drop pi).take (2 * (metaN.map List.sum).sum)).map cnv := by
  intro metaN
  induction metaN with
  | nil => intro i pi gi h; rfl
  | cons lens rest ih =>
    intro i pi gi h
    simp only [List.map_cons, List.sum_cons] at h ⊢
    by_cases hemp : lens.isEmpty
    · have hnil : lens = [] := List.isEmpty_iff.mp hemp
      rw [reconRecords, if_pos hemp, List.flatMap_cons,
        ih (i + 1) pi gi (by omega)]
      rw [hnil]
      show [] ++ _ = _
      rw [List.nil_append]
      simp
    · rw [reconRecords, if_neg hemp, List.flatMap_cons,
        ih (i + 1) (pi + 2 * lens.sum) (gi + lens.sum) (by omega)]
      have hrp : recPoints (reconRecord st fp zs ms i pi gi lens) =
          ((fp.drop pi).take (2 * lens.sum)).map cnv := rfl
      rw [hrp]
      have htk : (fp.drop pi).take (2 * (lens.sum + (rest.map List.sum).sum)) =
          (fp.drop pi).take (2 * lens.sum) ++
            ((fp.drop (pi + 2 * lens.sum)).take (2 * (rest.map List.sum).sum)) := by
        rw [show 2 * (lens.sum + (rest.map List.sum).sum) =
          2 * lens.sum + 2 * (rest.map List.sum).sum from by ring, List.take_add]
        congr 2
        rw [List.drop_drop]
      rw [htk, List.map_append]

theorem reconRecord_length (st : Int) (fp : List Int) (zs ms : Option (List ℚ))
    (i pi gi : Nat) (lens : List Nat) :
    (reconRecord st fp zs ms i pi gi lens).length =
      contentWords (reconRecord st fp zs ms i pi gi lens) := by
  rcases zs with - | zl <;> rcases ms with - | ml <;>
    simp [reconRecord, contentWords, partStarts_length]

theorem reconRecords_lengths (st : Int) (fp : List Int) (zs ms : Option (List ℚ)) :
    ∀ (metaN : List (List Nat)) (i pi gi : Nat),
    ∀ r ∈ reconRecords st fp zs ms i pi gi metaN, r.length = contentWords r := by
  intro metaN
  induction metaN with
  | nil => intro i pi gi r hr; simp [reconRecords] at hr
  | cons lens rest ih =>
    intro i pi gi r hr
    by_cases hemp : lens.isEmpty
    · rw [reconRecords, if_pos hemp] at hr
      rcases List.mem_cons.mp hr with rfl | hr2
      · rfl
      · exact ih (i + 1) pi gi r hr2
    · rw [reconRecords, if_neg hemp] at hr
      rcases List.mem_cons.mp hr with rfl | hr2
      · exact reconRecord_length st fp zs ms i pi gi lens
      · exact ih (i + 1) (pi + 2 * lens.sum) (gi + lens.sum) r hr2

/-! ## Small bookkeeping lemmas for the round-trip assembly -/

theorem mem_le_sum {l : List Nat} {x : Nat} (h : x ∈ l) : x ≤ l.sum := by
  induction l with
  | nil => simp at h
  | cons a t ih =>
    rcases List.mem_cons.mp h with rfl | h2
    · simp
    · have := ih h2
      simp
      omega

theorem recordPartLens_nonneg {c : PolyContent} (hwf : contentWF c) :
    ∀ v ∈ recordPartLens c, 0 ≤ v := by
  obtain ⟨hev, hlen, hpos, hmono, hbnd, hrange⟩ := hwf
  intro v hv
  rw [recordPartLens, List.mem_map] at hv
  obtain ⟨k, hk, rfl⟩ := hv
  rw [List.mem_range] at hk
  rw [partEnd]
  by_cases hk1 : k + 1 < c.parts.length
  · have := hmono k hk1
    rw [List.getD_eq_getElem _ _ hk1, ← List.getD_eq_getElem c.parts 0 hk1]
    omega
  · rw [List.getD_eq_default _ _ (by omega)]
    have := hbnd k hk
    omega

theorem modelCoords_length (rs : List ShapeRecord) :
    (modelCoords rs).length =
      2 * ((modelLens rs).map (fun parts => (parts.map (fun v => v.toNat)).sum)).sum := by
  induction rs with
  | nil => rfl
  | cons r t ih =>
    rw [show modelCoords (r :: t) = recCoords r ++ modelCoords t from rfl,
      show modelLens (r :: t) = recProfile r :: modelLens t from rfl,
      List.length_append, List.map_cons, List.sum_cons, ih]
    have : (recCoords r).length = 2 * ((recProfile r).map (fun v => v.toNat)).sum := by
      rw [recCoords, recProfile]
      match r.shape.content with
      | some (.poly c) => exact recordCoords_length c
      | some (.pt c) => rfl
      | none => rfl
    omega

theorem profile_toNat_round {l : List Int} (h : ∀ v ∈ l, 0 ≤ v) :
    (l.map (fun v => v.toNat)).map (fun (n : Nat) => (n : Int)) = l := by
  rw [List.map_map]
  conv_rhs => rw [← List.map_id l]
  apply List.map_congr_left
  intro a ha
  have := h a ha
  show ((a.toNat : Nat) : Int) = a
  omega

theorem rdU8_cons0 (b : Nat) (post : List Nat) : rdU8 (b :: post) 0 = .ok b := by
  rw [rdU8, if_pos (by simp)]
  rfl

theorem rdU8_cons1 (a b : Nat) (post : List Nat) : rdU8 (a :: b :: post) 1 = .ok b := by
  rw [rdU8, if_pos (by simp)]
  rfl

theorem f32slice_ok (bytes : List Nat) (n : Nat) (h4 : bytes.length % 4 = 0) :
    f32slice bytes n = .ok (List.replicate (min (4 * n) bytes.length / 4) 0) := by
  rw [f32slice]
  have : min (4 * n) bytes.length % 4 = 0 := by omega
  rw [if_pos this]

theorem optSlice (P : Prop) [Decidable P] (bytes : List Nat) (n : Nat) (L : List ℚ)
    (h : f32slice bytes n = .ok L) :
    (if P then do
        let l ← f32slice bytes n
        pure (some l)
      else pure none : Except Err (Option (List ℚ))) = .ok (if P then some L else none) := by
  split_ifs with hp
  · rw [h]
    rfl
  · rfl

/-- The compressed stream is the quantized coordinates followed by the
single terminator. -/
theorem compressStream_eq (coords : List ℚ) :
    compressStream coords =
      coords.map (fun v => toInt16 (quantCoord v)) ++ [(-32768 : Int)] := by
  rw [compressStream, List.map_append, List.map_map]
  congr 1

/-- compress on a model whose records all carry poly content. -/
theorem compress_spec (M : ShapefileData)
    (h : ∀ r ∈ M.records, isPolyType r.shape.type = true ∧
      ∃ c, r.shape.content = some (.poly c)) :
    ∃ (zs ms : List ℚ),
      compress M = .ok (compressHeader
          (effShapeType M == ShapeType.POLYGONZ || effShapeType M == ShapeType.POLYLINEZ)
          ((effShapeType M == ShapeType.POLYGONZ || effShapeType M == ShapeType.POLYLINEZ) ||
            effShapeType M == ShapeType.POLYGONM || effShapeType M == ShapeType.POLYLINEM)
          (effShapeType M) (modelLens M.records).length M.fileCode M.version ++
        compressTable (modelLens M.records) ++
        deltaEncode6 (compressStream (modelCoords M.records)) ++
        (if (effShapeType M == ShapeType.POLYGONZ ||
            effShapeType M == ShapeType.POLYLINEZ) then zs.flatMap f32enc else []) ++
        (if ((effShapeType M == ShapeType.POLYGONZ ||
              effShapeType M == ShapeType.POLYLINEZ) ||
            effShapeType M == ShapeType.POLYGONM ||
            effShapeType M == ShapeType.POLYLINEM) then ms.flatMap f32enc else [])) ∧
      2 * zs.length ≤ (modelCoords M.records).length ∧
      2 * ms.length ≤ (modelCoords M.records).length := by
  obtain ⟨zs, ms, hscan, hzl, hml⟩ := compressScan_spec
    (effShapeType M == ShapeType.POLYGONZ || effShapeType M == ShapeType.POLYLINEZ)
    ((effShapeType M == ShapeType.POLYGONZ || effShapeType M == ShapeType.POLYLINEZ) ||
      effShapeType M == ShapeType.POLYGONM || effShapeType M == ShapeType.POLYLINEM)
    M.records h
  refine ⟨zs, ms, ?_, hzl, hml⟩
  rw [compress]
  rw [hscan, ok_bind]

/-- Reduction of the version-2 optional float-slice step as it appears in
`decompress` after do-elaboration: the continuation is pushed into both
branches of the `if`. -/
theorem sliceBind {β : Type} (P : Prop) [Decidable P] (m : Except Err (List ℚ))
    (L : List ℚ) (hm : m = .ok L) (K : Option (List ℚ) → Except Err β) :
    (if P then m >>= fun l => (pure (some l) : Except Err (Option (List ℚ))) >>= K
      else (pure none : Except Err (Option (List ℚ))) >>= K) =
      K (if P then some L else none) := by
  split_ifs
  · rw [hm]
    rfl
  · rfl

/-- Central round-trip characterisation: on a well-formed model,
compress succeeds, decompress succeeds on its output, the shape type is
preserved, and the records are the reconstruction-loop output over the
round-tripped point stream and the model's own part table. -/
theorem roundtrip_core (M : ShapefileData) (hwf : modelWF M) :
    ∃ (buf : List Nat) (M2 : ShapefileData) (fp : List Int) (zs2 ms2 : Option (List ℚ)),
      compress M = .ok buf ∧
      decompress buf = .ok M2 ∧
      M2.shapeType = M.shapeType ∧
      M2.records = reconRecords M.shapeType fp zs2 ms2 0 0 0
        ((modelLens M.records).map (fun parts => parts.map (fun v => v.toNat))) ∧
      2 * (((modelLens M.records).map (fun parts =>
        (parts.map (fun v => v.toNat)).sum)).sum) ≤ fp.length ∧
      fp.take (2 * (((modelLens M.records).map (fun parts =>
        (parts.map (fun v => v.toNat)).sum)).sum)) = (modelCoords M.records).map wireVal := by
  obtain ⟨hst, hrecs, hrc32, hclen, hfc1, hfc2, hsv1, hsv2⟩ := hwf
  have heff : effShapeType M = M.shapeType := by
    have hne : (M.shapeType == 0) = false := by
      rw [beq_eq_false_iff_ne]
      omega
    simp [effShapeType, hne]
  obtain ⟨zsl, msl, hcomp, hzl, hml⟩ := compress_spec M
    (fun r hr => ⟨(hrecs r hr).1, (hrecs r hr).2.choose, (hrecs r hr).2.choose_spec.1⟩)
  rw [heff] at hcomp
  set vZ : Bool := (M.shapeType == ShapeType.POLYGONZ || M.shapeType == ShapeType.POLYLINEZ)
    with hvZ
  set vM : Bool := (vZ || M.shapeType == ShapeType.POLYGONM ||
    M.shapeType == ShapeType.POLYLINEM) with hvM
  -- header bytes
  have hb1eq : (((M.shapeType % 256).toNat : Nat) : Int) = M.shapeType := by omega
  have hb1v : ∀ n : Nat, ((M.shapeType % 256).toNat = n) ↔ M.shapeType = (n : Int) := by
    intro n
    omega
  -- version byte dichotomy
  have hver : ¬((if vZ || vM then 2 else 1 : Nat) ≠ 1 ∧
      (if vZ || vM then 2 else 1 : Nat) ≠ 2) := by
    split_ifs <;> simp
  -- record count and sizes
  have hmlen : (modelLens M.records).length = M.records.length := by
    rw [modelLens, List.length_map]
  have hrcsz : (modelLens M.records).length < 4294967296 := by omega
  have htp2 : (modelCoords M.records).length =
      2 * ((modelLens M.records).map (fun parts =>
        (parts.map (fun v => v.toNat)).sum)).sum := modelCoords_length M.records
  -- table entry conditions
  have htblcond : ∀ parts ∈ modelLens M.records, parts.length < 65536 ∧
      ∀ v ∈ parts, 0 ≤ v ∧ v < 4294967296 := by
    intro parts hparts
    rw [modelLens, List.mem_map] at hparts
    obtain ⟨r, hr, rfl⟩ := hparts
    obtain ⟨-, c, hc, hcwf⟩ := hrecs r hr
    have hpr : recProfile r = recordPartLens c := by
      unfold recProfile
      rw [hc]
    rw [hpr]
    refine ⟨by rw [recordPartLens, List.length_map, List.length_range]; exact hcwf.2.1, ?_⟩
    intro v hv
    have hnn := recordPartLens_nonneg hcwf v hv
    refine ⟨hnn, ?_⟩
    -- v ≤ the record's sum ≤ the total point count ≤ 5e7
    have hmem : v.toNat ∈ (recordPartLens c).map (fun w => w.toNat) :=
      List.mem_map.mpr ⟨v, hv, rfl⟩
    have hle := mem_le_sum hmem
    have hrecsum : ((recordPartLens c).map (fun w => w.toNat)).sum ∈
        (modelLens M.records).map (fun parts => (parts.map (fun w => w.toNat)).sum) := by
      rw [modelLens]
      rw [List.map_map]
      apply List.mem_map.mpr
      refine ⟨r, hr, ?_⟩
      show ((recProfile r).map (fun w => w.toNat)).sum = _
      rw [hpr]
    have hle2 := mem_le_sum hrecsum
    omega
  -- z/m byte chunks are 4-aligned
  have hzb4 : (if vZ = true then zsl.flatMap f32enc else []).length % 4 = 0 := by
    split_ifs
    · rw [flatF32_len]
      omega
    · simp
  have hmb4 : (if vM = true then msl.flatMap f32enc else []).length % 4 = 0 := by
    split_ifs
    · rw [flatF32_len]
      omega
    · simp
  -- abbreviations for the buffer pieces
  set b1 := (M.shapeType % 256).toNat with hb1d
  set v0 := (if vZ || vM then 2 else 1 : Nat) with hv0d
  set fc2 := (if M.fileCode == 0 then 9994 else M.fileCode : Int) with hfc2d
  set sv2 := (if M.version == 0 then 1000 else M.version : Int) with hsv2d
  set cds := modelCoords M.records with hcdsd
  set mlens := modelLens M.records with hmlensd
  set rc := mlens.length with hrcd
  set tbl := compressTable mlens with htbld
  set pay := deltaEncode6 (compressStream cds) with hpayd
  set zb := (if vZ = true then zsl.flatMap f32enc else []) with hzbd
  set mb := (if vM = true then msl.flatMap f32enc else []) with hmbd
  set hdr := compressHeader vZ vM M.shapeType rc M.fileCode M.version with hhdrd
  set lensN := mlens.map (fun parts => parts.map (fun v => v.toNat)) with hlensNd
  set tp := (mlens.map (fun parts => (parts.map (fun v => v.toNat)).sum)).sum with htpd
  -- normal form of the buffer for the header reads
  have hu32len : ∀ n : Nat, (u32LE n).length = 4 := fun n => by simp [u32LE]
  have hi32len : ∀ v : Int, (i32LE v).length = 4 := fun v => by simp [i32LE, u32LE]
  have hNF : hdr ++ tbl ++ pay ++ zb ++ mb =
      v0 :: b1 :: (u32LE rc ++ (i32LE fc2 ++ (i32LE sv2 ++ (tbl ++ (pay ++ (zb ++ mb)))))) := by
    rw [hhdrd, compressHeader, ← hv0d, ← hb1d, ← hfc2d, ← hsv2d]
    simp only [List.cons_append, List.nil_append, List.append_assoc]
  have hread0 : rdU8 (hdr ++ tbl ++ pay ++ zb ++ mb) 0 = .ok v0 := by
    rw [hNF]
    exact rdU8_cons0 _ _
  have hread1 : rdU8 (hdr ++ tbl ++ pay ++ zb ++ mb) 1 = .ok b1 := by
    rw [hNF]
    exact rdU8_cons1 _ _ _
  have hread2 : rdU32LE (hdr ++ tbl ++ pay ++ zb ++ mb) 2 = .ok rc := by
    have h := u32LE_readback [v0, b1]
      (i32LE fc2 ++ (i32LE sv2 ++ (tbl ++ (pay ++ (zb ++ mb))))) rc (by omega)
    simp only [List.length_cons, List.length_nil, List.cons_append, List.nil_append] at h
    rw [hNF]
    exact h
  have hfc2r : -2147483648 ≤ fc2 ∧ fc2 < 2147483648 := by
    rw [hfc2d]
    split_ifs <;> omega
  have hsv2r : -2147483648 ≤ sv2 ∧ sv2 < 2147483648 := by
    rw [hsv2d]
    split_ifs <;> omega
  have hread6 : rdI32LE (hdr ++ tbl ++ pay ++ zb ++ mb) 6 = .ok fc2 := by
    have h := i32LE_readback (v0 :: b1 :: u32LE rc)
      (i32LE sv2 ++ (tbl ++ (pay ++ (zb ++ mb)))) fc2 hfc2r.1 hfc2r.2
    have hlen6 : (v0 :: b1 :: u32LE rc).length = 6 := by
      simp [hu32len]
    rw [hlen6] at h
    simp only [List.cons_append] at h
    rw [hNF]
    exact h
  have hread10 : rdI32LE (hdr ++ tbl ++ pay ++ zb ++ mb) 10 = .ok sv2 := by
    have h := i32LE_readback (v0 :: b1 :: (u32LE rc ++ i32LE fc2))
      (tbl ++ (pay ++ (zb ++ mb))) sv2 hsv2r.1 hsv2r.2
    have hlen10 : (v0 :: b1 :: (u32LE rc ++ i32LE fc2)).length = 10 := by
      simp [hu32len, hi32len]
    rw [hlen10] at h
    simp only [List.cons_append, List.append_assoc] at h
    rw [hNF]
    exact h
  have hhdr14 : hdr.length = 14 := by
    rw [hhdrd]
    simp [compressHeader, u32LE, i32LE]
  have hreadT : readTable (hdr ++ tbl ++ pay ++ zb ++ mb) 14 rc =
      .ok (lensN, 14 + tbl.length, tp) := by
    have h := readTable_spec mlens hdr (pay ++ (zb ++ mb)) htblcond
    rw [hhdr14, ← htbld, ← hlensNd, ← htpd, ← hrcd] at h
    rw [show hdr ++ tbl ++ pay ++ zb ++ mb = hdr ++ (tbl ++ (pay ++ (zb ++ mb))) from by
      simp [List.append_assoc]]
    exact h
  have hdrop1 : (hdr ++ tbl ++ pay ++ zb ++ mb).drop (14 + tbl.length) =
      pay ++ (zb ++ mb) := by
    rw [show hdr ++ tbl ++ pay ++ zb ++ mb = (hdr ++ tbl) ++ (pay ++ (zb ++ mb)) from by
      simp [List.append_assoc]]
    rw [show (14 : Nat) + tbl.length = (hdr ++ tbl).length from by
      rw [List.length_append, hhdr14]]
    exact List.drop_left _ _
  have hdrop2 : ∀ k, (hdr ++ tbl ++ pay ++ zb ++ mb).drop (14 + tbl.length + pay.length + k) =
      (zb ++ mb).drop k := by
    intro k
    rw [show hdr ++ tbl ++ pay ++ zb ++ mb = (hdr ++ tbl ++ pay) ++ (zb ++ mb) from by
      simp [List.append_assoc]]
    rw [show (14 : Nat) + tbl.length + pay.length + k = (hdr ++ tbl ++ pay).length + k from by
      simp only [List.length_append, hhdr14]]
    rw [← List.drop_drop, List.drop_left]
  have htpeq : (lensN.map List.sum).sum = tp := by
    rw [hlensNd, List.map_map]
    rfl
  have hzm4 : (zb ++ mb).length % 4 = 0 := by
    rw [List.length_append]
    omega
  have hzm4d : ∀ k : Nat, k % 4 = 0 → ((zb ++ mb).drop k).length % 4 = 0 := by
    intro k hk
    rw [List.length_drop]
    omega
  by_cases hc0 : cds = []
  · -- empty coordinate stream: the payload is the 7-byte sentinel-only block
    have hzsle : zsl = [] := by
      rw [hc0] at hzl
      simpa using hzl
    have hmsle : msl = [] := by
      rw [hc0] at hml
      simpa using hml
    have hzbe : zb = [] := by
      rw [hzbd, hzsle]
      split_ifs <;> simp
    have hmbe : mb = [] := by
      rw [hmbd, hmsle]
      split_ifs <;> simp
    have hpaye : pay = [0, 0, 0, 74, 0, 0, 0] := by
      rw [hpayd, hc0]
      have h1 : compressStream [] = [(-32768 : Int)] := by decide
      have h2 : encLoop [(-2048 : Int)] encInit = ⟨0, 0, [], [], [[[]]], 3⟩ := by
        rw [encLoop]
        norm_num
        rw [encLoop]
        rfl
      rw [h1, deltaEncode6]
      have h3 : ([(-32768 : Int)].map (fun v => v.tdiv 16)) = [(-2048 : Int)] := by decide
      rw [h3, h2]
      decide
    have htp0 : tp = 0 := by
      rw [hc0] at htp2
      simp at htp2
      omega
    have hdect : deltaDecode6 (pay ++ (zb ++ mb)) =
        .ok [(-32768 : Int), -32768, -32768, -32768] := by
      rw [hpaye, hzbe, hmbe]
      rfl
    have hbit : readU32BE (pay ++ (zb ++ mb)) 0 = 74 := by
      rw [hpaye, hzbe, hmbe]
      rfl
    have hlenbuf : (hdr ++ tbl ++ pay ++ zb ++ mb).length = 21 + tbl.length := by
      rw [hzbe, hmbe, hpaye]
      simp only [List.length_append, List.length_cons, List.length_nil, hhdr14]
      omega
    have hdropE : ∀ k, 7 ≤ k →
        (hdr ++ tbl ++ pay ++ zb ++ mb).drop (14 + tbl.length + k) = [] := by
      intro k hk
      apply List.drop_eq_nil_of_le
      rw [hlenbuf]
      omega
    have hf0 : ∀ n : Nat, f32slice ([] : List Nat) n = .ok [] := by
      intro n
      rw [f32slice]
      simp
    have hmain : ∃ (M2 : ShapefileData) (zs2 ms2 : Option (List ℚ)),
        decompress (hdr ++ tbl ++ pay ++ zb ++ mb) = .ok M2 ∧
        M2.shapeType = (b1 : Int) ∧
        M2.records = reconRecords (b1 : Int)
          [(-32768 : Int), -32768, -32768, -32768] zs2 ms2 0 0 0 lensN := by
      obtain ⟨box2, trb2, hrec⟩ := reconstruct_spec lensN (b1 : Int)
        [(-32768 : Int), -32768, -32768, -32768]
        (if v0 = 2 ∧ (b1 = 15 ∨ b1 = 13) then some ([] : List ℚ) else none)
        (if v0 = 2 ∧ ((b1 = 15 ∨ b1 = 13) ∨ b1 = 25 ∨ b1 = 23) then some ([] : List ℚ)
          else none)
        0 0 0 bbox0 0 (by rw [htpeq, htp0]; simp)
      have hev : decompress (hdr ++ tbl ++ pay ++ zb ++ mb) =
          decompress (hdr ++ tbl ++ pay ++ zb ++ mb) := rfl
      conv at hev =>
        rhs
        rw [decompress, hread0, ok_bind, if_neg hver, hread1, ok_bind, hread2, ok_bind,
          hread6, ok_bind, hread10, ok_bind, hreadT, ok_bind]
        dsimp only
        rw [hdrop1, hdect]
        dsimp only
        rw [hbit]
        rw [show (74 + 7) / 8 = 10 from rfl]
        rw [hdropE 10 (by omega)]
        rw [Nat.add_assoc (14 + tbl.length) 10 _]
        rw [hdropE (10 + (if v0 = 2 ∧ (b1 = 15 ∨ b1 = 13) then tp * 4 else 0)) (by omega)]
        rw [sliceBind (v0 = 2 ∧ (b1 = 15 ∨ b1 = 13)) (f32slice [] tp) [] (hf0 tp)]
        rw [sliceBind (v0 = 2 ∧ ((b1 = 15 ∨ b1 = 13) ∨ b1 = 25 ∨ b1 = 23)) (f32slice [] tp)
          [] (hf0 tp)]
        rw [hrec, ok_bind]
      exact ⟨_, _, _, hev, rfl, rfl⟩
    obtain ⟨M2, zs2, ms2, hdec, hsh, hrecse⟩ := hmain
    refine ⟨_, M2, [(-32768 : Int), -32768, -32768, -32768], zs2, ms2, hcomp, hdec,
      ?_, ?_, ?_, ?_⟩
    · rw [hsh]
      exact hb1eq
    · rw [hrecse, ← hb1eq]
    · rw [htp0]
      simp
    · rw [htp0, hc0]
      rfl
  · -- nonempty coordinate stream
    have hdne : cds.map (fun v => toInt16 (quantCoord v)) ≠ [] := by
      intro h
      exact hc0 (List.map_eq_nil_iff.mp h)
    have hdev : (cds.map (fun v => toInt16 (quantCoord v))).length % 2 = 0 := by
      rw [List.length_map, hcdsd]
      exact modelCoords_even M.records
    have hdr2 : ∀ v ∈ cds.map (fun v => toInt16 (quantCoord v)),
        -32767 ≤ v ∧ v ≤ 32767 := by
      intro v hv
      rw [List.mem_map] at hv
      obtain ⟨w, hw, rfl⟩ := hv
      have hwm : -180 ≤ w ∧ w ≤ 180 := by
        rw [hcdsd] at hw
        exact modelCoords_mem hrecs w hw
      obtain ⟨-, h1, h2⟩ := toInt16_quantCoord hwm.1 hwm.2
      exact ⟨h1, h2⟩
    have hdlen : (cds.map (fun v => toInt16 (quantCoord v))).length ≤ 100000000 := by
      rw [List.length_map]
      exact hclen
    obtain ⟨hdec6, hblen⟩ := deltaCodec_roundtrip (cds.map (fun v => toInt16 (quantCoord v)))
      (zb ++ mb) hdne hdev hdr2 hdlen
    have hpay2 : pay =
        deltaEncode6 (cds.map (fun v => toInt16 (quantCoord v)) ++ [(-32768 : Int)]) := by
      rw [hpayd, compressStream_eq]
    rw [← hpay2] at hdec6 hblen
    have hfp : (cds.map (fun v => toInt16 (quantCoord v))).map (fun v => v.tdiv 16 * 16) ++
        [(-32768 : Int)] = cds.map wireVal ++ [(-32768 : Int)] := by
      rw [List.map_map]
      rfl
    rw [hfp] at hdec6
    have hlenfp : (cds.map wireVal ++ [(-32768 : Int)]).length = 2 * tp + 1 := by
      rw [List.length_append, List.length_map]
      simp only [List.length_cons, List.length_nil]
      omega
    have hdropP : (hdr ++ tbl ++ pay ++ zb ++ mb).drop (14 + tbl.length + pay.length) =
        zb ++ mb := by
      have h := hdrop2 0
      simpa using h
    have hif4 : (if v0 = 2 ∧ (b1 = 15 ∨ b1 = 13) then tp * 4 else 0) % 4 = 0 := by
      split_ifs <;> omega
    obtain ⟨box2, trb2, hrec⟩ := reconstruct_spec lensN (b1 : Int)
      (cds.map wireVal ++ [(-32768 : Int)])
      (if v0 = 2 ∧ (b1 = 15 ∨ b1 = 13) then
        some (List.replicate (min (4 * tp) (zb ++ mb).length / 4) 0) else none)
      (if v0 = 2 ∧ ((b1 = 15 ∨ b1 = 13) ∨ b1 = 25 ∨ b1 = 23) then
        some (List.replicate (min (4 * tp)
          ((zb ++ mb).drop (if v0 = 2 ∧ (b1 = 15 ∨ b1 = 13) then tp * 4 else 0)).length / 4) 0)
        else none)
      0 0 0 bbox0 0 (by rw [htpeq, hlenfp]; omega)
    have hmain : ∃ (M2 : ShapefileData) (zs2 ms2 : Option (List ℚ)),
        decompress (hdr ++ tbl ++ pay ++ zb ++ mb) = .ok M2 ∧
        M2.shapeType = (b1 : Int) ∧
        M2.records = reconRecords (b1 : Int) (cds.map wireVal ++ [(-32768 : Int)])
          zs2 ms2 0 0 0 lensN := by
      have hev : decompress (hdr ++ tbl ++ pay ++ zb ++ mb) =
          decompress (hdr ++ tbl ++ pay ++ zb ++ mb) := rfl
      conv at hev =>
        rhs
        rw [decompress, hread0, ok_bind, if_neg hver, hread1, ok_bind, hread2, ok_bind,
          hread6, ok_bind, hread10, ok_bind, hreadT, ok_bind]
        dsimp only
        rw [hdrop1, hdec6]
        dsimp only
        rw [hblen]
        rw [hdropP]
        rw [hdrop2 (if v0 = 2 ∧ (b1 = 15 ∨ b1 = 13) then tp * 4 else 0)]
        rw [sliceBind (v0 = 2 ∧ (b1 = 15 ∨ b1 = 13)) (f32slice (zb ++ mb) tp) _
          (f32slice_ok (zb ++ mb) tp hzm4)]
        rw [sliceBind (v0 = 2 ∧ ((b1 = 15 ∨ b1 = 13) ∨ b1 = 25 ∨ b1 = 23))
          (f32slice ((zb ++ mb).drop
            (if v0 = 2 ∧ (b1 = 15 ∨ b1 = 13) then tp * 4 else 0)) tp) _
          (f32slice_ok _ tp (hzm4d _ hif4))]
        rw [hrec, ok_bind]
      exact ⟨_, _, _, hev, rfl, rfl⟩
    obtain ⟨M2, zs2, ms2, hdec, hsh, hrecse⟩ := hmain
    refine ⟨_, M2, cds.map wireVal ++ [(-32768 : Int)], zs2, ms2, hcomp, hdec,
      ?_, ?_, ?_, ?_⟩
    · rw [hsh]
      exact hb1eq
    · rw [hrecse, ← hb1eq]
    · rw [hlenfp]
      omega
    · rw [show 2 * tp = (cds.map wireVal).length from by rw [List.length_map]; omega,
        List.take_left]

theorem parseRecords_spec (dv : List Nat) (byteLength : Int) :
    ∀ (frames : List (Int × Int)) (idx : Int) (fuel : Nat),
    FramesAt dv byteLength idx frames → frames.length ≤ fuel →
    parseRecords dv byteLength fuel idx = .ok (recsOf dv idx frames) := by
  intro frames
  induction frames with
  | nil =>
    intro idx fuel hf hle
    match fuel with
    | 0 =>
      rw [parseRecords, if_neg hf]
      rfl
    | fuel + 1 =>
      rw [parseRecords, if_neg hf]
      rfl
  | cons f rest ih =>
    intro idx fuel hf hle
    obtain ⟨hlt, hnum, hlen, hrest⟩ := hf
    match fuel with
    | 0 => simp at hle
    | fuel + 1 =>
      rw [parseRecords, if_pos hlt, hnum, ok_bind, hlen, ok_bind,
        ih _ fuel hrest (by simp at hle; omega), ok_bind]
      rfl

theorem recsOf_length (dv : List Nat) :
    ∀ (frames : List (Int × Int)) (idx : Int),
    (recsOf dv idx frames).length = frames.length := by
  intro frames
  induction frames with
  | nil => intro idx; rfl
  | cons f rest ih =>
    intro idx
    rw [recsOf, List.length_cons, List.length_cons, ih]

/-- Body-parse failure downgrades to a bare Null shape. -/
theorem pshape_error {dv : List Nat} {idx : Int} {e : Err}
    (h : parseShape dv idx = .error e) : pshape dv idx = ⟨0, none⟩ := by
  rw [pshape, h]

/-- Body-parse success is passed through. -/
theorem pshape_ok {dv : List Nat} {idx : Int} {s : Shape}
    (h : parseShape dv idx = .ok s) : pshape dv idx = s := by
  rw [pshape, h]

/-- parse on a buffer with a valid header and a frame table: one output
record per frame, regardless of whether any body parses. -/
theorem parse_spec (dv : List Nat) (frames : List (Int × Int)) (wl : Int)
    (hfc : pdvI32BE dv 0 = .ok 9994)
    (hwl : pdvI32BE dv 24 = .ok wl)
    (hlen : 100 ≤ dv.length)
    (hframes : FramesAt dv (wl * 2) 100 frames)
    (hcount : frames.length ≤ dv.length + 1) :
    ∃ M : ShapefileData, parse dv = .ok M ∧ M.records = recsOf dv 100 frames ∧
      M.wordLength = wl := by
  have hf64 : ∀ off : Int, 0 ≤ off → off.toNat + 8 ≤ 100 → pdvF64 dv off = .ok 0 := by
    intro off h1 h2
    rw [pdvF64, if_pos ⟨h1, by omega⟩]
  have h32 : ∀ off : Int, 0 ≤ off → off.toNat + 4 ≤ 100 → ∃ v, pdvI32LE dv off = .ok v := by
    intro off h1 h2
    rw [pdvI32LE, if_pos ⟨h1, by omega⟩]
    exact ⟨_, rfl⟩
  obtain ⟨ver, hver⟩ := h32 28 (by omega) (by decide)
  obtain ⟨sht, hsht⟩ := h32 32 (by omega) (by decide)
  have hrecs := parseRecords_spec dv (wl * 2) frames 100 (dv.length + 1) hframes hcount
  refine ⟨⟨9994, wl, wl * 2, ver, sht, .val 0, .val 0, .val 0, .val 0,
    .val 0, .val 0, .val 0, .val 0, recsOf dv 100 frames⟩, ?_, rfl, rfl⟩
  rw [parse, hfc, ok_bind, if_neg (by decide), hwl, ok_bind, hver, ok_bind, hsht, ok_bind,
    hf64 36 (by omega) (by decide), ok_bind, hf64 44 (by omega) (by decide), ok_bind,
    hf64 52 (by omega) (by decide), ok_bind, hf64 60 (by omega) (by decide), ok_bind,
    hf64 68 (by omega) (by decide), ok_bind, hf64 76 (by omega) (by decide), ok_bind,
    hf64 84 (by omega) (by decide), ok_bind, hf64 92 (by omega) (by decide), ok_bind,
    hrecs, ok_bind]

/-- The payload of a coordinate-free model: `deltaEncode6` on the bare
terminator stream. -/
theorem deltaEncode6_nil : deltaEncode6 (compressStream []) = [0, 0, 0, 74, 0, 0, 0] := by
  have h1 : compressStream [] = [(-32768 : Int)] := by decide
  have h2 : encLoop [(-2048 : Int)] encInit = ⟨0, 0, [], [], [[[]]], 3⟩ := by
    rw [encLoop]
    norm_num
    rw [encLoop]
    rfl
  rw [h1, deltaEncode6]
  have h3 : ([(-32768 : Int)].map (fun v => v.tdiv 16)) = [(-2048 : Int)] := by decide
  rw [h3, h2]
  decide

/-- `getBit` as plain digit arithmetic. -/
theorem getBit_eq (l : List Nat) (q r : Nat) (hr : r < 8) :
    getBit l (8 * q + r) = lget l q / 2 ^ (7 - r) % 2 := by
  have hdq : (8 * q + r) / 8 = q := by omega
  have hdm : (8 * q + r) % 8 = r := by omega
  rw [getBit, hdq, hdm]
  interval_cases r <;>
    simp only [Nat.shiftRight_eq_div_pow] <;>
    norm_num <;>
    simp only [and255, and128, and64, and32, and16, and8, and4, and2, and1] <;>
    try norm_num

set_option maxHeartbeats 2000000 in
/-- Bit-level frame of `setInt12`: a bit outside the 12-bit span is
unchanged. -/
theorem getBit_frame_set12 (l : List Nat) (idx : Nat) (v : Int) (j : Nat)
    (hb : bytesOK l) (hout : j < idx ∨ idx + 12 ≤ j) :
    getBit (setInt12 l idx v) j = getBit l j := by
  obtain ⟨p, t, ht, rfl⟩ : ∃ p t, t < 8 ∧ idx = 8 * p + t :=
    ⟨idx / 8, idx % 8, Nat.mod_lt _ (by norm_num), by omega⟩
  obtain ⟨q, r, hr, rfl⟩ : ∃ q r, r < 8 ∧ j = 8 * q + r :=
    ⟨j / 8, j % 8, Nat.mod_lt _ (by norm_num), by omega⟩
  rw [getBit_eq _ q r hr, getBit_eq _ q r hr,
    setInt12_bytes l v p t ht hb q]
  have hn := n12_lt v
  have ha := lget_lt_256 hb p
  have hb1 := lget_lt_256 hb (p + 1)
  have hb2 := lget_lt_256 hb (p + 2)
  have hq := lget_lt_256 hb q
  split_ifs with h1 h2 h3
  · -- q = p: only bits before the field offset are outside the span
    obtain ⟨rfl, -⟩ := h1
    have hrt : r < t := by omega
    unfold n12
    interval_cases t <;> interval_cases r <;> omega
  · -- q = p + 1
    obtain ⟨rfl, -⟩ := h2
    have hrt : t + 4 ≤ r := by omega
    unfold n12
    interval_cases t <;> interval_cases r <;> omega
  · -- q = p + 2
    obtain ⟨rfl, -⟩ := h3
    have hrt : t ≤ r + 4 := by omega
    unfold n12
    interval_cases t <;> interval_cases r <;> omega
  · rfl

set_option maxHeartbeats 2000000 in
/-- Bit-level frame of `setInt6`: a bit outside the 6-bit span is
unchanged. -/
theorem getBit_frame_set6 (l : List Nat) (idx : Nat) (v : Int) (j : Nat)
    (hb : bytesOK l) (hout : j < idx ∨ idx + 6 ≤ j) :
    getBit (setInt6 l idx v) j = getBit l j := by
  obtain ⟨p, t, ht, rfl⟩ : ∃ p t, t < 8 ∧ idx = 8 * p + t :=
    ⟨idx / 8, idx % 8, Nat.mod_lt _ (by norm_num), by omega⟩
  obtain ⟨q, r, hr, rfl⟩ : ∃ q r, r < 8 ∧ j = 8 * q + r :=
    ⟨j / 8, j % 8, Nat.mod_lt _ (by norm_num), by omega⟩
  rw [getBit_eq _ q r hr, getBit_eq _ q r hr,
    setInt6_bytes l v p t ht hb q]
  have hn := n6_lt v
  have ha := lget_lt_256 hb p
  have hb1 := lget_lt_256 hb (p + 1)
  have hq := lget_lt_256 hb q
  split_ifs with h1 h2
  · obtain ⟨rfl, -⟩ := h1
    have hrt : r < t ∨ t + 6 ≤ r := by omega
    unfold n6
    interval_cases t <;> rcases hrt with hrt | hrt <;> interval_cases r <;> omega
  · obtain ⟨rfl, -⟩ := h2
    have hrt : t + 6 ≤ r + 8 := by omega
    unfold n6
    interval_cases t <;> interval_cases r <;> omega
  · rfl

theorem Mw3_wf : modelWF Mw3 :=
  ⟨Or.inl rfl, by simp [Mw3], by decide, by decide, by decide, by decide, by decide,
    by decide⟩

/-! ## The claims -/

/-- C1 (amended): on a well-formed poly-family model — every record one of
the six Polygon/PolyLine types with consistent part table — the
compress/decompress round trip preserves the shape type, the record
count, and each record's part count and per-part point counts. -/
theorem C1_roundtrip_lossless (M : ShapefileData) (hwf : modelWF M) :
    ∃ (buf : List Nat) (M2 : ShapefileData),
      compress M = .ok buf ∧ decompress buf = .ok M2 ∧
      M2.shapeType = M.shapeType ∧
      M2.records.length = M.records.length ∧
      M2.records.map recProfile = M.records.map recProfile := by
  obtain ⟨buf, M2, fp, zs2, ms2, hc, hd, hsh, hrec, hlen2, htake⟩ := roundtrip_core M hwf
  have hcl := hwf.2.2.2.1
  have hclen2 := modelCoords_length M.records
  have hmmsum : (((modelLens M.records).map (fun parts =>
      parts.map (fun v => v.toNat))).map List.sum) =
      (modelLens M.records).map (fun parts => (parts.map (fun v => v.toNat)).sum) := by
    rw [List.map_map]
    rfl
  have hbound : (0 : Nat) + 2 * ((((modelLens M.records).map (fun parts =>
      parts.map (fun v => v.toNat))).map List.sum).sum) ≤ fp.length := by
    rw [hmmsum]
    omega
  refine ⟨buf, M2, hc, hd, hsh, ?_, ?_⟩
  · rw [hrec, reconRecords_length, List.length_map, modelLens, List.length_map]
  · have hsmall : ∀ lens ∈ (modelLens M.records).map (fun parts =>
        parts.map (fun v => v.toNat)), lens.sum ≤ 2147483647 := by
      intro lens hlens
      rw [List.mem_map] at hlens
      obtain ⟨parts, hp, rfl⟩ := hlens
      have hmem : (parts.map (fun v => v.toNat)).sum ∈ (modelLens M.records).map
          (fun parts => (parts.map (fun v => v.toNat)).sum) :=
        List.mem_map.mpr ⟨parts, hp, rfl⟩
      have := mem_le_sum hmem
      omega
    rw [hrec, reconRecords_profiles M.shapeType fp zs2 ms2 _ 0 0 0 hbound hsmall,
      List.map_map]
    rw [show M.records.map recProfile = modelLens M.records from rfl]
    conv_rhs => rw [← List.map_id (modelLens M.records)]
    apply List.map_congr_left
    intro parts hp
    show (parts.map (fun v => v.toNat)).map (fun (n : Nat) => (n : Int)) = parts
    apply profile_toNat_round
    rw [modelLens, List.mem_map] at hp
    obtain ⟨r, hr, rfl⟩ := hp
    obtain ⟨-, c, hcq, hcwf⟩ := hwf.2.1 r hr
    have hpr : recProfile r = recordPartLens c := by
      unfold recProfile
      rw [hcq]
    rw [hpr]
    exact recordPartLens_nonneg hcwf

/-- C1 witness: the round trip on a concrete well-formed model. -/
theorem C1_witness : ∃ (buf : List Nat) (M2 : ShapefileData),
    compress Mw3 = .ok buf ∧ decompress buf = .ok M2 ∧
    M2.shapeType = Mw3.shapeType ∧
    M2.records.length = Mw3.records.length ∧
    M2.records.map recProfile = Mw3.records.map recProfile :=
  C1_roundtrip_lossless Mw3 Mw3_wf

/-- C1 counterexample: a MULTIPATCH record is compressed as an empty
record, so its part count and point counts are not preserved, refuting
the round-trip identity for arbitrary models. -/
theorem C1_counterexample : ∃ (buf : List Nat) (M2 : ShapefileData),
    compress Mcx1 = .ok buf ∧ decompress buf = .ok M2 ∧
    M2.shapeType = Mcx1.shapeType ∧ M2.records.length = Mcx1.records.length ∧
    ¬(M2.records.map recProfile = Mcx1.records.map recProfile) := by
  have hc : compress Mcx1 = .ok (compressHeader false false 31 1 9994 1000 ++
      compressTable [[]] ++ deltaEncode6 (compressStream []) ++ [] ++ []) := rfl
  rw [deltaEncode6_nil] at hc
  exact ⟨_, M2cx1, hc, rfl, by decide, by decide, by decide⟩

/-- C2: on a well-formed poly-family model with coordinates in
quantization range, the reconstructed flat point stream is the pointwise
round trip of the original coordinate stream, and every round-tripped
coordinate is within 0.1 degrees of the original. -/
theorem C2_coordinate_error (M : ShapefileData) (hwf : modelWF M) :
    ∃ (buf : List Nat) (M2 : ShapefileData),
      compress M = .ok buf ∧ decompress buf = .ok M2 ∧
      M2.records.flatMap recPoints = (modelCoords M.records).map roundtripCoord ∧
      ∀ v ∈ modelCoords M.records, |roundtripCoord v - v| < 1 / 10 := by
  obtain ⟨buf, M2, fp, zs2, ms2, hc, hd, hsh, hrec, hlen2, htake⟩ := roundtrip_core M hwf
  have hmmsum : (((modelLens M.records).map (fun parts =>
      parts.map (fun v => v.toNat))).map List.sum) =
      (modelLens M.records).map (fun parts => (parts.map (fun v => v.toNat)).sum) := by
    rw [List.map_map]
    rfl
  have hbound : (0 : Nat) + 2 * ((((modelLens M.records).map (fun parts =>
      parts.map (fun v => v.toNat))).map List.sum).sum) ≤ fp.length := by
    rw [hmmsum]
    omega
  refine ⟨buf, M2, hc, hd, ?_, ?_⟩
  · rw [hrec, reconRecords_points M.shapeType fp zs2 ms2 _ 0 0 0 hbound,
      List.drop_zero, hmmsum, htake, List.map_map]
    rfl
  · intro v hv
    have hb := modelCoords_mem hwf.2.1 v hv
    exact roundtripCoord_err hb.1 hb.2

/-- C2 witness: the bound at a concrete model. -/
theorem C2_witness : ∃ (buf : List Nat) (M2 : ShapefileData),
    compress Mw3 = .ok buf ∧ decompress buf = .ok M2 ∧
    M2.records.flatMap recPoints = (modelCoords Mw3.records).map roundtripCoord ∧
    ∀ v ∈ modelCoords Mw3.records, |roundtripCoord v - v| < 1 / 10 :=
  C2_coordinate_error Mw3 Mw3_wf

/-- C3: BitView 12-bit and 6-bit write/read round trips at every bit
offset, for every value in range, when the field lies inside the
buffer. -/
theorem C3_bitview_roundtrip (l : List Nat) (idx : Nat) (v12 v6 : Int)
    (hb : bytesOK l) (h12r : -2048 ≤ v12 ∧ v12 ≤ 2047)
    (h12b : idx + 12 ≤ 8 * l.length) (h6r : -32 ≤ v6 ∧ v6 ≤ 31)
    (h6b : idx + 6 ≤ 8 * l.length) :
    getInt12 (setInt12 l idx v12) idx = v12 ∧ getInt6 (setInt6 l idx v6) idx = v6 := by
  constructor
  · rw [getInt12_setInt12 l idx v12 hb h12b, n12_inRange h12r.1 h12r.2]
    omega
  · rw [getInt6_setInt6 l idx v6 hb h6b, n6_inRange h6r.1 h6r.2]
    omega

/-- C3 witness: a byte-straddling offset. -/
theorem C3_witness :
    getInt12 (setInt12 [0, 0, 0] 3 (-1000)) 3 = -1000 ∧
      getInt6 (setInt6 [0, 0, 0] 3 17) 3 = 17 :=
  C3_bitview_roundtrip [0, 0, 0] 3 (-1000) 17 (by unfold bytesOK; decide) (by decide)
    (by decide) (by decide) (by decide)

/-- C4 (amended): the stream handed to the delta encoder is the quantized
coordinates of all parts of all records followed by a single trailing
-32768 terminator — exactly one sentinel in the whole stream, not one per
part. -/
theorem C4_single_terminator (M : ShapefileData) (hwf : modelWF M) :
    ∃ buf : List Nat, compress M = .ok buf ∧
      compressStream (modelCoords M.records) =
        (modelCoords M.records).map (fun v => toInt16 (quantCoord v)) ++
          [(-32768 : Int)] ∧
      (compressStream (modelCoords M.records)).count (-32768) = 1 := by
  obtain ⟨zs, ms, hc, -, -⟩ := compress_spec M
    (fun r hr => ⟨(hwf.2.1 r hr).1, (hwf.2.1 r hr).2.choose,
      (hwf.2.1 r hr).2.choose_spec.1⟩)
  refine ⟨_, hc, compressStream_eq _, ?_⟩
  rw [compressStream_eq, List.count_append]
  have h0 : ((modelCoords M.records).map
      (fun v => toInt16 (quantCoord v))).count (-32768) = 0 := by
    rw [List.count_eq_zero]
    intro hmem
    rw [List.mem_map] at hmem
    obtain ⟨w, hw, he⟩ := hmem
    have hb := modelCoords_mem hwf.2.1 w hw
    have := (toInt16_quantCoord hb.1 hb.2).2.1
    omega
  rw [h0]
  rfl

/-- C4 witness: the single terminator at a concrete model. -/
theorem C4_witness : ∃ buf : List Nat, compress Mw3 = .ok buf ∧
    compressStream (modelCoords Mw3.records) =
      (modelCoords Mw3.records).map (fun v => toInt16 (quantCoord v)) ++
        [(-32768 : Int)] ∧
    (compressStream (modelCoords Mw3.records)).count (-32768) = 1 :=
  C4_single_terminator Mw3 Mw3_wf

/-- C4 counterexample: a model with one two-part record (k = 2 compressible
parts) whose encoder stream holds exactly one -32768, and the entry right
after the first part's point pair is 0, not a sentinel — refuting a
per-part sentinel. -/
theorem C4_counterexample :
    modelLens Mcx4.records = [[1, 1]] ∧
    compressStream (modelCoords Mcx4.records) = [0, 0, 0, 0, -32768] ∧
    (compressStream (modelCoords Mcx4.records)).count (-32768) = 1 := by
  have hq : toInt16 (quantCoord 0) = 0 := by
    have h : quantCoord 0 = 0 := by norm_num [quantCoord]
    rw [h]
    decide
  have hmc : modelCoords Mcx4.records = [0, 0, 0, 0] := by decide
  have hcs : compressStream (modelCoords Mcx4.records) = [0, 0, 0, 0, -32768] := by
    rw [hmc, compressStream_eq]
    simp only [List.map_cons, List.map_nil, hq]
    rfl
  refine ⟨by decide, hcs, by rw [hcs]; decide⟩

/-- C5 (amended): stage-1 quantization truncates toward zero (the JS
Int16Array coercion), so the stream entry for a coordinate v is
trunc(v/180*32767), not round(v/180*32767). -/
theorem C5_truncating_quantization (v : ℚ) (h1 : -180 ≤ v) (h2 : v ≤ 180) :
    compressStream [v] = [ratTrunc (quantCoord v), (-32768 : Int)] := by
  have he : compressStream [v] = [toInt16 (quantCoord v), toInt16 ((-32768 : ℚ))] := rfl
  rw [he, (toInt16_quantCoord h1 h2).1, show toInt16 ((-32768 : ℚ)) = -32768 by decide]

/-- C5 witness: the truncating quantization at a concrete coordinate. -/
theorem C5_witness :
    compressStream [(0 : ℚ)] = [ratTrunc (quantCoord 0), (-32768 : Int)] :=
  C5_truncating_quantization 0 (by decide) (by decide)

/-- C5 counterexample: at v = 1/200 degrees, round(v/180*32767) = 1 but the
code's truncating coercion stores 0 — the claimed rounding is not what
compress computes. -/
theorem C5_counterexample :
    jsRound (quantCoord (1 / 200)) = 1 ∧
    compressStream [(1 / 200 : ℚ)] = [0, (-32768 : Int)] ∧
    (0 : Int) ≠ 1 := by
  have hq : quantCoord (1 / 200 : ℚ) = 32767 / 36000 := by
    norm_num [quantCoord]
  have hfl : ratTrunc (quantCoord (1 / 200 : ℚ)) = 0 := by
    rw [hq, ratTrunc_eq_floor (by norm_num)]
    norm_num
  have hjr : jsRound (quantCoord (1 / 200 : ℚ)) = 1 := by
    rw [hq, jsRound]
    show ⌊(32767 / 36000 : ℚ) + 1 / 2⌋ = 1
    norm_num
  have h16 : toInt16 (quantCoord (1 / 200 : ℚ)) = 0 := by
    rw [toInt16, hfl]
    decide
  have he : compressStream [(1 / 200 : ℚ)] =
      [toInt16 (quantCoord (1 / 200)), toInt16 ((-32768 : ℚ))] := rfl
  refine ⟨hjr, ?_, by decide⟩
  rw [he, h16, show toInt16 ((-32768 : ℚ)) = -32768 by decide]

/-- C6 (amended): the first byte of the compact buffer is 2 exactly when
the effective shape type is one of the Z/M poly types 13, 15, 23, 25 —
it depends on the shape type alone, not on the records' actual Z/M
data. -/
theorem C6_version_byte (M : ShapefileData)
    (h : ∀ r ∈ M.records, isPolyType r.shape.type = true ∧
      ∃ c, r.shape.content = some (.poly c)) :
    ∃ buf : List Nat, compress M = .ok buf ∧
      buf.headD 0 = if effShapeType M = 13 ∨ effShapeType M = 15 ∨
        effShapeType M = 23 ∨ effShapeType M = 25 then 2 else 1 := by
  obtain ⟨zs, ms, hc, -, -⟩ := compress_spec M h
  refine ⟨_, hc, ?_⟩
  rw [compressHeader]
  simp only [List.cons_append, List.headD_cons]
  by_cases hp : effShapeType M = 13 ∨ effShapeType M = 15 ∨
      effShapeType M = 23 ∨ effShapeType M = 25
  · rw [if_pos hp]
    rcases hp with h1 | h1 | h1 | h1 <;> rw [h1] <;> decide
  · rw [if_neg hp]
    push_neg at hp
    obtain ⟨h13, h15, h23, h25⟩ := hp
    have hz : (effShapeType M == ShapeType.POLYGONZ ||
        effShapeType M == ShapeType.POLYLINEZ) = false := by
      simp only [ShapeType.POLYGONZ, ShapeType.POLYLINEZ, Bool.or_eq_false_iff,
        beq_eq_false_iff_ne, ne_eq]
      omega
    have hfalse : ((effShapeType M == ShapeType.POLYGONZ ||
        effShapeType M == ShapeType.POLYLINEZ) ||
        effShapeType M == ShapeType.POLYGONM ||
        effShapeType M == ShapeType.POLYLINEM) = false := by
      simp only [ShapeType.POLYGONZ, ShapeType.POLYLINEZ, ShapeType.POLYGONM,
        ShapeType.POLYLINEM, Bool.or_eq_false_iff, beq_eq_false_iff_ne, ne_eq]
      omega
    rw [hfalse, hz]
    rfl

/-- C6 witness: a POLYLINE model gets version byte 1. -/
theorem C6_witness : ∃ buf : List Nat, compress Mw3 = .ok buf ∧
    buf.headD 0 = if effShapeType Mw3 = 13 ∨ effShapeType Mw3 = 15 ∨
      effShapeType Mw3 = 23 ∨ effShapeType Mw3 = 25 then 2 else 1 :=
  C6_version_byte Mw3 (by simp [Mw3])

/-- C6 counterexample: a POLYGONZ model with no records at all — its
records include no Z or M data — still gets version byte 2, refuting
"version 2 exactly when the records include Z or M data". -/
theorem C6_counterexample :
    ∃ buf : List Nat, compress Mz15 = .ok buf ∧ buf.headD 0 = 2 ∧
      Mz15.records = [] := by
  have hc : compress Mz15 = .ok (compressHeader true true 15 0 9994 1000 ++
      compressTable [] ++ deltaEncode6 (compressStream []) ++ [] ++ []) := rfl
  rw [deltaEncode6_nil] at hc
  exact ⟨_, hc, by decide, rfl⟩

/-- C7: a bit strictly outside the 12-bit (resp. 6-bit) span written by
setInt12 (resp. setInt6) reads back unchanged. -/
theorem C7_write_frame (l : List Nat) (idx j : Nat) (v12 v6 : Int) (hb : bytesOK l)
    (hout12 : j < idx ∨ idx + 12 ≤ j) (hout6 : j < idx ∨ idx + 6 ≤ j) :
    getBit (setInt12 l idx v12) j = getBit l j ∧
      getBit (setInt6 l idx v6) j = getBit l j :=
  ⟨getBit_frame_set12 l idx v12 j hb hout12, getBit_frame_set6 l idx v6 j hb hout6⟩

/-- C7 witness: bits before and after a straddling field are untouched. -/
theorem C7_witness :
    getBit (setInt12 [255, 255, 255] 3 (-1000)) 2 = getBit [255, 255, 255] 2 ∧
      getBit (setInt6 [255, 255, 255] 3 17) 2 = getBit [255, 255, 255] 2 :=
  C7_write_frame [255, 255, 255] 3 2 (-1000) 17 (by unfold bytesOK; decide) (by decide)
    (by decide)

/-- C8 (amended): for every nonempty even-length in-range stream — what
compress hands the encoder whenever the model has at least one point —
the final bit index stored in the header never exceeds 8 times the
allocated buffer's byte length. -/
theorem C8_buffer_sizing (data : List Int) (hne : data ≠ [])
    (hev : data.length % 2 = 0) (hr : ∀ v ∈ data, -32767 ≤ v ∧ v ≤ 32767)
    (hlen : data.length ≤ 100000000) :
    readU32BE (deltaEncode6 (data ++ [(-32768 : Int)])) 0 ≤
      8 * (deltaEncode6 (data ++ [(-32768 : Int)])).length := by
  obtain ⟨-, h2⟩ := deltaCodec_roundtrip data [] hne hev hr hlen
  rw [List.append_nil] at h2
  omega

/-- C8 witness: the sizing bound at a concrete two-sample stream. -/
theorem C8_witness :
    readU32BE (deltaEncode6 ([(0 : Int), 0] ++ [(-32768 : Int)])) 0 ≤
      8 * (deltaEncode6 ([(0 : Int), 0] ++ [(-32768 : Int)])).length :=
  C8_buffer_sizing [0, 0] (by decide) (by decide) (by decide) (by decide)

/-- C8 counterexample: the empty stream, which compress produces for a
model with no compressible points, allocates 7 bytes but records final
bit index 74 > 56 — the claimed bound fails on it. -/
theorem C8_counterexample :
    compress Mw3 = .ok (compressHeader false false 3 0 9994 1000 ++
      compressTable [] ++ deltaEncode6 (compressStream []) ++ [] ++ []) ∧
    readU32BE (deltaEncode6 (compressStream [])) 0 = 74 ∧
    (deltaEncode6 (compressStream [])).length = 7 ∧
    8 * (deltaEncode6 (compressStream [])).length <
      readU32BE (deltaEncode6 (compressStream [])) 0 := by
  refine ⟨rfl, ?_, ?_, ?_⟩ <;> rw [deltaEncode6_nil] <;> decide

/-- C9: on a buffer with a valid header and a well-formed frame table,
parse succeeds with one output record per frame whether or not any body
parses; a record whose body parse throws is downgraded to a bare Null
shape, and the remaining records are still produced. -/
theorem C9_malformed_recovery (dv : List Nat) (frames : List (Int × Int)) (wl : Int)
    (hfc : pdvI32BE dv 0 = .ok 9994) (hwl : pdvI32BE dv 24 = .ok wl)
    (hlen : 100 ≤ dv.length) (hframes : FramesAt dv (wl * 2) 100 frames)
    (hcount : frames.length ≤ dv.length + 1) :
    ∃ M : ShapefileData, parse dv = .ok M ∧ M.records = recsOf dv 100 frames ∧
      M.records.length = frames.length ∧
      ∀ (idx : Int) (e : Err), parseShape dv idx = .error e →
        pshape dv idx = ⟨0, none⟩ := by
  obtain ⟨M, hp, hr, -⟩ := parse_spec dv frames wl hfc hwl hlen hframes hcount
  exact ⟨M, hp, hr, by rw [hr, recsOf_length], fun idx e he => pshape_error he⟩

/-- C9 witness: a concrete buffer whose single record has unrecognized
shape type 99; parse succeeds and that record comes back as a Null
shape. -/
theorem C9_witness :
    (∃ M : ShapefileData, parse dvW = .ok M ∧ M.records = recsOf dvW 100 [(1, 4)] ∧
      M.records.length = ([(1, 4)] : List (Int × Int)).length ∧
      ∀ (idx : Int) (e : Err), parseShape dvW idx = .error e →
        pshape dvW idx = ⟨0, none⟩) ∧
    recsOf dvW 100 [(1, 4)] = [⟨1, 4, ⟨0, none⟩⟩] :=
  ⟨C9_malformed_recovery dvW [(1, 4)] 58 (by decide) (by decide) (by decide)
    ⟨by decide, by decide, by decide, by unfold FramesAt; decide⟩ (by decide), by decide⟩

/-- C10: on a well-formed poly-family model, the reconstructed record
numbers are 1, 2, ... regardless of the model's own numbers, and every
reconstructed record's length field is the word count recomputed from
its reconstructed content (2 for a Null record). -/
theorem C10_numbers_lengths (M : ShapefileData) (hwf : modelWF M) :
    ∃ (buf : List Nat) (M2 : ShapefileData),
      compress M = .ok buf ∧ decompress buf = .ok M2 ∧
      M2.records.map ShapeRecord.number =
        (List.range M.records.length).map (fun (j : Nat) => (j : Int) + 1) ∧
      ∀ r ∈ M2.records, r.length = contentWords r := by
  obtain ⟨buf, M2, fp, zs2, ms2, hc, hd, hsh, hrec, hlen2, htake⟩ := roundtrip_core M hwf
  refine ⟨buf, M2, hc, hd, ?_, ?_⟩
  · rw [hrec, reconRecords_numbers]
    rw [show ((modelLens M.records).map (fun parts =>
        parts.map (fun v => v.toNat))).length = M.records.length from by
      rw [List.length_map, modelLens, List.length_map]]
    apply List.map_congr_left
    intro j hj
    simp
  · rw [hrec]
    exact reconRecords_lengths M.shapeType fp zs2 ms2 _ 0 0 0

/-- C10 witness: numbers and lengths at a concrete model. -/
theorem C10_witness : ∃ (buf : List Nat) (M2 : ShapefileData),
    compress Mw3 = .ok buf ∧ decompress buf = .ok M2 ∧
    M2.records.map ShapeRecord.number =
      (List.range Mw3.records.length).map (fun (j : Nat) => (j : Int) + 1) ∧
    ∀ r ∈ M2.records, r.length = contentWords r :=
  C10_numbers_lengths Mw3 Mw3_wf

end Shp
